import Mathlib

/-!
# Dependency graph and backfill orchestration of substreams

A shallow embedding of `manifest/graph.go`: `NewModuleGraph` and the queries of
`ModuleGraph` (`topSort`, `AncestorsOf`, `AncestorStoresOf`, `ParentsOf`, `StoresDownTo`,
`ModulesDownTo`, `GroupedModulesDownTo`), together with the three routines of the
imported package `github.com/yourbasic/graph` they call (`graph.Acyclic`,
`graph.TopSort`, `graph.ShortestPaths`) and the mutable graph they run on; of
`orchestrator/workerpool.go`: `Worker.Run`, `NewWorkerPool`, `Borrow` and `ReturnWorker`;
and of `orchestrator/storagestate.go`: `FetchStorageState`.

Conventions of the embedding:

* a Go slice is a `List`; an index read `xs[i]` is `xs.getD i z` with `z` the zero
  value where Go would yield it (map reads) and an arbitrary filler where Go would
  stop with an index fault (those reads are shown to stay in range);
* a Go pointer `*Module` is an `Option Module`, `none` being `nil`;
* `int` and `int64` are `Int`: all numbers here are bounded by the number of
  modules, so no wrap-around is involved;
* a `(T, error)` result of `graph.go` is an `Except String T`; `Worker.Run` and
  `FetchStorageState` return both values, `none` being the nil error;
* a blocking operation (a channel send or receive, `eg.Stop()`) that cannot complete in a
  state gives `none`; goroutines are a step relation, and a run is a list of steps.
-/

namespace Substreams

/-! ## Data model -/

/-- Modelled from the spec: the generated protobuf type `pbtransform.Module_Input` is not
under src/. An input is a oneof: a block source, a reference to another module's map
output, or a reference to another module's store, the last two by module name.
`GetMap()` is non-nil exactly for `map`, `GetStore()` exactly for `store`. -/
inductive Input where
  | source (type : String)
  | map (moduleName : String)
  | store (moduleName : String)
  deriving DecidableEq, Repr

/-- Modelled from the spec: the oneof `Kind` of `pbtransform.Module` (not under src/);
`GetKindStore()` is non-nil exactly for `store`. -/
inductive Kind where
  | map
  | store
  deriving DecidableEq, Repr

/-- Modelled from the spec: the generated protobuf type `pbtransform.Module` is not under
src/; the fields `graph.go` reads are the name, the kind and the inputs. -/
structure Module where
  name : String
  kind : Kind
  inputs : List Input
  deriving DecidableEq, Repr

/-- The getter `GetKindStore() != nil`; protobuf getters accept a nil receiver and
answer nil. -/
def isStore : Option Module → Bool
  | some m => decide (m.kind = Kind.store)
  | none => false

/-! ## The package `github.com/yourbasic/graph` -/

/-- Modelled from the spec: `graph.Mutable` of the imported package
`github.com/yourbasic/graph` is not under src/. `edges[v]` is the map from the
neighbours `w` of `v` to the cost of the edge `v -> w`; the map is kept as an
association list with one entry per key. -/
structure Mutable where
  edges : List (List (Nat × Int))
  deriving DecidableEq, Repr

/-- The call `graph.New(n)`: `n` vertices and no edge. -/
def Mutable.New (n : Nat) : Mutable := ⟨List.replicate n []⟩

/-- The method `Order()`: the number of vertices. -/
def Mutable.Order (g : Mutable) : Nat := g.edges.length

/-- The map write `m[w] = c`: overwrite the entry of key `w`, or add one. -/
def setCost (w : Nat) (c : Int) : List (Nat × Int) → List (Nat × Int)
  | [] => [(w, c)]
  | (x, d) :: rest => if x = w then (w, c) :: rest else (x, d) :: setCost w c rest

/-- The method `AddCost(v, w, c)`: `edges[v][w] = c`. The package stops the program when
`w` is out of range (and the slice read does when `v` is); the embedding leaves the graph
unchanged there, and `NewModuleGraph` only passes indices of the module list. -/
def Mutable.AddCost (g : Mutable) (v w : Nat) (c : Int) : Mutable :=
  if w < g.edges.length ∧ v < g.edges.length then
    ⟨g.edges.set v (setCost w c (g.edges.getD v []))⟩
  else g

/-- What `Visit(v, do)` iterates over: the entries `(w, c)` of `edges[v]`. Go leaves the
iteration order of a map open; the embedding visits in order of first insertion, and the
theorems on `topsort` and `ShortestPaths` hold for every graph value, hence for every order
of the entries (`TopSort_visit_order`, `ShortestPaths_visit_order`). -/
def Mutable.out (g : Mutable) (v : Nat) : List (Nat × Int) := g.edges.getD v []

/-- The neighbours of `v`. -/
def Mutable.adj (g : Mutable) (v : Nat) : List Nat := (g.out v).map Prod.fst

/-- State of `topsort`: the in-degree table, the queue, the output order and the number
of vertices taken off the queue. -/
structure KahnState where
  indegree : List Int
  queue : List Nat
  order : List Nat
  vertexCount : Nat
  deriving DecidableEq, Repr

/-- Body of the callback in the main loop of `topsort`: `indegree[w]--`, and `w` joins
the queue when its in-degree reaches zero. -/
def kahnVisit (st : KahnState) (e : Nat × Int) : KahnState :=
  let d := st.indegree.getD e.1 0 - 1
  { st with
    indegree := st.indegree.set e.1 d
    queue := if d = 0 then st.queue ++ [e.1] else st.queue }

/-- The loop `for len(queue) > 0` of `topsort`. Every vertex enters the queue at most
once, so `Order()` rounds are enough (`kahnLoop_queue_nil`). -/
def kahnLoop (g : Mutable) (output : Bool) : Nat → KahnState → KahnState
  | 0, st => st
  | fuel + 1, st =>
    match st.queue with
    | [] => st
    | v :: q =>
      kahnLoop g output fuel
        ((g.out v).foldl kahnVisit
          { st with
            queue := q
            order := if output then st.order ++ [v] else st.order
            vertexCount := st.vertexCount + 1 })

/-- First loop of `topsort`: `indegree[w]++` for every edge `v -> w`. -/
def kahnIndegree (g : Mutable) : List Int :=
  (List.range g.Order).foldl
    (fun ind v => (g.out v).foldl (fun ind e => ind.set e.1 (ind.getD e.1 0 + 1)) ind)
    (List.replicate g.Order 0)

/-- The state in which `topsort` enters its main loop: the queue holds the vertices of
in-degree zero, in increasing order. -/
def kahnInit (g : Mutable) : KahnState :=
  { indegree := kahnIndegree g
    queue := (List.range g.Order).filter (fun v => (kahnIndegree g).getD v 0 = 0)
    order := []
    vertexCount := 0 }

/-- Modelled from the spec: `topsort` of `github.com/yourbasic/graph` (top.go) is not
under src/. Spec 4.1 names Kahn's algorithm, which is what the package runs: count the
in-degrees, queue the vertices of in-degree zero, and repeatedly take the head `v` of the
queue, append it to the order and lower the in-degree of every `w` with an edge
`v -> w`; the graph is acyclic when every vertex was taken. -/
def topsort (g : Mutable) (output : Bool) : List Nat × Bool :=
  let st := kahnLoop g output g.Order (kahnInit g)
  if st.vertexCount ≠ g.Order then (st.order, false) else (st.order, true)

/-- The function `graph.TopSort`. -/
def TopSort (g : Mutable) : List Nat × Bool := topsort g true

/-- The function `graph.Acyclic`. -/
def Acyclic (g : Mutable) : Bool := (topsort g false).2

/-- State of `ShortestPaths`: the two result tables and the content of the priority
queue. -/
structure SPState where
  parent : List Int
  dist : List Int
  queue : List Nat
  deriving DecidableEq, Repr

/-- The vertex of least cost among `v` and the vertices of `q`. -/
def minVertex (dist : List Int) (v : Nat) (q : List Nat) : Nat :=
  q.foldl (fun b u => if dist.getD u 0 < dist.getD b 0 then u else b) v

/-- The method `Pop` of the priority queue: a vertex of least `dist` leaves the queue.
The package keeps the queue as a binary heap ordered by `dist`; the embedding keeps the
content only and takes the first vertex of least cost. The distances computed are the
shortest-path distances (`ShortestPaths_isDist`), which no choice among equal costs can
change. -/
def popMin (dist : List Int) : List Nat → Option (Nat × List Nat)
  | [] => none
  | v :: q => some (minVertex dist v q, (v :: q).erase (minVertex dist v q))

/-- Body of the callback of `ShortestPaths` for the edge `v -> e.1` of cost `e.2`. The
call `Q.Fix(w)` of the second case only restores the heap order. -/
def relax (v : Nat) (st : SPState) (e : Nat × Int) : SPState :=
  if e.2 < 0 then st
  else
    let alt := st.dist.getD v 0 + e.2
    if st.dist.getD e.1 0 = -1 then
      { dist := st.dist.set e.1 alt
        parent := st.parent.set e.1 (v : Int)
        queue := st.queue ++ [e.1] }
    else if alt < st.dist.getD e.1 0 then
      { st with
        dist := st.dist.set e.1 alt
        parent := st.parent.set e.1 (v : Int) }
    else st

/-- The loop `for Q.Len() > 0` of `ShortestPaths`. A vertex is pushed only while its
distance is `-1`, so `Order()` rounds are enough (`spLoop_queue_nil`). -/
def spLoop (g : Mutable) : Nat → SPState → SPState
  | 0, st => st
  | fuel + 1, st =>
    match popMin st.dist st.queue with
    | none => st
    | some (v, q) => spLoop g fuel ((g.out v).foldl (relax v) { st with queue := q })

/-- Modelled from the spec: `graph.ShortestPaths` of `github.com/yourbasic/graph`
(path.go) is not under src/. Spec 4.1 names single-source shortest paths; the package
runs Dijkstra's algorithm: every distance starts at `-1` (not reached) except that of
the source, and the vertex of least distance is taken off the queue and its edges are
relaxed until the queue is empty. The result is `(parent, dist)`. -/
def ShortestPaths (g : Mutable) (v : Nat) : List Int × List Int :=
  let st := spLoop g g.Order
    { parent := List.replicate g.Order (-1)
      dist := (List.replicate g.Order (-1)).set v 0
      queue := [v] }
  (st.parent, st.dist)

/-- Modelled from the spec: `sort.Slice` of the Go standard library is not under src/;
it sorts the slice by the given `less`. This is insertion into a sorted list. -/
def sortInsert (less : Int → Int → Bool) (x : Int) : List Int → List Int
  | [] => [x]
  | y :: ys => if less y x then y :: sortInsert less x ys else x :: y :: ys

/-- Modelled from the spec: `sort.Slice` (see `sortInsert`). -/
def sortSlice (less : Int → Int → Bool) : List Int → List Int
  | [] => []
  | x :: xs => sortInsert less x (sortSlice less xs)

/-! ## `manifest/graph.go` -/

/-- The type `ModuleGraph`: the embedded `*graph.Mutable`, the module list and the two
indexes. A missing key of `moduleIndex` is `none` (the `found` flag); a missing key of
`indexIndex` reads as the nil pointer. -/
structure ModuleGraph where
  graph : Mutable
  modules : List Module
  moduleIndex : String → Option Nat
  indexIndex : Nat → Option Module

/-- First loop of `NewModuleGraph`, the writes `g.moduleIndex[module.Name] = i`: a later
module of the same name overwrites the entry. -/
def buildModuleIndex : List Module → Nat → (String → Option Nat) → (String → Option Nat)
  | [], _, idx => idx
  | m :: ms, i, idx =>
    buildModuleIndex ms (i + 1) (fun s => if s = m.name then some i else idx s)

/-- First loop of `NewModuleGraph`, the writes `g.indexIndex[i] = module`. -/
def buildIndexIndex : List Module → Nat → (Nat → Option Module) → (Nat → Option Module)
  | [], _, idx => idx
  | m :: ms, i, idx =>
    buildIndexIndex ms (i + 1) (fun k => if k = i then some m else idx k)

/-- The name an input contributes in the second loop of `NewModuleGraph`: the module name
of a map or store input, and the empty string (the zero value of `moduleName`) for any
other input. -/
def inputModuleName : Input → String
  | Input.map s => s
  | Input.store s => s
  | Input.source _ => ""

/-- Inner loop of `NewModuleGraph` over the inputs of module `i`: an empty name is
skipped, a name found in `moduleIndex` adds the edge `i -> j` of cost 1. -/
def addInputs (moduleIndex : String → Option Nat) (i : Nat) (gr : Mutable) :
    List Input → Mutable
  | [] => gr
  | input :: rest =>
    let moduleName := inputModuleName input
    if moduleName = "" then addInputs moduleIndex i gr rest
    else
      match moduleIndex moduleName with
      | some j => addInputs moduleIndex i (gr.AddCost i j 1) rest
      | none => addInputs moduleIndex i gr rest

/-- Second loop of `NewModuleGraph` over the modules, from index `i` on. -/
def addModules (moduleIndex : String → Option Nat) : List Module → Nat → Mutable → Mutable
  | [], _, gr => gr
  | m :: ms, i, gr => addModules moduleIndex ms (i + 1) (addInputs moduleIndex i gr m.inputs)

/-- The graph `NewModuleGraph` has assembled when it reaches its acyclicity test. -/
def assemble (modules : List Module) : ModuleGraph :=
  let moduleIndex := buildModuleIndex modules 0 (fun _ => none)
  { graph := addModules moduleIndex modules 0 (Mutable.New modules.length)
    modules := modules
    moduleIndex := moduleIndex
    indexIndex := buildIndexIndex modules 0 (fun _ => none) }

/-- The function `NewModuleGraph`. -/
def NewModuleGraph (modules : List Module) : Except String ModuleGraph :=
  let g := assemble modules
  if !Acyclic g.graph then Except.error "modules graph has a cycle"
  else Except.ok g

/-- The method `topSort`. -/
def ModuleGraph.topSort (g : ModuleGraph) : List (Option Module) × Bool :=
  let r := TopSort g.graph
  if !r.2 then ([], r.2)
  else (r.1.map g.indexIndex, r.2)

/-- The loops `for i, d := range distances` of the queries: `g.indexIndex[i]` is appended
for every index `i` whose distance `d` passes the test `keep`. -/
def selectByDist (g : ModuleGraph) (keep : Int → Option Module → Bool) :
    Nat → List Int → List (Option Module)
  | _, [] => []
  | i, d :: ds =>
    if keep d (g.indexIndex i) then g.indexIndex i :: selectByDist g keep (i + 1) ds
    else selectByDist g keep (i + 1) ds

/-- The error every query returns for a name that is not in `moduleIndex`. -/
def notFound (moduleName : String) : String :=
  "could not find module " ++ moduleName ++ " in graph"

/-- The distances the queries read: `graph.ShortestPaths(g, g.moduleIndex[moduleName])`,
a missing key reading as 0. -/
def ModuleGraph.distances (g : ModuleGraph) (moduleName : String) : List Int :=
  (ShortestPaths g.graph ((g.moduleIndex moduleName).getD 0)).2

/-- The method `AncestorsOf`. -/
def ModuleGraph.AncestorsOf (g : ModuleGraph) (moduleName : String) :
    Except String (List (Option Module)) :=
  match g.moduleIndex moduleName with
  | none => Except.error (notFound moduleName)
  | some _ =>
    Except.ok (selectByDist g (fun d _ => decide (d ≥ 1)) 0 (g.distances moduleName))

/-- The method `AncestorStoresOf`. -/
def ModuleGraph.AncestorStoresOf (g : ModuleGraph) (moduleName : String) :
    Except String (List (Option Module)) :=
  match g.AncestorsOf moduleName with
  | Except.error err => Except.error err
  | Except.ok ancestors => Except.ok (ancestors.filter isStore)

/-- The method `ParentsOf`. -/
def ModuleGraph.ParentsOf (g : ModuleGraph) (moduleName : String) :
    Except String (List (Option Module)) :=
  match g.moduleIndex moduleName with
  | none => Except.error (notFound moduleName)
  | some _ =>
    Except.ok (selectByDist g (fun d _ => decide (d = 1)) 0 (g.distances moduleName))

/-- The method `StoresDownTo`. -/
def ModuleGraph.StoresDownTo (g : ModuleGraph) (moduleName : String) :
    Except String (List (Option Module)) :=
  match g.moduleIndex moduleName with
  | none => Except.error (notFound moduleName)
  | some _ =>
    Except.ok
      (selectByDist g (fun d module => decide (d ≥ 0) && isStore module) 0
        (g.distances moduleName))

/-- The method `ModulesDownTo`. -/
def ModuleGraph.ModulesDownTo (g : ModuleGraph) (moduleName : String) :
    Except String (List (Option Module)) :=
  match g.moduleIndex moduleName with
  | none => Except.error (notFound moduleName)
  | some _ =>
    Except.ok (selectByDist g (fun d _ => decide (d ≥ 0)) 0 (g.distances moduleName))

/-- The map `distmap` with the slice `distkeys` of its keys in order of first
insertion. -/
structure DistGroups where
  distmap : Int → Option (List (Option Module))
  distkeys : List Int

/-- The loop `for _, mod := range mods` of `GroupedModulesDownTo`. Reading `mod.Name`
through a nil pointer stops the program; the embedding ends with an error there. -/
def groupLoop (g : ModuleGraph) (dist : List Int) :
    List (Option Module) → DistGroups → Except String DistGroups
  | [], acc => Except.ok acc
  | none :: _, _ => Except.error "nil pointer dereference"
  | some mod :: rest, acc =>
    let mix := (g.moduleIndex mod.name).getD 0
    let key := dist.getD mix 0
    let distkeys :=
      match acc.distmap key with
      | none => acc.distkeys ++ [key]
      | some _ => acc.distkeys
    let group := ((acc.distmap key).getD []) ++ [some mod]
    groupLoop g dist rest
      { distmap := fun k => if k = key then some group else acc.distmap k
        distkeys := distkeys }

/-- The method `GroupedModulesDownTo`. -/
def ModuleGraph.GroupedModulesDownTo (g : ModuleGraph) (moduleName : String) :
    Except String (List (List (Option Module))) :=
  match g.moduleIndex moduleName with
  | none => Except.error (notFound moduleName)
  | some v =>
    match g.ModulesDownTo moduleName with
    | Except.error err =>
      Except.error ("could not determine dependencies graph for " ++ moduleName ++ ": " ++ err)
    | Except.ok mods =>
      let dist := (ShortestPaths g.graph v).2
      match groupLoop g dist mods { distmap := fun _ => none, distkeys := [] } with
      | Except.error err => Except.error err
      | Except.ok acc =>
        let distkeys := sortSlice (fun a b => decide (b < a)) acc.distkeys
        Except.ok (distkeys.map (fun ix => (acc.distmap ix).getD []))

/-! ## Vocabulary of the specification and invariants of the loops -/

/-- The graph has the edge `u -> w`. -/
def Edge (g : Mutable) (u w : Nat) : Prop := w ∈ g.adj u

/-- Every neighbour recorded in the graph is a vertex of the graph. -/
def WellFormed (g : Mutable) : Prop := ∀ v, ∀ e ∈ g.out v, e.1 < g.Order

/-- Every edge of the graph has cost 1. -/
def UnitCost (g : Mutable) : Prop := ∀ v, ∀ e ∈ g.out v, e.2 = 1

/-- A walk of `k` edges from `u` to `w`. -/
inductive Walk (g : Mutable) : Nat → Nat → Nat → Prop where
  | nil (u : Nat) : Walk g u u 0
  | snoc {u x w k : Nat} : Walk g u x k → Edge g x w → Walk g u w (k + 1)

/-- A dependency path of at least one edge from `u` to `w`. -/
def Reaches (g : Mutable) (u w : Nat) : Prop := ∃ k, 1 ≤ k ∧ Walk g u w k

/-- No vertex has a path of at least one edge back to itself. -/
def NoCycle (g : Mutable) : Prop := ∀ v, ¬ Reaches g v v

/-- The shortest-path distance from `s` to `w` is `k`. -/
def IsDist (g : Mutable) (s w k : Nat) : Prop :=
  Walk g s w k ∧ ∀ j, Walk g s w j → k ≤ j

/-- Number of edges into `w` that leave a vertex outside `done`. -/
def inCount (g : Mutable) (done : List Nat) (w : Nat) : Nat :=
  (((List.range g.Order).filter (fun u => decide (u ∉ done))).map
    (fun u => (g.adj u).count w)).sum

/-- Invariant of `topsort` while the edges to `pend` of the vertex taken last are still
to be visited. -/
structure KInv (g : Mutable) (pend : List Nat) (st : KahnState) : Prop where
  len : st.indegree.length = g.Order
  nodup : (st.order ++ st.queue).Nodup
  lt : ∀ w ∈ st.order ++ st.queue, w < g.Order
  deg : ∀ w, w < g.Order →
    st.indegree.getD w 0 = ((inCount g st.order w + pend.count w : Nat) : Int)
  zero : ∀ w, w < g.Order → (w ∈ st.order ++ st.queue ↔ st.indegree.getD w 0 = 0)
  cnt : st.vertexCount = st.order.length
  resp : ∀ pre v post, st.order = pre ++ v :: post → ∀ u, Edge g u v → u ∈ pre

/-- In the list `l`, an occurrence of `a` comes before an occurrence of `b`. -/
def Before {α : Type} (l : List α) (a b : α) : Prop :=
  ∃ l1 l2 l3, l = l1 ++ a :: (l2 ++ b :: l3)

/-- Invariant of `ShortestPaths` shared by its two loops, for the source `s`. -/
structure SPCore (g : Mutable) (s : Nat) (st : SPState) : Prop where
  len : st.dist.length = g.Order
  qnodup : st.queue.Nodup
  qlt : ∀ q ∈ st.queue, q < g.Order ∧ 0 ≤ st.dist.getD q 0
  range : ∀ w, w < g.Order → st.dist.getD w 0 = -1 ∨ 0 ≤ st.dist.getD w 0
  slt : s < g.Order
  src : st.dist.getD s 0 = 0
  sound : ∀ w, w < g.Order → 0 ≤ st.dist.getD w 0 → Walk g s w (st.dist.getD w 0).toNat

/-- Invariant of the loop `for Q.Len() > 0` of `ShortestPaths`. -/
structure SPMain (g : Mutable) (s : Nat) (st : SPState) extends SPCore g s st : Prop where
  closed : ∀ u, u < g.Order → 0 ≤ st.dist.getD u 0 → u ∉ st.queue →
    ∀ w, Edge g u w → 0 ≤ st.dist.getD w 0 ∧ st.dist.getD w 0 ≤ st.dist.getD u 0 + 1
  level : ∀ w, w < g.Order → ∀ q ∈ st.queue, st.dist.getD w 0 ≤ st.dist.getD q 0 + 1

/-- Invariant of `ShortestPaths` while the edges from `v` to `pend` are still to be
relaxed. -/
structure SPInner (g : Mutable) (s v : Nat) (pend : List Nat) (st : SPState)
    extends SPCore g s st : Prop where
  vlt : v < g.Order
  vpos : 0 ≤ st.dist.getD v 0
  vq : v ∉ st.queue
  pendEdge : ∀ w ∈ pend, Edge g v w
  closed : ∀ u, u < g.Order → 0 ≤ st.dist.getD u 0 → u ∉ st.queue → u ≠ v →
    ∀ w, Edge g u w → 0 ≤ st.dist.getD w 0 ∧ st.dist.getD w 0 ≤ st.dist.getD u 0 + 1
  vclosed : ∀ w, Edge g v w →
    w ∈ pend ∨ (0 ≤ st.dist.getD w 0 ∧ st.dist.getD w 0 ≤ st.dist.getD v 0 + 1)
  bound : ∀ w, w < g.Order → st.dist.getD w 0 ≤ st.dist.getD v 0 + 1
  qge : ∀ q ∈ st.queue, st.dist.getD v 0 ≤ st.dist.getD q 0

/-- The quantity that drops in every round of `ShortestPaths`: the vertices not reached
yet plus the length of the queue. -/
def spMeasure (st : SPState) : Nat := st.dist.count (-1) + st.queue.length

/-- Module `i` declares a map or store input naming module `j`: the input carries the name
of module `j`. -/
def Declares (modules : List Module) (i j : Nat) : Prop :=
  ∃ mi mj, modules[i]? = some mi ∧ modules[j]? = some mj ∧
    (Input.map mj.name ∈ mi.inputs ∨ Input.store mj.name ∈ mi.inputs)

/-- Module `i` declares a map or store input with a non-empty module name, and `j` is the
last module of the list that carries this name. -/
def Resolves (modules : List Module) (i j : Nat) : Prop :=
  ∃ mi mj, modules[i]? = some mi ∧ modules[j]? = some mj ∧
    (Input.map mj.name ∈ mi.inputs ∨ Input.store mj.name ∈ mi.inputs) ∧
    mj.name ≠ "" ∧ ∀ k mk, j < k → modules[k]? = some mk → mk.name ≠ mj.name

/-- The key under which `GroupedModulesDownTo` files a module: `dist[g.moduleIndex[mod.Name]]`. -/
def keyOf (g : ModuleGraph) (dist : List Int) : Option Module → Int
  | some mod => dist.getD ((g.moduleIndex mod.name).getD 0) 0
  | none => 0

/-- Invariant of the grouping loop of `GroupedModulesDownTo` after the modules `done`:
the keys are the distinct keys met so far, and each group is the part of `done` filed
under its key, in order. -/
structure GInv (key : Option Module → Int) (done : List (Option Module)) (acc : DistGroups) :
    Prop where
  nodup : acc.distkeys.Nodup
  keys : ∀ k, k ∈ acc.distkeys ↔ ∃ x ∈ done, key x = k
  map : ∀ k, acc.distmap k =
    if k ∈ acc.distkeys then some (done.filter (fun x => decide (key x = k))) else none

/-- A module list with a diamond: `m` reads `b` and `x`, `x` reads `a` and `b`, `a` reads `b`. -/
def exStaged : List Module :=
  [ ⟨"m", Kind.map, [Input.store "b", Input.store "x"]⟩,
    ⟨"x", Kind.store, [Input.map "a", Input.store "b"]⟩,
    ⟨"a", Kind.map, [Input.store "b", Input.source "sf.ethereum.type.v1.Block"]⟩,
    ⟨"b", Kind.store, [Input.source "sf.ethereum.type.v1.Block"]⟩ ]

/-- A module list in which module `a` declares a map input with the empty module name and
another module carries the empty name. -/
def exEmptyParent : List Module :=
  [ ⟨"a", Kind.map, [Input.map ""]⟩, ⟨"", Kind.store, []⟩ ]

/-- The statement of C7 for module `m`: `ParentsOf` succeeds and returns exactly the
modules that `m` names in a map or store input. -/
def ParentsOfClaim (modules : List Module) (g : ModuleGraph) (m : Module) : Prop :=
  ∃ res, g.ParentsOf m.name = Except.ok res ∧
    ∀ (j : Nat) (p : Module), modules[j]? = some p →
      (some p ∈ res ↔ (Input.map p.name ∈ m.inputs ∨ Input.store p.name ∈ m.inputs))

/-- What the spec says of `AncestorStoresOf`: the result of `AncestorsOf` filtered to the
modules of kind store. -/
def AncestorStoresOfSpec (g : ModuleGraph) (moduleName : String) :
    Except String (List (Option Module)) :=
  (g.AncestorsOf moduleName).map (List.filter isStore)

/-- What the spec says of `StoresDownTo`: the result of `ModulesDownTo` filtered to the
modules of kind store. -/
def StoresDownToSpec (g : ModuleGraph) (moduleName : String) :
    Except String (List (Option Module)) :=
  (g.ModulesDownTo moduleName).map (List.filter isStore)

/-- The statement of C2 for the groups `gs`: no module of a group has a dependency path to
a module of the same group or of a later group. -/
def StagingClaim (modules : List Module) (g : ModuleGraph)
    (gs : List (List (Option Module))) : Prop :=
  ∀ (p q : Nat) (ga gb : List (Option Module)) (ia ib : Nat) (ma mb : Module),
    p ≤ q → gs[p]? = some ga → gs[q]? = some gb →
    modules[ia]? = some ma → modules[ib]? = some mb →
    some ma ∈ ga → some mb ∈ gb → ¬ Reaches g.graph ia ib

/-- A single module of empty name that declares a map input of empty module name. -/
def exEmptyName : List Module := [ ⟨"", Kind.map, [Input.map ""]⟩ ]

/-- Two modules of the same name `a`, the first of which declares a map input named `a`. -/
def exDupName : List Module :=
  [ ⟨"a", Kind.map, [Input.map "a"]⟩, ⟨"a", Kind.map, []⟩ ]

/-- Module `a` reads the store `b`. -/
def exPair : List Module :=
  [ ⟨"a", Kind.map, [Input.store "b"]⟩, ⟨"b", Kind.store, []⟩ ]

/-- The statement of C1 for a module list: `NewModuleGraph` returns a graph exactly when the
graph with an edge `i -> j` for every map or store input of module `i` that carries the
name of module `j` has no cycle. -/
def BuildClaim (modules : List Module) : Prop :=
  (∃ g, NewModuleGraph modules = Except.ok g) ↔
    ∀ i, ¬ Relation.TransGen (Declares modules) i i

/-- The statement of C3 for a graph: `topSort` succeeds and every module named in an input
comes before the module that declares the input. -/
def TopSortClaim (modules : List Module) (g : ModuleGraph) : Prop :=
  g.topSort.2 = true ∧
    ∀ (i j : Nat) (mi mj : Module), modules[i]? = some mi → modules[j]? = some mj →
      Declares modules i j → Before g.topSort.1 (some mj) (some mi)

/-! ## `orchestrator/workerpool.go`: `Worker.Run` (definitions) -/

/-- Modelled from the spec: Go `error` values. `eof` is the value `io.EOF`, which
`Worker.Run` recognises by identity; `wrap msg cause` is `fmt.Errorf(msg + ": %w", cause)`;
`other` is any other error. -/
inductive GoError where
  | eof
  | other (msg : String)
  | wrap (msg : String) (cause : GoError)
  deriving DecidableEq, Repr

/-- Modelled from the spec: the generated protobuf type `pbsubstreams.Response` is not under
src/. Its oneof `Message` is a progress event, a snapshot-data event, a snapshot-complete
event or a data event (section 4.3 of the spec), or is not set. -/
inductive Response where
  | progress (payload : String)
  | snapshotData (payload : String)
  | snapshotComplete (payload : String)
  | data (payload : String)
  | unset
  deriving DecidableEq, Repr

/-- The case `*pbsubstreams.Response_Progress` of the type switch of `Worker.Run`. -/
def isProgress : Response → Bool
  | Response.progress _ => true
  | _ => false

/-- Modelled from the spec: `block.Range` is not under src/; a block range `[start, stop)`. -/
structure Range where
  startBlock : Nat
  exclusiveEndBlock : Nat
  deriving DecidableEq, Repr

/-- Modelled from the spec: `pbsubstreams.Modules` is not under src/; the original module set
of the request. -/
structure Modules where
  modules : List Module
  deriving DecidableEq, Repr

/-- Modelled from the spec: `pbsubstreams.Request` is not under src/; the target module, the
module set and the block range. -/
structure Request where
  modules : Modules
  outputModule : String
  startBlockNum : Nat
  stopBlockNum : Nat
  deriving DecidableEq, Repr

/-- Modelled from the spec: `Job` (job.go is not under src/): the target output module and a
block range. -/
structure Job where
  moduleName : String
  startBlock : Nat
  stopBlock : Nat
  deriving DecidableEq, Repr

/-- Modelled from the spec: `Job.createRequest` (job.go is not under src/) builds the request
from the target module of the job, the module set and the block range of the job. -/
def Job.createRequest (job : Job) (originalModules : Modules) : Request :=
  { modules := originalModules
    outputModule := job.moduleName
    startBlockNum := job.startBlock
    stopBlockNum := job.stopBlock }

/-- What a stream returned by `grpcClient.Blocks` does: `events` are the responses that the
calls of `Recv` return, in order; `final` is the error that the call of `Recv` after the last
response returns (`io.EOF` when the stream ends cleanly); `trailer` is
`stream.Trailer().Get("substreams-partials-written")`. -/
structure Stream where
  events : List Response
  final : GoError
  trailer : List String
  deriving DecidableEq, Repr

/-- The interface `pbsubstreams.StreamClient`, of which `Worker.Run` calls `Blocks`. -/
structure StreamClient where
  blocks : Request → Except GoError Stream

/-- The context of a run: `done k` tells whether `ctx.Done()` is closed when the loop of
`Worker.Run` looks at it for the `k`-th time (counting from 0), `err` is `ctx.Err()`. -/
structure Context where
  done : Nat → Bool
  err : GoError

/-- The type `substreams.ResponseFunc`. A Go function value may keep state, so the callback
reads the responses it was called with before. -/
abbrev ResponseFunc := List Response → Response → Option GoError

/-- The type `Worker`. The factory is called once per run. -/
structure Worker where
  grpcClientFactory : Unit → Except GoError StreamClient
  originalRequestModules : Modules

/-- What a call of `Worker.Run` returns and does: the two return values (`ranges` is empty
for the nil slice, `err` is `none` for the nil error), whether `grpcClient.Blocks` was
called, how often the loop looked at `ctx.Done()`, how often it called `stream.Recv`, and
the responses it passed to `respFunc`, in order. -/
structure RunOutcome where
  ranges : List Range
  err : Option GoError
  blocksCalled : Bool
  checks : Nat
  receives : Nat
  calls : List Response
  deriving DecidableEq, Repr

/-- The first value of the trailer parsed by `block.ParseRanges`, or no range when the
trailer is absent. -/
def writtenRanges (parseRanges : String → List Range) (trailer : List String) : List Range :=
  match trailer with
  | [] => []
  | first :: _ => parseRanges first

/-- The loop `for { ... }` of `Worker.Run`, entered for the `k`-th time with the responses
`events` still to come and after the calls `calls` of `respFunc`. -/
def recvLoop (parseRanges : String → List Range) (ctx : Context) (respFunc : ResponseFunc)
    (stream : Stream) : List Response → Nat → List Response → RunOutcome
  | events, k, calls =>
    if ctx.done k then
      { ranges := [], err := some ctx.err, blocksCalled := true
        checks := k + 1, receives := k, calls := calls }
    else
      match events with
      | [] =>
        if stream.final = GoError.eof then
          { ranges := writtenRanges parseRanges stream.trailer, err := none
            blocksCalled := true, checks := k + 1, receives := k + 1, calls := calls }
        else
          { ranges := [], err := some (GoError.wrap "receiving stream resp" stream.final)
            blocksCalled := true, checks := k + 1, receives := k + 1, calls := calls }
      | resp :: rest =>
        if isProgress resp then
          match respFunc calls resp with
          | some err =>
            { ranges := [], err := some (GoError.wrap "sending progress" err)
              blocksCalled := true, checks := k + 1, receives := k + 1
              calls := calls ++ [resp] }
          | none => recvLoop parseRanges ctx respFunc stream rest (k + 1) (calls ++ [resp])
        else recvLoop parseRanges ctx respFunc stream rest (k + 1) calls

/-- The method `Worker.Run`. `parseRanges` is `block.ParseRanges`, which is not under
src/. -/
def Worker.Run (parseRanges : String → List Range) (w : Worker) (ctx : Context) (job : Job)
    (respFunc : ResponseFunc) : RunOutcome :=
  match w.grpcClientFactory () with
  | Except.error err =>
    { ranges := [], err := some (GoError.wrap "grpc client factory" err)
      blocksCalled := false, checks := 0, receives := 0, calls := [] }
  | Except.ok grpcClient =>
    match grpcClient.blocks (job.createRequest w.originalRequestModules) with
    | Except.error err =>
      { ranges := [], err := some (GoError.wrap "getting block stream" err)
        blocksCalled := true, checks := 0, receives := 0, calls := [] }
    | Except.ok stream => recvLoop parseRanges ctx respFunc stream stream.events 0 []

/-- The responses `pre` are received one after the other from the `k`-th round of the loop
on, after the calls `calls`: the context is not cancelled when the loop looks at it and
`respFunc` returns no error for a progress event. -/
def deliveredFrom (ctx : Context) (respFunc : ResponseFunc) :
    List Response → Nat → List Response → Bool
  | [], _, _ => true
  | resp :: pre, k, calls =>
    !ctx.done k &&
      (if isProgress resp then
        (respFunc calls resp).isNone && deliveredFrom ctx respFunc pre (k + 1) (calls ++ [resp])
      else deliveredFrom ctx respFunc pre (k + 1) calls)

/-- A worker whose factory returns a client whose stream is `stream`. -/
def workerOf (stream : Stream) : Worker :=
  { grpcClientFactory := fun _ => Except.ok { blocks := fun _ => Except.ok stream }
    originalRequestModules := { modules := [] } }

/-- A stream of three responses that ends cleanly with the trailer `[200,300)`. -/
def exStream : Stream :=
  { events := [Response.progress "p1", Response.data "d1", Response.progress "p2"]
    final := GoError.eof
    trailer := ["[200,300)"] }

/-- A stand-in for `block.ParseRanges` that knows the range `[200,300)`. -/
def exParseRanges (s : String) : List Range :=
  if s = "[200,300)" then [⟨200, 300⟩] else []

/-- A context that is never cancelled. -/
def exContext : Context := { done := fun _ => false, err := GoError.other "context canceled" }

/-- A context that is cancelled from the third look on. -/
def exCancelled : Context :=
  { done := fun k => decide (2 ≤ k), err := GoError.other "context canceled" }

/-- A job on the module `m`. -/
def exJob : Job := { moduleName := "m", startBlock := 100, stopBlock := 300 }

/-! ## `orchestrator/workerpool.go`: the pool (definitions) -/

/-- A buffered Go channel: the values in its buffer, oldest first, and its capacity. -/
structure Chan (α : Type) where
  buf : List α
  cap : Nat

/-- The call `make(chan T, n)`; it stops the program (`none`) when `n` is negative. -/
def Chan.make (α : Type) (n : Int) : Option (Chan α) :=
  if n < 0 then none else some { buf := [], cap := n.toNat }

/-- The statement `ch <- x`. It completes when the buffer has room; otherwise the sender
waits (`none`) until a receive makes room. -/
def Chan.send {α : Type} (ch : Chan α) (x : α) : Option (Chan α) :=
  if ch.buf.length < ch.cap then some { ch with buf := ch.buf ++ [x] } else none

/-- The expression `<-ch`. It completes with the oldest value of the buffer; on an empty
buffer the receiver waits (`none`) until a send. -/
def Chan.recv {α : Type} (ch : Chan α) : Option (α × Chan α) :=
  match ch.buf with
  | [] => none
  | x :: rest => some (x, { ch with buf := rest })

/-- A pointer `*Worker`: the address of the allocation `&Worker{...}` and the value it
points to. -/
structure WorkerRef where
  addr : Nat
  target : Worker

/-- The type `WorkerPool`. -/
structure WorkerPool where
  workers : Chan WorkerRef

/-- The loop `for i := 0; i < workerCount; i++` of `NewWorkerPool`, with `n` rounds to go:
each round allocates a worker and sends it on the channel. -/
def fillWorkers (originalRequestModules : Modules)
    (grpcClientFactory : Unit → Except GoError StreamClient) :
    Nat → Nat → Chan WorkerRef → Option (Chan WorkerRef)
  | 0, _, workers => some workers
  | n + 1, i, workers =>
    match workers.send
      { addr := i
        target :=
          { originalRequestModules := originalRequestModules
            grpcClientFactory := grpcClientFactory } } with
    | none => none
    | some workers' => fillWorkers originalRequestModules grpcClientFactory n (i + 1) workers'

/-- The function `NewWorkerPool`; `none` when it does not return (`make` stops the program
on a negative count, a send that finds the channel full would wait for ever). -/
def NewWorkerPool (workerCount : Int) (originalRequestModules : Modules)
    (grpcClientFactory : Unit → Except GoError StreamClient) : Option WorkerPool :=
  match Chan.make WorkerRef workerCount with
  | none => none
  | some workers =>
    match fillWorkers originalRequestModules grpcClientFactory workerCount.toNat 0 workers with
    | none => none
    | some workers' => some { workers := workers' }

/-- The method `Borrow`; `none` while it waits for a worker. -/
def WorkerPool.Borrow (p : WorkerPool) : Option (WorkerRef × WorkerPool) :=
  match p.workers.recv with
  | none => none
  | some (w, workers) => some (w, { workers := workers })

/-- The method `ReturnWorker`; `none` while it waits for room in the channel. -/
def WorkerPool.ReturnWorker (p : WorkerPool) (worker : WorkerRef) : Option WorkerPool :=
  match p.workers.send worker with
  | none => none
  | some workers => some { workers := workers }

/-- A call on the pool that has completed: a `Borrow`, or a `ReturnWorker` of a worker. -/
inductive PoolOp where
  | borrow
  | giveBack (worker : WorkerRef)

/-- A pool together with the addresses of the workers that are lent out. -/
structure PoolState where
  pool : WorkerPool
  lent : List Nat

/-- One completed call; `none` when the call cannot complete in this state. -/
def PoolState.step (st : PoolState) : PoolOp → Option PoolState
  | PoolOp.borrow =>
    match st.pool.Borrow with
    | none => none
    | some (w, p) => some { pool := p, lent := w.addr :: st.lent }
  | PoolOp.giveBack w =>
    match st.pool.ReturnWorker w with
    | none => none
    | some p => some { pool := p, lent := st.lent.erase w.addr }

/-- A sequence of completed calls, one after the other. -/
def runOps : List PoolOp → PoolState → Option PoolState
  | [], st => some st
  | op :: ops, st =>
    match st.step op with
    | none => none
    | some st' => runOps ops st'

/-- Every `ReturnWorker` of the sequence gives back a worker that is lent out at that
moment. -/
def validOps : List PoolOp → PoolState → Bool
  | [], _ => true
  | op :: ops, st =>
    (match op with
      | PoolOp.borrow => true
      | PoolOp.giveBack w => decide (w.addr ∈ st.lent)) &&
    (match st.step op with
      | none => true
      | some st' => validOps ops st')

/-- A client factory that always fails. -/
def exFactory : Unit → Except GoError StreamClient :=
  fun _ => Except.error (GoError.other "no endpoint")

/-! ## `orchestrator/storagestate.go` (definitions) -/

/-- Modelled from the spec: `state.Store` is not under src/; of a store `FetchStorageState`
reads the field `Store`, its backing location. -/
structure Store where
  location : String
  deriving DecidableEq, Repr

/-- Modelled from the spec: the type `Snapshots` (snapshots.go is not under src/): an ordered
collection of snapshot descriptors, each a committed block range. -/
structure Snapshots where
  ranges : List Range
  deriving DecidableEq, Repr

/-- The type `StorageState`: the map `Snapshots`, kept as an association list with one entry
per key. -/
structure StorageState where
  snapshots : List (String × Snapshots)
  deriving DecidableEq, Repr

/-- The map write `out.Snapshots[name] = snapshots`. -/
def setSnapshots (name : String) (snapshots : Snapshots) :
    List (String × Snapshots) → List (String × Snapshots)
  | [] => [(name, snapshots)]
  | (k, v) :: rest =>
    if k = name then (name, snapshots) :: rest else (k, v) :: setSnapshots name snapshots rest

/-- The state of a call of `FetchStorageState`, between two steps of its goroutines.
`pending` are the entries of `stores` the `range` loop has still to visit, in the order in
which it visits them. `storeName` is the loop variable of that name: the loop has one
variable for all its rounds, and the function literal handed to `eg.Go` refers to it,
whereas `s := store` gives every round a variable of its own. `atStop` is the store of the
round that has assigned the loop variables and stands at `eg.Stop()`. `inflight` are the
copies `s` of the goroutines started by `eg.Go` that have not finished. `firstErr` is the
error the group has recorded, `out` is `out.Snapshots`, and `started` lists the stores whose
listing was started. -/
structure FetchState where
  pending : List (String × Store)
  storeName : String
  atStop : Option Store
  inflight : List Store
  firstErr : Option GoError
  out : List (String × Snapshots)
  started : List Store
  deriving DecidableEq, Repr

/-- A step of a call of `FetchStorageState`: the loop assigns its variables for the next
round (`advance`), the round at `eg.Stop()` goes on (`dispatch`), or the goroutine at
position `i` of `inflight` runs to its end (`finish i`). -/
inductive FetchStep where
  | advance
  | dispatch
  | finish (i : Nat)
  deriving DecidableEq, Repr

/-- The state in which `FetchStorageState` enters its loop, `stores` being the entries of
the map in the order in which `range` visits them. -/
def initFetch (stores : List (String × Store)) : FetchState :=
  { pending := stores, storeName := "", atStop := none, inflight := [], firstErr := none
    out := [], started := [] }

/-- Modelled from the spec: the package `github.com/abourget/llerrgroup` is not under src/.
By section 4.2 of the spec the group runs at most 10 listings at a time, starts no listing
once a listing has failed, and lets the listings already started finish: `eg.Stop()` answers
true when an error is recorded, answers false and takes one of the 10 places otherwise, and
waits while no place is free; `eg.Go` runs the function in a goroutine of its own, which
gives the place back and records the first error. `listSnapshots` (not under src/ either) is
the parameter `list`. A step that cannot be taken in the state gives `none`. -/
def FetchState.step (list : Store → Except GoError Snapshots) (st : FetchState) :
    FetchStep → Option FetchState
  | FetchStep.advance =>
    match st.atStop, st.pending with
    | none, (storeName, store) :: rest =>
      some { st with pending := rest, storeName := storeName, atStop := some store }
    | _, _ => none
  | FetchStep.dispatch =>
    match st.atStop with
    | none => none
    | some store =>
      if st.firstErr.isSome then some { st with atStop := none }
      else if st.inflight.length < 10 then
        some { st with
          atStop := none
          inflight := st.inflight ++ [store]
          started := st.started ++ [store] }
      else none
  | FetchStep.finish i =>
    match st.inflight[i]? with
    | none => none
    | some s =>
      match list s with
      | Except.error err =>
        some { st with
          inflight := st.inflight.eraseIdx i
          firstErr := match st.firstErr with
            | some first => some first
            | none => some err }
      | Except.ok snapshots =>
        some { st with
          inflight := st.inflight.eraseIdx i
          out := setSnapshots st.storeName snapshots st.out }

/-- The steps of a schedule, one after the other. -/
def runSchedule (list : Store → Except GoError Snapshots) :
    List FetchStep → FetchState → Option FetchState
  | [], st => some st
  | a :: sched, st =>
    match st.step list a with
    | none => none
    | some st' => runSchedule list sched st'

/-- The loop has visited every entry and `eg.Wait()` returns: no goroutine is left. -/
def FetchState.finished (st : FetchState) : Bool :=
  st.pending.isEmpty && st.atStop.isNone && st.inflight.isEmpty

/-- What `FetchStorageState` returns from a finished state: the state and the error, `none`
being nil. -/
def fetchResult (st : FetchState) : Option StorageState × Option GoError :=
  match st.firstErr with
  | some err => (none, some (GoError.wrap "running list snapshots" err))
  | none => (some { snapshots := st.out }, none)

/-- The schedule that runs every listing to its end before the loop goes on; `failed` tells
whether a listing has failed, after which no goroutine is started. -/
def sequentialSchedule (list : Store → Except GoError Snapshots) :
    Bool → List (String × Store) → List FetchStep
  | _, [] => []
  | true, _ :: rest =>
    FetchStep.advance :: FetchStep.dispatch :: sequentialSchedule list true rest
  | false, (_, store) :: rest =>
    FetchStep.advance :: FetchStep.dispatch :: FetchStep.finish 0 ::
      sequentialSchedule list (!(list store).toBool) rest

/-- Two stores `A` and `B`. -/
def exStores : List (String × Store) := [("A", ⟨"loc-a"⟩), ("B", ⟨"loc-b"⟩)]

/-- A listing that succeeds for every store: `loc-a` has the snapshot `[0, 100)`, every
other location the snapshot `[0, 200)`. -/
def exList (s : Store) : Except GoError Snapshots :=
  if s.location = "loc-a" then Except.ok ⟨[⟨0, 100⟩]⟩ else Except.ok ⟨[⟨0, 200⟩]⟩

/-- A listing that fails for the location `loc-b`. -/
def exListFails (s : Store) : Except GoError Snapshots :=
  if s.location = "loc-b" then Except.error (GoError.other "listing loc-b")
  else Except.ok ⟨[⟨0, 100⟩]⟩

/-- A schedule in which both goroutines write after the loop has reached `B`. -/
def exLateSchedule : List FetchStep :=
  [FetchStep.advance, FetchStep.dispatch, FetchStep.advance, FetchStep.dispatch,
    FetchStep.finish 1, FetchStep.finish 0]

/-- The statement of C18 for a finished state reached from `stores`: `out.Snapshots` has one
entry per name of `stores`, and the entry of a name is the listing of the store of that
name. -/
def FetchEntriesClaim (list : Store → Except GoError Snapshots)
    (stores : List (String × Store)) (st : FetchState) : Prop :=
  (st.out.map Prod.fst).Perm (stores.map Prod.fst) ∧
  ∀ name store, (name, store) ∈ stores →
    ∃ snapshots, list store = Except.ok snapshots ∧ (name, snapshots) ∈ st.out

/-- Invariant of a call of `FetchStorageState`: the error recorded is the error of a listing
that was started, a started listing that fails is still running or an error is recorded, and
the loop meets entries of `stores` only. -/
structure FInv (list : Store → Except GoError Snapshots) (stores : List (String × Store))
    (st : FetchState) : Prop where
  recorded : ∀ e, st.firstErr = some e → ∃ s ∈ st.started, list s = Except.error e
  failing : ∀ s ∈ st.started, ∀ e, list s = Except.error e →
    s ∈ st.inflight ∨ st.firstErr ≠ none
  startedSub : ∀ s ∈ st.started, ∃ name, (name, s) ∈ stores
  stopSub : ∀ s, st.atStop = some s → ∃ name, (name, s) ∈ stores
  pendingSub : ∀ p ∈ st.pending, p ∈ stores
  flying : ∀ s ∈ st.inflight, s ∈ st.started

/-- Three stores `A`, `B` and `C`. -/
def exThreeStores : List (String × Store) :=
  [("A", ⟨"loc-a"⟩), ("B", ⟨"loc-b"⟩), ("C", ⟨"loc-c"⟩)]

/-- A listing that succeeds for every store: `loc-a` has the snapshot `[0, 100)`, `loc-b`
the snapshot `[0, 200)`, every other location the snapshot `[0, 300)`. -/
def exListThree (s : Store) : Except GoError Snapshots :=
  if s.location = "loc-a" then Except.ok ⟨[⟨0, 100⟩]⟩
  else if s.location = "loc-b" then Except.ok ⟨[⟨0, 200⟩]⟩
  else Except.ok ⟨[⟨0, 300⟩]⟩

/-- A schedule in which the listing of `A` ends before the loop goes on, and the listings of
`B` and of `C` end after the loop has reached `C`. -/
def exPartialSchedule : List FetchStep :=
  [FetchStep.advance, FetchStep.dispatch, FetchStep.finish 0,
    FetchStep.advance, FetchStep.dispatch, FetchStep.advance, FetchStep.dispatch,
    FetchStep.finish 0, FetchStep.finish 0]

/-! ## Theorems -/

/-! ## Lists as Go slices -/

theorem getD_set_self {α : Type} (l : List α) (i : Nat) (x z : α) (h : i < l.length) :
    (l.set i x).getD i z = x := by
  simp [List.getD_eq_getElem?_getD, List.getElem?_set, h]

theorem getD_set_other {α : Type} (l : List α) (i j : Nat) (x z : α) (h : i ≠ j) :
    (l.set i x).getD j z = l.getD j z := by
  simp [List.getD_eq_getElem?_getD, List.getElem?_set, h]

theorem nodup_lt_length_le (l : List Nat) (n : Nat) (hn : l.Nodup) (hl : ∀ x ∈ l, x < n) :
    l.length ≤ n := by
  have hsub : l ⊆ List.range n := fun x hx => List.mem_range.mpr (hl x hx)
  have := (List.subperm_of_subset hn hsub).length_le
  simpa using this

theorem nodup_lt_full (l : List Nat) (n : Nat) (hn : l.Nodup) (hl : ∀ x ∈ l, x < n)
    (hlen : n ≤ l.length) : ∀ x, x < n → x ∈ l := by
  have hsub : l ⊆ List.range n := fun x hx => List.mem_range.mpr (hl x hx)
  have hp : l.Perm (List.range n) :=
    (List.subperm_of_subset hn hsub).perm_of_length_le (by simpa using hlen)
  intro x hx
  exact hp.mem_iff.mpr (List.mem_range.mpr hx)

/-! ## Walks -/

theorem walk_append {g : Mutable} {u x w k j : Nat} (h1 : Walk g u x k) (h2 : Walk g x w j) :
    Walk g u w (k + j) := by
  induction h2 with
  | nil => simpa using h1
  | snoc _ he ih => exact Walk.snoc ih he

theorem reaches_of_edge {g : Mutable} {u w : Nat} (h : Edge g u w) : Reaches g u w :=
  ⟨1, le_refl 1, Walk.snoc (Walk.nil u) h⟩

theorem reaches_trans {g : Mutable} {u x w : Nat} (h1 : Reaches g u x) (h2 : Reaches g x w) :
    Reaches g u w := by
  obtain ⟨k, hk, w1⟩ := h1
  obtain ⟨j, _, w2⟩ := h2
  exact ⟨k + j, by omega, walk_append w1 w2⟩

theorem adj_of_ge (g : Mutable) (u : Nat) (h : g.Order ≤ u) : g.adj u = [] := by
  unfold Mutable.adj Mutable.out
  unfold Mutable.Order at h
  simp [List.getD_eq_getElem?_getD, List.getElem?_eq_none h]

theorem edge_lt_left {g : Mutable} {u w : Nat} (h : Edge g u w) : u < g.Order := by
  by_contra hc
  have := adj_of_ge g u (by omega)
  unfold Edge at h
  rw [this] at h
  simp at h

theorem edge_lt_right {g : Mutable} (hg : WellFormed g) {u w : Nat} (h : Edge g u w) :
    w < g.Order := by
  unfold Edge Mutable.adj at h
  obtain ⟨e, he, rfl⟩ := List.mem_map.mp h
  exact hg u e he

theorem walk_lt_right {g : Mutable} (hg : WellFormed g) {u w k : Nat} (h : Walk g u w k)
    (hu : u < g.Order) : w < g.Order := by
  cases h with
  | nil => exact hu
  | snoc _ he => exact edge_lt_right hg he

/-- A non-empty set of vertices in which every vertex has a predecessor contains a
cycle. -/
theorem exists_cycle_of_pred (g : Mutable) (R : Nat → Prop) (w0 : Nat) (h0 : R w0)
    (hlt : ∀ w, R w → w < g.Order) (hpred : ∀ w, R w → ∃ u, R u ∧ Edge g u w) :
    ¬ NoCycle g := by
  intro hno
  let r : Fin g.Order → Fin g.Order → Prop := fun a b => Reaches g a.val b.val
  haveI : IsTrans (Fin g.Order) r := ⟨fun _ _ _ h1 h2 => reaches_trans h1 h2⟩
  haveI : IsIrrefl (Fin g.Order) r := ⟨fun a h => hno a.val h⟩
  have wf : WellFounded r := Finite.wellFounded_of_trans_of_irrefl r
  obtain ⟨m, hm, hmin⟩ := wf.has_min {x : Fin g.Order | R x.val} ⟨⟨w0, hlt w0 h0⟩, h0⟩
  obtain ⟨u, hu, he⟩ := hpred m.val hm
  exact hmin ⟨u, hlt u hu⟩ hu (reaches_of_edge he)

theorem inCount_aux (f : Nat → Nat) (done : List Nat) (v : Nat) (hv : v ∉ done) (l : List Nat) :
    ((l.filter (fun u => decide (u ∉ done))).map f).sum
      = ((l.filter (fun u => decide (u ∉ done ++ [v]))).map f).sum + l.count v * f v := by
  induction l with
  | nil => simp
  | cons a l ih =>
    by_cases hav : a = v
    · subst hav
      simp only [List.filter_cons, List.count_cons_self]
      simp [hv] at ih ⊢
      rw [ih]; ring
    · have hva : ¬ (a == v) = true := by simpa using hav
      by_cases had : a ∈ done
      · simp [List.filter_cons, had, List.count_cons, hva] at ih ⊢
        exact ih
      · simp [List.filter_cons, had, hav, List.count_cons, hva] at ih ⊢
        rw [ih]; ring

theorem inCount_snoc (g : Mutable) (done : List Nat) (v w : Nat) (hv : v ∉ done)
    (hlt : v < g.Order) :
    inCount g done w = inCount g (done ++ [v]) w + (g.adj v).count w := by
  unfold inCount
  rw [inCount_aux (fun u => (g.adj u).count w) done v hv]
  have : (List.range g.Order).count v = 1 :=
    List.count_eq_one_of_mem (List.nodup_range _) (List.mem_range.mpr hlt)
  rw [this]; simp

theorem inCount_eq_zero (g : Mutable) (done : List Nat) (w : Nat) (h : inCount g done w = 0)
    (u : Nat) (hu : Edge g u w) : u ∈ done := by
  by_contra hnd
  unfold inCount at h
  rw [List.sum_eq_zero_iff] at h
  have := h ((g.adj u).count w) (List.mem_map.mpr ⟨u, by
    simp [List.mem_filter, hnd, edge_lt_left hu], rfl⟩)
  exact (List.count_eq_zero.mp this) hu

theorem inCount_ne_zero (g : Mutable) (done : List Nat) (w : Nat) (h : inCount g done w ≠ 0) :
    ∃ u, u < g.Order ∧ u ∉ done ∧ Edge g u w := by
  unfold inCount at h
  rw [Ne, List.sum_eq_zero_iff] at h
  push_neg at h
  obtain ⟨c, hc, hne⟩ := h
  obtain ⟨u, hu, rfl⟩ := List.mem_map.mp hc
  simp [List.mem_filter] at hu
  refine ⟨u, hu.1, hu.2, ?_⟩
  by_contra hcon
  exact hne (List.count_eq_zero.mpr hcon)

theorem kahnVisit_inv (g : Mutable) (w : Nat) (c : Int) (ws : List Nat) (st : KahnState)
    (hw : w < g.Order) (h : KInv g (w :: ws) st) : KInv g ws (kahnVisit st (w, c)) := by
  have hlen := h.len
  have hdw := h.deg w hw
  simp only [List.count_cons_self] at hdw
  have hnot : w ∉ st.order ++ st.queue := by
    intro hm
    have := (h.zero w hw).mp hm
    rw [this] at hdw
    omega
  obtain ⟨d, hd⟩ : ∃ d, d = st.indegree.getD w 0 - 1 := ⟨_, rfl⟩
  have hk : kahnVisit st (w, c) =
      { st with
        indegree := st.indegree.set w d
        queue := if d = 0 then st.queue ++ [w] else st.queue } := by
    rw [hd]; rfl
  rw [hk]
  have hnew : (st.indegree.set w d).getD w 0
      = ((inCount g st.order w + ws.count w : Nat) : Int) := by
    rw [getD_set_self _ _ _ _ (by omega), hd, hdw]; push_cast; ring
  have hoth : ∀ x, x ≠ w → (st.indegree.set w d).getD x 0
      = st.indegree.getD x 0 := fun x hx => getD_set_other _ _ _ _ _ (Ne.symm hx)
  have hdeg : ∀ x, x < g.Order → (st.indegree.set w d).getD x 0
      = ((inCount g st.order x + ws.count x : Nat) : Int) := by
    intro x hx
    by_cases hxw : x = w
    · subst hxw; exact hnew
    · rw [hoth x hxw, h.deg x hx]
      have : ¬ (w == x) = true := by simpa using Ne.symm hxw
      simp [List.count_cons, this]
  have hself : (st.indegree.set w d).getD w 0 = d := getD_set_self _ _ _ _ (by omega)
  by_cases hd0 : d = 0
  · have hmem : ∀ x, x ∈ st.order ++ (st.queue ++ [w]) ↔ x ∈ st.order ++ st.queue ∨ x = w := by
      intro x; simp [or_assoc]
    simp only [hd0, if_true]
    rw [hd0] at hself hoth hdeg
    refine ⟨?_, ?_, ?_, hdeg, ?_, h.cnt, h.resp⟩
    · show (st.indegree.set w 0).length = g.Order
      simp [hlen]
    · show (st.order ++ (st.queue ++ [w])).Nodup
      rw [← List.append_assoc]
      exact List.Nodup.append h.nodup (List.nodup_singleton w) (by
        intro x hx hx2
        rw [List.mem_singleton] at hx2
        subst hx2; exact hnot hx)
    · intro x hx
      rcases (hmem x).mp hx with hx | hx
      · exact h.lt x hx
      · subst hx; exact hw
    · intro x hx
      show x ∈ st.order ++ (st.queue ++ [w]) ↔ (st.indegree.set w 0).getD x 0 = 0
      rw [hmem]
      by_cases hxw : x = w
      · subst hxw
        rw [hself]
        simp
      · rw [hoth x hxw, ← h.zero x hx]
        simp [hxw]
  · simp only [hd0, if_false]
    refine ⟨?_, h.nodup, h.lt, hdeg, ?_, h.cnt, h.resp⟩
    · show (st.indegree.set w d).length = g.Order
      simp [hlen]
    · intro x hx
      show x ∈ st.order ++ st.queue ↔ (st.indegree.set w d).getD x 0 = 0
      by_cases hxw : x = w
      · subst hxw
        rw [hself]
        simp [hd0, hnot]
      · rw [hoth x hxw, ← h.zero x hx]

theorem kahnVisit_foldl_inv (g : Mutable) (es : List (Nat × Int)) (st : KahnState)
    (hes : ∀ e ∈ es, e.1 < g.Order) (h : KInv g (es.map Prod.fst) st) :
    KInv g [] (es.foldl kahnVisit st) := by
  induction es generalizing st with
  | nil => simpa using h
  | cons e es ih =>
    simp only [List.foldl_cons]
    apply ih _ (fun e' he' => hes e' (List.mem_cons_of_mem _ he'))
    exact kahnVisit_inv g e.1 e.2 _ st (hes e (List.mem_cons_self _ _)) (by simpa using h)

theorem kahn_pop_inv (g : Mutable) (st : KahnState) (v : Nat) (q : List Nat)
    (hq : st.queue = v :: q) (h : KInv g [] st) :
    KInv g (g.adj v)
      { st with queue := q, order := st.order ++ [v], vertexCount := st.vertexCount + 1 } := by
  have hvlt : v < g.Order := h.lt v (by simp [hq])
  have hnd := h.nodup
  rw [hq] at hnd
  have hvo : v ∉ st.order := by
    intro hm
    have := (List.nodup_append.mp hnd).2.2
    exact this hm (List.mem_cons_self _ _)
  have hmem : ∀ x, x ∈ (st.order ++ [v]) ++ q ↔ x ∈ st.order ++ st.queue := by
    intro x; simp [hq]
  refine ⟨h.len, ?_, ?_, ?_, ?_, ?_, ?_⟩
  · show ((st.order ++ [v]) ++ q).Nodup
    simpa using hnd
  · intro x hx
    exact h.lt x ((hmem x).mp hx)
  · intro x hx
    show st.indegree.getD x 0 = _
    rw [h.deg x hx, inCount_snoc g st.order v x hvo hvlt]
    simp
  · intro x hx
    show x ∈ (st.order ++ [v]) ++ q ↔ _
    rw [hmem, h.zero x hx]
  · show st.vertexCount + 1 = (st.order ++ [v]).length
    simp [h.cnt]
  · intro pre x post hp u hu
    change st.order ++ [v] = pre ++ x :: post at hp
    rcases List.eq_nil_or_concat post with hpost | ⟨post', y, hpost⟩
    · subst hpost
      have h2 : st.order ++ [v] = pre ++ [x] := hp
      obtain ⟨h3, h4⟩ := List.append_inj' h2 rfl
      have hxv : x = v := by simpa using h4.symm
      subst hxv
      rw [← h3]
      have hz := (h.zero x hvlt).mp (by simp [hq])
      have hdeg := h.deg x hvlt
      rw [hz] at hdeg
      apply inCount_eq_zero g st.order x _ u hu
      simp at hdeg
      omega
    · subst hpost
      have h2 : st.order ++ [v] = (pre ++ x :: post') ++ [y] := by
        rw [hp]; simp
      obtain ⟨h3, _⟩ := List.append_inj' h2 rfl
      exact h.resp pre x post' h3 u hu

theorem incr_foldl_length (es : List (Nat × Int)) (ind : List Int) :
    (es.foldl (fun ind e => ind.set e.1 (ind.getD e.1 0 + 1)) ind).length = ind.length := by
  induction es generalizing ind with
  | nil => rfl
  | cons e es ih => simp only [List.foldl_cons]; rw [ih]; simp

theorem incr_foldl_getD (es : List (Nat × Int)) (ind : List Int) (w : Nat)
    (hw : w < ind.length) :
    (es.foldl (fun ind e => ind.set e.1 (ind.getD e.1 0 + 1)) ind).getD w 0
      = ind.getD w 0 + (((es.map Prod.fst).count w : Nat) : Int) := by
  induction es generalizing ind with
  | nil => simp
  | cons e es ih =>
    simp only [List.foldl_cons]
    rw [ih _ (by simpa using hw)]
    by_cases hew : e.1 = w
    · rw [hew, getD_set_self _ _ _ _ hw]
      simp [List.count_cons, hew]; ring
    · rw [getD_set_other _ _ _ _ _ hew]
      have : ¬ (e.1 == w) = true := by simpa using hew
      simp [List.count_cons, this]

theorem indegree_foldl_length (g : Mutable) (us : List Nat) (ind : List Int) :
    (us.foldl
      (fun ind v => (g.out v).foldl (fun ind e => ind.set e.1 (ind.getD e.1 0 + 1)) ind)
      ind).length = ind.length := by
  induction us generalizing ind with
  | nil => rfl
  | cons u us ih => simp only [List.foldl_cons]; rw [ih, incr_foldl_length]

theorem indegree_foldl_getD (g : Mutable) (us : List Nat) (ind : List Int) (w : Nat)
    (hw : w < ind.length) :
    (us.foldl
      (fun ind v => (g.out v).foldl (fun ind e => ind.set e.1 (ind.getD e.1 0 + 1)) ind)
      ind).getD w 0
      = ind.getD w 0 + (((us.map (fun u => (g.adj u).count w)).sum : Nat) : Int) := by
  induction us generalizing ind with
  | nil => simp
  | cons u us ih =>
    simp only [List.foldl_cons]
    rw [ih _ (by rw [incr_foldl_length]; exact hw), incr_foldl_getD _ _ _ hw]
    simp [Mutable.adj]; ring

theorem kahnIndegree_length (g : Mutable) : (kahnIndegree g).length = g.Order := by
  unfold kahnIndegree
  rw [indegree_foldl_length]; simp

theorem kahnIndegree_getD (g : Mutable) (w : Nat) (hw : w < g.Order) :
    (kahnIndegree g).getD w 0 = ((inCount g [] w : Nat) : Int) := by
  unfold kahnIndegree
  rw [indegree_foldl_getD _ _ _ _ (by simpa using hw)]
  have h0 : (List.replicate g.Order (0 : Int)).getD w 0 = 0 := by
    simp [List.getD_eq_getElem?_getD, List.getElem?_replicate, hw]
  rw [h0]
  simp [inCount]

theorem kahnInit_inv (g : Mutable) : KInv g [] (kahnInit g) := by
  refine ⟨kahnIndegree_length g, ?_, ?_, ?_, ?_, rfl, ?_⟩
  · show ([] ++ (List.range g.Order).filter _).Nodup
    simpa using (List.nodup_range g.Order).filter _
  · intro w hw
    have : w ∈ (List.range g.Order).filter
        (fun v => decide ((kahnIndegree g).getD v 0 = 0)) := by simpa [kahnInit] using hw
    exact List.mem_range.mp (List.mem_filter.mp this).1
  · intro w hw
    show (kahnIndegree g).getD w 0 = _
    rw [kahnIndegree_getD g w hw]; simp [kahnInit]
  · intro w hw
    show w ∈ [] ++ (List.range g.Order).filter
        (fun v => decide ((kahnIndegree g).getD v 0 = 0)) ↔ (kahnIndegree g).getD w 0 = 0
    simp [List.mem_filter, hw]
  · intro pre v post hp
    have : ([] : List Nat) = pre ++ v :: post := hp
    simp at this

theorem kahnLoop_inv (g : Mutable) (hg : WellFormed g) (fuel : Nat) (st : KahnState)
    (h : KInv g [] st) (hf : g.Order ≤ st.order.length + fuel) :
    KInv g [] (kahnLoop g true fuel st) ∧ (kahnLoop g true fuel st).queue = [] := by
  induction fuel generalizing st with
  | zero =>
    refine ⟨h, ?_⟩
    have := nodup_lt_length_le _ g.Order h.nodup h.lt
    simp at this hf
    show st.queue = []
    apply List.eq_nil_of_length_eq_zero
    omega
  | succ fuel ih =>
    cases hq : st.queue with
    | nil => simp [kahnLoop, hq, h]
    | cons v q =>
      simp only [kahnLoop, hq, if_true]
      have h1 := kahn_pop_inv g st v q hq h
      have h2 := kahnVisit_foldl_inv g (g.out v) _ (hg v) h1
      have h3 := ih _ h2
      have hord : ((g.out v).foldl kahnVisit
          { st with queue := q, order := st.order ++ [v],
                    vertexCount := st.vertexCount + 1 }).order.length
            = st.order.length + 1 := by
        have := h2.cnt
        have hc : ∀ (es : List (Nat × Int)) (s : KahnState),
            (es.foldl kahnVisit s).vertexCount = s.vertexCount := by
          intro es
          induction es with
          | nil => intro s; rfl
          | cons e es ihe => intro s; simp only [List.foldl_cons]; rw [ihe]; rfl
        rw [← this, hc]
        show st.vertexCount + 1 = _
        rw [h.cnt]
      exact h3 (by rw [hord]; omega)

/-- Dropping the output order from a state. -/
theorem kahnVisit_strip (st : KahnState) (e : Nat × Int) (o : List Nat) :
    kahnVisit { st with order := o } e = { kahnVisit st e with order := o } := rfl

theorem kahnVisit_foldl_strip (es : List (Nat × Int)) (st : KahnState) (o : List Nat) :
    es.foldl kahnVisit { st with order := o } = { es.foldl kahnVisit st with order := o } := by
  induction es generalizing st with
  | nil => rfl
  | cons e es ih => simp only [List.foldl_cons]; rw [kahnVisit_strip, ih]

theorem kahnLoop_strip (g : Mutable) (fuel : Nat) (st : KahnState) (o : List Nat) :
    kahnLoop g false fuel { st with order := o }
      = { kahnLoop g true fuel st with order := o } := by
  induction fuel generalizing st with
  | zero => rfl
  | succ fuel ih =>
    cases hq : st.queue with
    | nil => simp [kahnLoop, hq]
    | cons v q =>
      simp only [kahnLoop, hq, if_true]
      have := kahnVisit_foldl_strip (g.out v)
        { st with queue := q, order := st.order ++ [v], vertexCount := st.vertexCount + 1 } o
      simp only at this
      rw [← ih]
      congr 1

theorem Acyclic_eq_TopSort (g : Mutable) : Acyclic g = (TopSort g).2 := by
  unfold Acyclic TopSort topsort
  have h := kahnLoop_strip g g.Order (kahnInit g) []
  have h0 : ({ kahnInit g with order := [] } : KahnState) = kahnInit g := rfl
  rw [h0] at h
  simp only [h]
  split <;> rfl

/-- The final state of `topsort`. -/
theorem kahn_final (g : Mutable) (hg : WellFormed g) :
    KInv g [] (kahnLoop g true g.Order (kahnInit g)) ∧
      (kahnLoop g true g.Order (kahnInit g)).queue = [] :=
  kahnLoop_inv g hg g.Order (kahnInit g) (kahnInit_inv g) (by simp)

theorem TopSort_fst (g : Mutable) :
    (TopSort g).1 = (kahnLoop g true g.Order (kahnInit g)).order := by
  unfold TopSort topsort
  dsimp only
  split <;> rfl

theorem TopSort_snd (g : Mutable) :
    (TopSort g).2 = decide ((kahnLoop g true g.Order (kahnInit g)).vertexCount = g.Order) := by
  unfold TopSort topsort
  dsimp only
  split <;> simp_all

theorem TopSort_perm (g : Mutable) (hg : WellFormed g) (h : (TopSort g).2 = true) :
    (TopSort g).1.Perm (List.range g.Order) := by
  obtain ⟨hinv, hq⟩ := kahn_final g hg
  rw [TopSort_snd] at h
  rw [TopSort_fst]
  have hc := hinv.cnt
  have hnd := hinv.nodup
  have hlt := hinv.lt
  rw [hq] at hnd hlt
  simp only [List.append_nil] at hnd hlt
  have hsub : (kahnLoop g true g.Order (kahnInit g)).order ⊆ List.range g.Order :=
    fun x hx => List.mem_range.mpr (hlt x hx)
  apply (List.subperm_of_subset hnd hsub).perm_of_length_le
  simp at h ⊢
  omega

theorem TopSort_resp (g : Mutable) (hg : WellFormed g) (pre post : List Nat) (v : Nat)
    (h : (TopSort g).1 = pre ++ v :: post) (u : Nat) (hu : Edge g u v) : u ∈ pre := by
  rw [TopSort_fst] at h
  exact (kahn_final g hg).1.resp pre v post h u hu

theorem TopSort_before (g : Mutable) (hg : WellFormed g) (h : (TopSort g).2 = true)
    (u v : Nat) (hu : Edge g u v) : Before (TopSort g).1 u v := by
  have hp := TopSort_perm g hg h
  have hv : v ∈ (TopSort g).1 := hp.mem_iff.mpr (List.mem_range.mpr (edge_lt_right hg hu))
  obtain ⟨pre, post, hsplit⟩ := List.append_of_mem hv
  have hpre := TopSort_resp g hg pre post v hsplit u hu
  obtain ⟨l1, l2, hsplit2⟩ := List.append_of_mem hpre
  exact ⟨l1, l2, post, by rw [hsplit, hsplit2]; simp⟩

theorem walk_before (g : Mutable) (hg : WellFormed g) (u w k : Nat) (hw : Walk g u w (k + 1))
    (pre post : List Nat) (h : (TopSort g).1 = pre ++ w :: post) : u ∈ pre := by
  induction k generalizing w pre post with
  | zero =>
    cases hw with
    | snoc h1 he =>
      cases h1
      exact TopSort_resp g hg pre post w h u he
  | succ k ih =>
    cases hw with
    | snoc h1 he =>
      have hx := TopSort_resp g hg pre post w h _ he
      obtain ⟨l1, l2, hsplit⟩ := List.append_of_mem hx
      have := ih _ h1 l1 (l2 ++ w :: post) (by rw [h, hsplit]; simp)
      rw [hsplit]
      exact List.mem_append_left _ this

/-- When `graph.TopSort` reports success the graph has no cycle. -/
theorem TopSort_noCycle (g : Mutable) (hg : WellFormed g) (h : (TopSort g).2 = true) :
    NoCycle g := by
  intro v ⟨k, hk, hw⟩
  have hp := TopSort_perm g hg h
  have hvlt : v < g.Order := by
    cases hw with
    | nil => omega
    | snoc _ he => exact edge_lt_right hg he
  have hv : v ∈ (TopSort g).1 := hp.mem_iff.mpr (List.mem_range.mpr hvlt)
  obtain ⟨pre, post, hsplit⟩ := List.append_of_mem hv
  obtain ⟨k', rfl⟩ : ∃ k', k = k' + 1 := ⟨k - 1, by omega⟩
  have hmem := walk_before g hg v v k' hw pre post hsplit
  have hnd : (TopSort g).1.Nodup := hp.nodup_iff.mpr (List.nodup_range _)
  rw [hsplit] at hnd
  have := (List.nodup_append.mp hnd).2.2
  exact this hmem (List.mem_cons_self _ _)

/-- When `graph.TopSort` reports failure the graph has a cycle. -/
theorem TopSort_cycle (g : Mutable) (hg : WellFormed g) (h : (TopSort g).2 = false) :
    ¬ NoCycle g := by
  obtain ⟨hinv, hq⟩ := kahn_final g hg
  rw [TopSort_snd] at h
  have hc := hinv.cnt
  have hnd := hinv.nodup
  have hlt := hinv.lt
  rw [hq] at hnd hlt
  simp only [List.append_nil] at hnd hlt
  have hne : (kahnLoop g true g.Order (kahnInit g)).order.length ≠ g.Order := by
    simp at h; omega
  have hex : ∃ w, w < g.Order ∧ w ∉ (kahnLoop g true g.Order (kahnInit g)).order := by
    by_contra hcon
    push_neg at hcon
    have h1 := nodup_lt_length_le _ g.Order hnd hlt
    have hsub : List.range g.Order ⊆ (kahnLoop g true g.Order (kahnInit g)).order :=
      fun x hx => hcon x (List.mem_range.mp hx)
    have h2 := (List.subperm_of_subset (List.nodup_range _) hsub).length_le
    simp at h2
    omega
  obtain ⟨w0, hw0, hw0n⟩ := hex
  apply exists_cycle_of_pred g
    (fun w => w < g.Order ∧ w ∉ (kahnLoop g true g.Order (kahnInit g)).order) w0 ⟨hw0, hw0n⟩
    (fun w hw => hw.1)
  intro w ⟨hw, hwn⟩
  have hz := hinv.zero w hw
  rw [hq] at hz
  simp only [List.append_nil] at hz
  have hd := hinv.deg w hw
  have hnz : inCount g (kahnLoop g true g.Order (kahnInit g)).order w ≠ 0 := by
    intro h0
    apply hwn
    rw [hz, hd, h0]; simp
  obtain ⟨u, hu, hun, he⟩ := inCount_ne_zero g _ w hnz
  exact ⟨u, ⟨hu, hun⟩, he⟩

/-- The function `graph.Acyclic` decides whether the graph has no cycle. -/
theorem Acyclic_iff (g : Mutable) (hg : WellFormed g) : Acyclic g = true ↔ NoCycle g := by
  rw [Acyclic_eq_TopSort]
  constructor
  · exact TopSort_noCycle g hg
  · intro hno
    by_contra hc
    exact TopSort_cycle g hg (by simpa using hc) hno

theorem count_set_neg (l : List Int) (i : Nat) (x : Int) (hi : i < l.length)
    (hl : l.getD i 0 = -1) (hx : x ≠ -1) : (l.set i x).count (-1) + 1 = l.count (-1) := by
  induction l generalizing i with
  | nil => simp at hi
  | cons a l ih =>
    cases i with
    | zero =>
      simp at hl
      subst hl
      have : ¬ (x == -1) = true := by simpa using hx
      simp [List.count_cons, this]
    | succ i =>
      simp at hl hi
      have := ih i hi (by simpa [List.getD_eq_getElem?_getD] using hl)
      simp only [List.set_cons_succ, List.count_cons]
      omega

theorem minVertex_mem (dist : List Int) (v : Nat) (q : List Nat) :
    minVertex dist v q ∈ v :: q := by
  induction q generalizing v with
  | nil => simp [minVertex]
  | cons a q ih =>
    unfold minVertex
    simp only [List.foldl_cons]
    have := ih (if dist.getD a 0 < dist.getD v 0 then a else v)
    unfold minVertex at this
    rcases List.mem_cons.mp this with h | h
    · rw [h]; split <;> simp
    · exact List.mem_cons_of_mem _ (List.mem_cons_of_mem _ h)

theorem minVertex_le_start (dist : List Int) (v : Nat) (q : List Nat) :
    dist.getD (minVertex dist v q) 0 ≤ dist.getD v 0 := by
  induction q generalizing v with
  | nil => simp [minVertex]
  | cons a q ih =>
    unfold minVertex
    simp only [List.foldl_cons]
    have := ih (if dist.getD a 0 < dist.getD v 0 then a else v)
    unfold minVertex at this
    refine le_trans this ?_
    split <;> omega

theorem minVertex_le (dist : List Int) (v : Nat) (q : List Nat) :
    ∀ u ∈ v :: q, dist.getD (minVertex dist v q) 0 ≤ dist.getD u 0 := by
  induction q generalizing v with
  | nil => intro u hu; simp at hu; subst hu; simp [minVertex]
  | cons a q ih =>
    intro u hu
    have h1 := ih (if dist.getD a 0 < dist.getD v 0 then a else v)
    have h2 := minVertex_le_start dist (if dist.getD a 0 < dist.getD v 0 then a else v) q
    have hunf : minVertex dist v (a :: q)
        = minVertex dist (if dist.getD a 0 < dist.getD v 0 then a else v) q := rfl
    rw [hunf]
    rcases List.mem_cons.mp hu with h | h
    · subst h
      refine le_trans h2 ?_
      split <;> omega
    · rcases List.mem_cons.mp h with h | h
      · subst h
        refine le_trans h2 ?_
        split <;> omega
      · exact h1 u (List.mem_cons_of_mem _ h)

theorem popMin_spec (dist : List Int) (queue : List Nat) (v : Nat) (q : List Nat)
    (h : popMin dist queue = some (v, q)) :
    v ∈ queue ∧ q = queue.erase v ∧ ∀ u ∈ queue, dist.getD v 0 ≤ dist.getD u 0 := by
  cases queue with
  | nil => simp [popMin] at h
  | cons a l =>
    simp only [popMin, Option.some.injEq, Prod.mk.injEq] at h
    obtain ⟨h1, h2⟩ := h
    subst h1
    exact ⟨minVertex_mem dist a l, h2.symm, minVertex_le dist a l⟩

theorem popMin_none (dist : List Int) (queue : List Nat) (h : popMin dist queue = none) :
    queue = [] := by
  cases queue with
  | nil => rfl
  | cons a l => simp [popMin] at h

theorem relax_inv (g : Mutable) (s v w : Nat) (ws : List Nat) (st : SPState)
    (hw : w < g.Order) (h : SPInner g s v (w :: ws) st) :
    SPInner g s v ws (relax v st (w, 1)) ∧
      spMeasure (relax v st (w, 1)) = spMeasure st := by
  have hlen := h.len
  have hedge : Edge g v w := h.pendEdge w (List.mem_cons_self _ _)
  by_cases hdw : st.dist.getD w 0 = -1
  · -- first visit of `w`
    have hr : relax v st (w, 1) =
        { dist := st.dist.set w (st.dist.getD v 0 + 1)
          parent := st.parent.set w (v : Int)
          queue := st.queue ++ [w] } := by
      unfold relax
      rw [if_neg (show ¬ ((1 : Int) < 0) by decide), if_pos hdw]
    rw [hr]
    have hvw : v ≠ w := by
      intro hc; have := h.vpos; rw [hc, hdw] at this; omega
    have hwq : w ∉ st.queue := by
      intro hc; have := (h.qlt w hc).2; rw [hdw] at this; omega
    have hself : (st.dist.set w (st.dist.getD v 0 + 1)).getD w 0 = st.dist.getD v 0 + 1 :=
      getD_set_self _ _ _ _ (by omega)
    have hoth : ∀ x, x ≠ w → (st.dist.set w (st.dist.getD v 0 + 1)).getD x 0
        = st.dist.getD x 0 := fun x hx => getD_set_other _ _ _ _ _ (Ne.symm hx)
    have hpos : ∀ x, 0 ≤ st.dist.getD x 0 → x ≠ w := by
      intro x hx hc; rw [hc, hdw] at hx; omega
    have hvp := h.vpos
    refine ⟨⟨⟨?_, ?_, ?_, ?_, h.slt, ?_, ?_⟩, h.vlt, ?_, ?_, ?_, ?_, ?_, ?_, ?_⟩, ?_⟩
    · show (st.dist.set w _).length = g.Order
      simp [hlen]
    · show (st.queue ++ [w]).Nodup
      exact List.Nodup.append h.qnodup (List.nodup_singleton w) (by
        intro x hx hx2
        rw [List.mem_singleton] at hx2
        subst hx2; exact hwq hx)
    · intro q hq
      show q < g.Order ∧ 0 ≤ (st.dist.set w _).getD q 0
      have hq' : q ∈ st.queue ++ [w] := hq
      rcases List.mem_append.mp hq' with hq1 | hq1
      · have := h.qlt q hq1
        rw [hoth q (hpos q this.2)]
        exact this
      · rw [List.mem_singleton] at hq1
        subst hq1
        rw [hself]
        exact ⟨hw, by omega⟩
    · intro x hx
      show (st.dist.set w _).getD x 0 = -1 ∨ 0 ≤ (st.dist.set w _).getD x 0
      by_cases hxw : x = w
      · subst hxw; rw [hself]; right; omega
      · rw [hoth x hxw]; exact h.range x hx
    · show (st.dist.set w _).getD s 0 = 0
      rw [hoth s (hpos s (by rw [h.src]))]
      exact h.src
    · intro x hx hx0
      change 0 ≤ (st.dist.set w _).getD x 0 at hx0
      show Walk g s x ((st.dist.set w _).getD x 0).toNat
      by_cases hxw : x = w
      · subst hxw
        rw [hself]
        have hwalk := h.sound v h.vlt hvp
        have : (st.dist.getD v 0 + 1).toNat = (st.dist.getD v 0).toNat + 1 := by omega
        rw [this]
        exact Walk.snoc hwalk hedge
      · rw [hoth x hxw] at hx0 ⊢
        exact h.sound x hx hx0
    · show 0 ≤ (st.dist.set w _).getD v 0
      rw [hoth v hvw]; exact hvp
    · show v ∉ st.queue ++ [w]
      simp [h.vq, hvw]
    · intro x hx
      exact h.pendEdge x (List.mem_cons_of_mem _ hx)
    · intro u hu hu0 huq huv x hux
      change 0 ≤ (st.dist.set w _).getD u 0 at hu0
      change u ∉ st.queue ++ [w] at huq
      show 0 ≤ (st.dist.set w _).getD x 0 ∧
        (st.dist.set w _).getD x 0 ≤ (st.dist.set w _).getD u 0 + 1
      have huw : u ≠ w := by
        intro hc; apply huq; simp [hc]
      rw [hoth u huw] at hu0 ⊢
      have huq' : u ∉ st.queue := fun hc => huq (List.mem_append_left _ hc)
      have := h.closed u hu hu0 huq' huv x hux
      rw [hoth x (hpos x this.1)]
      exact this
    · intro x hvx
      show x ∈ ws ∨ (0 ≤ (st.dist.set w _).getD x 0 ∧
        (st.dist.set w _).getD x 0 ≤ (st.dist.set w _).getD v 0 + 1)
      rw [hoth v hvw]
      by_cases hxw : x = w
      · subst hxw; right; rw [hself]; omega
      · rw [hoth x hxw]
        rcases h.vclosed x hvx with h1 | h1
        · rcases List.mem_cons.mp h1 with h2 | h2
          · exact absurd h2 hxw
          · exact Or.inl h2
        · exact Or.inr h1
    · intro x hx
      show (st.dist.set w _).getD x 0 ≤ (st.dist.set w _).getD v 0 + 1
      rw [hoth v hvw]
      by_cases hxw : x = w
      · subst hxw; rw [hself]
      · rw [hoth x hxw]; exact h.bound x hx
    · intro q hq
      show (st.dist.set w _).getD v 0 ≤ (st.dist.set w _).getD q 0
      rw [hoth v hvw]
      have hq' : q ∈ st.queue ++ [w] := hq
      rcases List.mem_append.mp hq' with hq1 | hq1
      · rw [hoth q (hpos q (h.qlt q hq1).2)]
        exact h.qge q hq1
      · rw [List.mem_singleton] at hq1
        subst hq1
        rw [hself]; omega
    · unfold spMeasure
      show (st.dist.set w _).count (-1) + (st.queue ++ [w]).length = _
      have := count_set_neg st.dist w (st.dist.getD v 0 + 1) (by omega) hdw (by omega)
      simp only [List.length_append, List.length_singleton]
      omega
  · -- `w` was reached before, and not by a longer way
    have hw0 : 0 ≤ st.dist.getD w 0 := by
      rcases h.range w hw with h1 | h1
      · exact absurd h1 hdw
      · exact h1
    have hb := h.bound w hw
    have hr : relax v st (w, 1) = st := by
      have : ¬ (st.dist.getD v 0 + 1 < st.dist.getD w 0) := by omega
      unfold relax
      rw [if_neg (show ¬ ((1 : Int) < 0) by decide), if_neg hdw, if_neg this]
    rw [hr]
    refine ⟨⟨h.toSPCore, h.vlt, h.vpos, h.vq, ?_, h.closed, ?_, h.bound, h.qge⟩, rfl⟩
    · intro x hx
      exact h.pendEdge x (List.mem_cons_of_mem _ hx)
    · intro x hvx
      rcases h.vclosed x hvx with h1 | h1
      · rcases List.mem_cons.mp h1 with h2 | h2
        · subst h2; exact Or.inr ⟨hw0, hb⟩
        · exact Or.inl h2
      · exact Or.inr h1

theorem relax_foldl_inv (g : Mutable) (hg : WellFormed g) (hu : UnitCost g) (s v : Nat)
    (es : List (Nat × Int)) (hes : ∀ e ∈ es, e ∈ g.out v) (st : SPState)
    (h : SPInner g s v (es.map Prod.fst) st) :
    SPInner g s v [] (es.foldl (relax v) st) ∧
      spMeasure (es.foldl (relax v) st) = spMeasure st := by
  induction es generalizing st with
  | nil => exact ⟨by simpa using h, rfl⟩
  | cons e es ih =>
    simp only [List.foldl_cons]
    have he := hes e (List.mem_cons_self _ _)
    have he2 : e = (e.1, 1) := by
      have := hu v e he
      exact Prod.ext rfl this
    have h1 := relax_inv g s v e.1 (es.map Prod.fst) st (hg v e he) (by simpa using h)
    rw [← he2] at h1
    have h2 := ih (fun e' he' => hes e' (List.mem_cons_of_mem _ he')) _ h1.1
    exact ⟨h2.1, by rw [h2.2, h1.2]⟩

theorem sp_pop_inv (g : Mutable) (s v : Nat) (q : List Nat) (st : SPState)
    (h : SPMain g s st) (hp : popMin st.dist st.queue = some (v, q)) :
    SPInner g s v (g.adj v) { st with queue := q } ∧
      spMeasure { st with queue := q } + 1 = spMeasure st := by
  obtain ⟨hv, hq, hmin⟩ := popMin_spec _ _ _ _ hp
  subst hq
  have hmem : ∀ x, x ∈ st.queue.erase v ↔ x ≠ v ∧ x ∈ st.queue :=
    fun x => h.qnodup.mem_erase_iff
  refine ⟨⟨⟨h.len, h.qnodup.erase v, ?_, h.range, h.slt, h.src, h.sound⟩,
    (h.qlt v hv).1, (h.qlt v hv).2, ?_, fun _ hx => hx, ?_, fun x hx => Or.inl hx, ?_, ?_⟩, ?_⟩
  · intro x hx
    exact h.qlt x ((hmem x).mp hx).2
  · intro hc
    exact ((hmem v).mp hc).1 rfl
  · intro u hu hu0 huq huv x hux
    apply h.closed u hu hu0 _ x hux
    intro hc
    exact huq ((hmem u).mpr ⟨huv, hc⟩)
  · intro x hx
    exact h.level x hx v hv
  · intro x hx
    exact hmin x ((hmem x).mp hx).2
  · unfold spMeasure
    show st.dist.count (-1) + (st.queue.erase v).length + 1 = _
    rw [List.length_erase_of_mem hv]
    have : 0 < st.queue.length := List.length_pos_of_mem hv
    omega

theorem sp_finish_inv (g : Mutable) (s v : Nat) (st : SPState) (h : SPInner g s v [] st) :
    SPMain g s st := by
  refine ⟨h.toSPCore, ?_, ?_⟩
  · intro u hu hu0 huq x hux
    by_cases huv : u = v
    · subst huv
      rcases h.vclosed x hux with h1 | h1
      · simp at h1
      · exact h1
    · exact h.closed u hu hu0 huq huv x hux
  · intro x hx q hq
    have := h.bound x hx
    have := h.qge q hq
    omega

theorem spLoop_inv (g : Mutable) (hg : WellFormed g) (hu : UnitCost g) (s : Nat) (fuel : Nat)
    (st : SPState) (h : SPMain g s st) (hf : spMeasure st ≤ fuel) :
    SPMain g s (spLoop g fuel st) ∧ (spLoop g fuel st).queue = [] := by
  induction fuel generalizing st with
  | zero =>
    refine ⟨h, ?_⟩
    show st.queue = []
    apply List.eq_nil_of_length_eq_zero
    unfold spMeasure at hf
    omega
  | succ fuel ih =>
    cases hp : popMin st.dist st.queue with
    | none =>
      simp only [spLoop, hp]
      exact ⟨h, popMin_none _ _ hp⟩
    | some r =>
      obtain ⟨v, q⟩ := r
      simp only [spLoop, hp]
      have h1 := sp_pop_inv g s v q st h hp
      have h2 := relax_foldl_inv g hg hu s v (g.out v) (fun _ he => he) _ h1.1
      exact ih _ (sp_finish_inv g s v _ h2.1) (by rw [h2.2]; omega)

/-- The state in which `ShortestPaths` enters its loop. -/
theorem sp_init_inv (g : Mutable) (s : Nat) (hs : s < g.Order) :
    SPMain g s
      { parent := List.replicate g.Order (-1)
        dist := (List.replicate g.Order (-1)).set s 0
        queue := [s] } ∧
    spMeasure
      { parent := List.replicate g.Order (-1)
        dist := (List.replicate g.Order (-1)).set s 0
        queue := [s] } ≤ g.Order := by
  have hrep : ∀ x, x < g.Order → (List.replicate g.Order (-1 : Int)).getD x 0 = -1 := by
    intro x hx
    simp [List.getD_eq_getElem?_getD, List.getElem?_replicate, hx]
  have hself : ((List.replicate g.Order (-1 : Int)).set s 0).getD s 0 = 0 :=
    getD_set_self _ _ _ _ (by simpa using hs)
  have hoth : ∀ x, x < g.Order → x ≠ s →
      ((List.replicate g.Order (-1 : Int)).set s 0).getD x 0 = -1 := by
    intro x hx hxs
    rw [getD_set_other _ _ _ _ _ (Ne.symm hxs)]
    exact hrep x hx
  refine ⟨⟨⟨?_, ?_, ?_, ?_, hs, hself, ?_⟩, ?_, ?_⟩, ?_⟩
  · simp
  · exact List.nodup_singleton s
  · intro q hq
    have : q = s := by simpa using hq
    subst this
    exact ⟨hs, by rw [hself]⟩
  · intro x hx
    by_cases hxs : x = s
    · subst hxs; right; rw [hself]
    · left; exact hoth x hx hxs
  · intro x hx hx0
    by_cases hxs : x = s
    · subst hxs
      show Walk g x x (((List.replicate g.Order (-1 : Int)).set x 0).getD x 0).toNat
      rw [hself]
      exact Walk.nil x
    · have := hoth x hx hxs
      change 0 ≤ ((List.replicate g.Order (-1 : Int)).set s 0).getD x 0 at hx0
      omega
  · intro u hu hu0 huq
    by_cases hus : u = s
    · subst hus
      exact absurd (List.mem_singleton.mpr rfl) huq
    · have := hoth u hu hus
      change 0 ≤ ((List.replicate g.Order (-1 : Int)).set s 0).getD u 0 at hu0
      omega
  · intro x hx q hq
    have : q = s := by simpa using hq
    subst this
    show ((List.replicate g.Order (-1 : Int)).set q 0).getD x 0
      ≤ ((List.replicate g.Order (-1 : Int)).set q 0).getD q 0 + 1
    rw [hself]
    by_cases hxs : x = q
    · subst hxs; rw [hself]; omega
    · rw [hoth x hx hxs]; omega
  · unfold spMeasure
    show ((List.replicate g.Order (-1 : Int)).set s 0).count (-1) + [s].length ≤ g.Order
    have := count_set_neg (List.replicate g.Order (-1 : Int)) s 0 (by simpa using hs)
      (hrep s hs) (by decide)
    simp only [List.count_replicate_self, List.length_singleton] at this ⊢
    omega

/-- The final state of `ShortestPaths`. -/
theorem sp_final (g : Mutable) (hg : WellFormed g) (hu : UnitCost g) (s : Nat)
    (hs : s < g.Order) :
    ∃ st, (ShortestPaths g s).2 = st.dist ∧ SPMain g s st ∧ st.queue = [] := by
  obtain ⟨h1, h2⟩ := sp_init_inv g s hs
  obtain ⟨h3, h4⟩ := spLoop_inv g hg hu s g.Order _ h1 h2
  exact ⟨_, rfl, h3, h4⟩

theorem ShortestPaths_length (g : Mutable) (hg : WellFormed g) (hu : UnitCost g) (s : Nat)
    (hs : s < g.Order) : (ShortestPaths g s).2.length = g.Order := by
  obtain ⟨st, h1, h2, _⟩ := sp_final g hg hu s hs
  rw [h1]; exact h2.len

theorem ShortestPaths_source (g : Mutable) (hg : WellFormed g) (hu : UnitCost g) (s : Nat)
    (hs : s < g.Order) : (ShortestPaths g s).2.getD s 0 = 0 := by
  obtain ⟨st, h1, h2, _⟩ := sp_final g hg hu s hs
  rw [h1]; exact h2.src

theorem ShortestPaths_range (g : Mutable) (hg : WellFormed g) (hu : UnitCost g) (s : Nat)
    (hs : s < g.Order) (w : Nat) (hw : w < g.Order) :
    (ShortestPaths g s).2.getD w 0 = -1 ∨ 0 ≤ (ShortestPaths g s).2.getD w 0 := by
  obtain ⟨st, h1, h2, _⟩ := sp_final g hg hu s hs
  rw [h1]; exact h2.range w hw

/-- A distance that is not `-1` is the length of a walk from the source. -/
theorem ShortestPaths_walk (g : Mutable) (hg : WellFormed g) (hu : UnitCost g) (s : Nat)
    (hs : s < g.Order) (w : Nat) (hw : w < g.Order)
    (h : 0 ≤ (ShortestPaths g s).2.getD w 0) :
    Walk g s w ((ShortestPaths g s).2.getD w 0).toNat := by
  obtain ⟨st, h1, h2, _⟩ := sp_final g hg hu s hs
  rw [h1] at h ⊢; exact h2.sound w hw h

/-- No walk from the source is shorter than the distance computed. -/
theorem ShortestPaths_le (g : Mutable) (hg : WellFormed g) (hu : UnitCost g) (s : Nat)
    (hs : s < g.Order) (w k : Nat) (h : Walk g s w k) :
    0 ≤ (ShortestPaths g s).2.getD w 0 ∧ (ShortestPaths g s).2.getD w 0 ≤ k := by
  obtain ⟨st, h1, h2, h3⟩ := sp_final g hg hu s hs
  rw [h1]
  induction h with
  | nil => rw [h2.src]; simp
  | snoc hwalk he ih =>
    have hx := walk_lt_right hg hwalk hs
    have := h2.closed _ hx ih.1 (by rw [h3]; simp) _ he
    push_cast
    omega

/-- The distances of `ShortestPaths` are the shortest-path distances. -/
theorem ShortestPaths_isDist (g : Mutable) (hg : WellFormed g) (hu : UnitCost g) (s : Nat)
    (hs : s < g.Order) (w : Nat) (hw : w < g.Order)
    (h : 0 ≤ (ShortestPaths g s).2.getD w 0) :
    IsDist g s w ((ShortestPaths g s).2.getD w 0).toNat := by
  refine ⟨ShortestPaths_walk g hg hu s hs w hw h, ?_⟩
  intro j hj
  have := (ShortestPaths_le g hg hu s hs w j hj).2
  omega

/-- A vertex has distance `-1` exactly when no walk from the source ends in it. -/
theorem ShortestPaths_unreached (g : Mutable) (hg : WellFormed g) (hu : UnitCost g) (s : Nat)
    (hs : s < g.Order) (w : Nat) (hw : w < g.Order) :
    (ShortestPaths g s).2.getD w 0 = -1 ↔ ∀ k, ¬ Walk g s w k := by
  constructor
  · intro h k hk
    have := (ShortestPaths_le g hg hu s hs w k hk).1
    omega
  · intro h
    rcases ShortestPaths_range g hg hu s hs w hw with h1 | h1
    · exact h1
    · exact absurd (ShortestPaths_walk g hg hu s hs w hw h1) (h _)

/-! ## The graph assembled by `NewModuleGraph` -/

theorem setCost_fst (w : Nat) (c : Int) (l : List (Nat × Int)) (x : Nat) :
    x ∈ (setCost w c l).map Prod.fst ↔ x = w ∨ x ∈ l.map Prod.fst := by
  induction l with
  | nil => simp [setCost]
  | cons a l ih =>
    obtain ⟨y, d⟩ := a
    unfold setCost
    by_cases hy : y = w
    · subst hy
      simp
    · rw [if_neg hy]
      simp only [List.map_cons, List.mem_cons]
      rw [ih]
      tauto

theorem setCost_mem (w : Nat) (c : Int) (l : List (Nat × Int)) (e : Nat × Int)
    (h : e ∈ setCost w c l) : e = (w, c) ∨ e ∈ l := by
  induction l with
  | nil => simpa [setCost] using h
  | cons a l ih =>
    obtain ⟨y, d⟩ := a
    unfold setCost at h
    by_cases hy : y = w
    · rw [if_pos hy] at h
      rcases List.mem_cons.mp h with h1 | h1
      · exact Or.inl h1
      · exact Or.inr (List.mem_cons_of_mem _ h1)
    · rw [if_neg hy] at h
      rcases List.mem_cons.mp h with h1 | h1
      · exact Or.inr (by rw [h1]; exact List.mem_cons_self _ _)
      · rcases ih h1 with h2 | h2
        · exact Or.inl h2
        · exact Or.inr (List.mem_cons_of_mem _ h2)

theorem AddCost_order (g : Mutable) (v w : Nat) (c : Int) :
    (g.AddCost v w c).Order = g.Order := by
  unfold Mutable.AddCost Mutable.Order
  split <;> simp

theorem AddCost_out_self (g : Mutable) (v w : Nat) (c : Int) (hv : v < g.Order)
    (hw : w < g.Order) : (g.AddCost v w c).out v = setCost w c (g.out v) := by
  unfold Mutable.Order at hv hw
  unfold Mutable.AddCost Mutable.out
  rw [if_pos ⟨hw, hv⟩]
  exact getD_set_self _ _ _ _ hv

theorem AddCost_out_other (g : Mutable) (v w u : Nat) (c : Int) (hu : u ≠ v) :
    (g.AddCost v w c).out u = g.out u := by
  unfold Mutable.AddCost Mutable.out
  split
  · exact getD_set_other _ _ _ _ _ (Ne.symm hu)
  · rfl

theorem AddCost_edge (g : Mutable) (v w : Nat) (c : Int) (hv : v < g.Order)
    (hw : w < g.Order) (u x : Nat) :
    Edge (g.AddCost v w c) u x ↔ Edge g u x ∨ (u = v ∧ x = w) := by
  unfold Edge Mutable.adj
  by_cases hu : u = v
  · subst hu
    rw [AddCost_out_self g u w c hv hw, setCost_fst]
    tauto
  · rw [AddCost_out_other g v w u c hu]
    tauto

theorem AddCost_wellFormed (g : Mutable) (v w : Nat) (c : Int) (hv : v < g.Order)
    (hw : w < g.Order) (hg : WellFormed g) : WellFormed (g.AddCost v w c) := by
  intro u e he
  rw [AddCost_order]
  by_cases hu : u = v
  · subst hu
    rw [AddCost_out_self g u w c hv hw] at he
    rcases setCost_mem _ _ _ _ he with h1 | h1
    · rw [h1]; exact hw
    · exact hg u e h1
  · rw [AddCost_out_other g v w u c hu] at he
    exact hg u e he

theorem AddCost_unitCost (g : Mutable) (v w : Nat) (hv : v < g.Order)
    (hw : w < g.Order) (hg : UnitCost g) : UnitCost (g.AddCost v w 1) := by
  intro u e he
  by_cases hu : u = v
  · subst hu
    rw [AddCost_out_self g u w 1 hv hw] at he
    rcases setCost_mem _ _ _ _ he with h1 | h1
    · rw [h1]
    · exact hg u e h1
  · rw [AddCost_out_other g v w u 1 hu] at he
    exact hg u e he

/-- What the inner loop of `NewModuleGraph` does to the graph. -/
theorem addInputs_spec (idx : String → Option Nat) (i : Nat) (inputs : List Input)
    (gr : Mutable) (hi : i < gr.Order) (hidx : ∀ s j, idx s = some j → j < gr.Order)
    (hwf : WellFormed gr) (huc : UnitCost gr) :
    (addInputs idx i gr inputs).Order = gr.Order ∧
    WellFormed (addInputs idx i gr inputs) ∧
    UnitCost (addInputs idx i gr inputs) ∧
    ∀ u x, Edge (addInputs idx i gr inputs) u x ↔
      Edge gr u x ∨
        (u = i ∧ ∃ inp ∈ inputs, inputModuleName inp ≠ "" ∧ idx (inputModuleName inp) = some x) := by
  induction inputs generalizing gr with
  | nil => simp [addInputs, hwf, huc]
  | cons inp rest ih =>
    unfold addInputs
    by_cases hn : inputModuleName inp = ""
    · simp only [hn, if_true]
      obtain ⟨h1, h2, h3, h4⟩ := ih gr hi hidx hwf huc
      refine ⟨h1, h2, h3, ?_⟩
      intro u x
      rw [h4]
      constructor
      · rintro (h | ⟨hu, inp', hin, hne, hix⟩)
        · exact Or.inl h
        · exact Or.inr ⟨hu, inp', List.mem_cons_of_mem _ hin, hne, hix⟩
      · rintro (h | ⟨hu, inp', hin, hne, hix⟩)
        · exact Or.inl h
        · rcases List.mem_cons.mp hin with h5 | h5
          · subst h5; exact absurd hn hne
          · exact Or.inr ⟨hu, inp', h5, hne, hix⟩
    · simp only [hn, if_false]
      cases hj : idx (inputModuleName inp) with
      | none =>
        simp only
        obtain ⟨h1, h2, h3, h4⟩ := ih gr hi hidx hwf huc
        refine ⟨h1, h2, h3, ?_⟩
        intro u x
        rw [h4]
        constructor
        · rintro (h | ⟨hu, inp', hin, hne, hix⟩)
          · exact Or.inl h
          · exact Or.inr ⟨hu, inp', List.mem_cons_of_mem _ hin, hne, hix⟩
        · rintro (h | ⟨hu, inp', hin, hne, hix⟩)
          · exact Or.inl h
          · rcases List.mem_cons.mp hin with h5 | h5
            · subst h5; rw [hj] at hix; exact absurd hix (by simp)
            · exact Or.inr ⟨hu, inp', h5, hne, hix⟩
      | some j =>
        simp only
        have hjlt := hidx _ _ hj
        have ho := AddCost_order gr i j 1
        obtain ⟨h1, h2, h3, h4⟩ := ih (gr.AddCost i j 1) (by rw [ho]; exact hi)
          (by intro s k hk; rw [ho]; exact hidx s k hk)
          (AddCost_wellFormed gr i j 1 hi hjlt hwf) (AddCost_unitCost gr i j hi hjlt huc)
        refine ⟨by rw [h1, ho], h2, h3, ?_⟩
        intro u x
        rw [h4, AddCost_edge gr i j 1 hi hjlt]
        constructor
        · rintro ((h | ⟨hu, hx⟩) | ⟨hu, inp', hin, hne, hix⟩)
          · exact Or.inl h
          · exact Or.inr ⟨hu, inp, List.mem_cons_self _ _, hn, by rw [hj, hx]⟩
          · exact Or.inr ⟨hu, inp', List.mem_cons_of_mem _ hin, hne, hix⟩
        · rintro (h | ⟨hu, inp', hin, hne, hix⟩)
          · exact Or.inl (Or.inl h)
          · rcases List.mem_cons.mp hin with h5 | h5
            · subst h5
              rw [hj] at hix
              exact Or.inl (Or.inr ⟨hu, (Option.some.inj hix).symm⟩)
            · exact Or.inr ⟨hu, inp', h5, hne, hix⟩

/-- What the second loop of `NewModuleGraph` does to the graph. -/
theorem addModules_spec (idx : String → Option Nat) (ms : List Module) (i : Nat)
    (gr : Mutable) (hi : i + ms.length ≤ gr.Order)
    (hidx : ∀ s j, idx s = some j → j < gr.Order)
    (hwf : WellFormed gr) (huc : UnitCost gr) :
    (addModules idx ms i gr).Order = gr.Order ∧
    WellFormed (addModules idx ms i gr) ∧
    UnitCost (addModules idx ms i gr) ∧
    ∀ u x, Edge (addModules idx ms i gr) u x ↔
      Edge gr u x ∨
        ∃ k m, ms[k]? = some m ∧ u = i + k ∧
          ∃ inp ∈ m.inputs, inputModuleName inp ≠ "" ∧ idx (inputModuleName inp) = some x := by
  induction ms generalizing i gr with
  | nil => simp [addModules, hwf, huc]
  | cons m ms ih =>
    unfold addModules
    simp only [List.length_cons] at hi
    obtain ⟨a1, a2, a3, a4⟩ := addInputs_spec idx i m.inputs gr (by omega) hidx hwf huc
    obtain ⟨h1, h2, h3, h4⟩ := ih (i + 1) (addInputs idx i gr m.inputs) (by rw [a1]; omega)
      (by intro s k hk; rw [a1]; exact hidx s k hk) a2 a3
    refine ⟨by rw [h1, a1], h2, h3, ?_⟩
    intro u x
    rw [h4, a4]
    constructor
    · rintro ((h | ⟨hu, hex⟩) | ⟨k, m', hk, hu, hex⟩)
      · exact Or.inl h
      · exact Or.inr ⟨0, m, by simp, by simpa using hu, hex⟩
      · exact Or.inr ⟨k + 1, m', by simpa using hk, by omega, hex⟩
    · rintro (h | ⟨k, m', hk, hu, hex⟩)
      · exact Or.inl (Or.inl h)
      · cases k with
        | zero =>
          simp at hk
          subst hk
          exact Or.inl (Or.inr ⟨by simpa using hu, hex⟩)
        | succ k =>
          exact Or.inr ⟨k, m', by simpa using hk, by omega, hex⟩

/-- The name index built by the first loop of `NewModuleGraph`: a name is mapped to the
last module that carries it. -/
theorem buildModuleIndex_spec (ms : List Module) (i : Nat) (idx : String → Option Nat)
    (s : String) (j : Nat) :
    buildModuleIndex ms i idx s = some j ↔
      (∃ k m, ms[k]? = some m ∧ j = i + k ∧ m.name = s ∧
        ∀ k' m', k < k' → ms[k']? = some m' → m'.name ≠ s) ∨
      (idx s = some j ∧ ∀ m ∈ ms, m.name ≠ s) := by
  induction ms generalizing i idx with
  | nil => simp [buildModuleIndex]
  | cons m ms ih =>
    unfold buildModuleIndex
    rw [ih]
    constructor
    · rintro (⟨k, m', hk, hj, hn, hlast⟩ | ⟨hidx, hall⟩)
      · refine Or.inl ⟨k + 1, m', by simpa using hk, by omega, hn, ?_⟩
        intro k' m'' hkk hk'
        cases k' with
        | zero => omega
        | succ k' => exact hlast k' m'' (by omega) (by simpa using hk')
      · by_cases hs : s = m.name
        · rw [if_pos hs] at hidx
          refine Or.inl ⟨0, m, by simp, ?_, hs.symm, ?_⟩
          · have := Option.some.inj hidx; omega
          · intro k' m'' hkk hk'
            cases k' with
            | zero => omega
            | succ k' =>
              have : m'' ∈ ms := List.getElem?_mem (by simpa using hk')
              exact hall m'' this
        · rw [if_neg hs] at hidx
          refine Or.inr ⟨hidx, ?_⟩
          intro m' hm'
          rcases List.mem_cons.mp hm' with h1 | h1
          · rw [h1]; exact fun hc => hs hc.symm
          · exact hall m' h1
    · rintro (⟨k, m', hk, hj, hn, hlast⟩ | ⟨hidx, hall⟩)
      · cases k with
        | zero =>
          simp at hk
          subst hk
          refine Or.inr ⟨?_, ?_⟩
          · rw [if_pos hn.symm]; simp [hj]
          · intro m' hm'
            obtain ⟨k', hk'⟩ := List.getElem?_of_mem hm'
            exact hlast (k' + 1) m' (by omega) (by simpa using hk')
        | succ k =>
          refine Or.inl ⟨k, m', by simpa using hk, by omega, hn, ?_⟩
          intro k' m'' hkk hk'
          exact hlast (k' + 1) m'' (by omega) (by simpa using hk')
      · have hm : m.name ≠ s := hall m (List.mem_cons_self _ _)
        refine Or.inr ⟨?_, fun m' hm' => hall m' (List.mem_cons_of_mem _ hm')⟩
        rw [if_neg (fun hc => hm hc.symm)]
        exact hidx

theorem buildIndexIndex_spec (ms : List Module) (i : Nat) (idx : Nat → Option Module)
    (k : Nat) :
    buildIndexIndex ms i idx k = if i ≤ k ∧ k < i + ms.length then ms[k - i]? else idx k := by
  induction ms generalizing i idx with
  | nil =>
    unfold buildIndexIndex
    rw [if_neg (by simp only [List.length_nil]; omega)]
  | cons m ms ih =>
    unfold buildIndexIndex
    rw [ih]
    simp only [List.length_cons]
    by_cases h1 : i + 1 ≤ k ∧ k < i + 1 + ms.length
    · rw [if_pos h1, if_pos (by omega)]
      have : k - i = (k - (i + 1)) + 1 := by omega
      rw [this]; simp
    · rw [if_neg h1]
      by_cases h2 : k = i
      · subst h2
        rw [if_pos rfl, if_pos (by omega)]
        simp
      · rw [if_neg h2, if_neg (by omega)]

theorem New_order (n : Nat) : (Mutable.New n).Order = n := by
  simp [Mutable.New, Mutable.Order]

theorem New_out (n v : Nat) : (Mutable.New n).out v = [] := by
  unfold Mutable.New Mutable.out
  by_cases h : v < n
  · simp [List.getD_eq_getElem?_getD, List.getElem?_replicate, h]
  · simp [List.getD_eq_getElem?_getD, List.getElem?_replicate, h]

theorem assemble_moduleIndex (modules : List Module) (s : String) (j : Nat) :
    (assemble modules).moduleIndex s = some j ↔
      ∃ m, modules[j]? = some m ∧ m.name = s ∧
        ∀ k mk, j < k → modules[k]? = some mk → mk.name ≠ s := by
  show buildModuleIndex modules 0 (fun _ => none) s = some j ↔ _
  rw [buildModuleIndex_spec]
  constructor
  · rintro (⟨k, m, hk, hj, hn, hlast⟩ | ⟨hc, _⟩)
    · have : j = k := by omega
      subst this
      exact ⟨m, hk, hn, hlast⟩
    · simp at hc
  · rintro ⟨m, hk, hn, hlast⟩
    exact Or.inl ⟨j, m, hk, by omega, hn, hlast⟩

theorem assemble_moduleIndex_lt (modules : List Module) (s : String) (j : Nat)
    (h : (assemble modules).moduleIndex s = some j) : j < modules.length := by
  obtain ⟨m, hm, _⟩ := (assemble_moduleIndex modules s j).mp h
  exact (List.getElem?_eq_some.mp hm).1

theorem assemble_moduleIndex_name (modules : List Module) (s : String) (j : Nat)
    (h : (assemble modules).moduleIndex s = some j) :
    ∃ m, modules[j]? = some m ∧ m.name = s := by
  obtain ⟨m, hm, hn, _⟩ := (assemble_moduleIndex modules s j).mp h
  exact ⟨m, hm, hn⟩

/-- A name is missing from `moduleIndex` exactly when no module carries it. -/
theorem assemble_moduleIndex_none (modules : List Module) (s : String) :
    (assemble modules).moduleIndex s = none ↔ s ∉ modules.map Module.name := by
  have key : ∀ (ms : List Module) (i : Nat) (idx : String → Option Nat),
      buildModuleIndex ms i idx s = none ↔ idx s = none ∧ s ∉ ms.map Module.name := by
    intro ms
    induction ms with
    | nil => intro i idx; simp [buildModuleIndex]
    | cons m ms ih =>
      intro i idx
      unfold buildModuleIndex
      rw [ih]
      by_cases hs : s = m.name
      · simp [hs]
      · simp [hs]
  show buildModuleIndex modules 0 (fun _ => none) s = none ↔ _
  rw [key]; simp

/-- With distinct names, `moduleIndex` maps the name of module `j` to `j`. -/
theorem assemble_moduleIndex_self (modules : List Module)
    (hnd : (modules.map Module.name).Nodup) (j : Nat) (m : Module)
    (hm : modules[j]? = some m) : (assemble modules).moduleIndex m.name = some j := by
  rw [assemble_moduleIndex]
  refine ⟨m, hm, rfl, ?_⟩
  intro k mk hjk hk hname
  have hj' : (modules.map Module.name)[j]? = some m.name := by simp [hm]
  have hk' : (modules.map Module.name)[k]? = some m.name := by simp [hk, hname]
  obtain ⟨hjl, hje⟩ := List.getElem?_eq_some.mp hj'
  obtain ⟨hkl, hke⟩ := List.getElem?_eq_some.mp hk'
  have := (List.Nodup.getElem_inj_iff hnd).mp (hje.trans hke.symm)
  omega

theorem assemble_indexIndex (modules : List Module) (k : Nat) :
    (assemble modules).indexIndex k = modules[k]? := by
  show buildIndexIndex modules 0 (fun _ => none) k = _
  rw [buildIndexIndex_spec]
  by_cases h : k < modules.length
  · rw [if_pos (by omega)]; simp
  · rw [if_neg (by omega), List.getElem?_eq_none (by omega)]

theorem assemble_graph (modules : List Module) :
    (assemble modules).graph.Order = modules.length ∧
    WellFormed (assemble modules).graph ∧
    UnitCost (assemble modules).graph ∧
    ∀ u x, Edge (assemble modules).graph u x ↔
      ∃ m, modules[u]? = some m ∧
        ∃ inp ∈ m.inputs, inputModuleName inp ≠ "" ∧
          (assemble modules).moduleIndex (inputModuleName inp) = some x := by
  have hnew : WellFormed (Mutable.New modules.length) := by
    intro v e he; rw [New_out] at he; simp at he
  have hnewu : UnitCost (Mutable.New modules.length) := by
    intro v e he; rw [New_out] at he; simp at he
  obtain ⟨h1, h2, h3, h4⟩ := addModules_spec (assemble modules).moduleIndex modules 0
    (Mutable.New modules.length) (by rw [New_order]; omega)
    (by intro s j hj; rw [New_order]; exact assemble_moduleIndex_lt modules s j hj) hnew hnewu
  refine ⟨by rw [← New_order modules.length]; exact h1, h2, h3, ?_⟩
  intro u x
  have : Edge (assemble modules).graph u x ↔
      Edge (addModules (assemble modules).moduleIndex modules 0 (Mutable.New modules.length))
        u x := Iff.rfl
  rw [this, h4]
  constructor
  · rintro (h | ⟨k, m, hk, hu, hex⟩)
    · unfold Edge Mutable.adj at h
      rw [New_out] at h; simp at h
    · have : u = k := by omega
      subst this
      exact ⟨m, hk, hex⟩
  · rintro ⟨m, hk, hex⟩
    exact Or.inr ⟨u, m, hk, by omega, hex⟩

theorem assemble_order (modules : List Module) :
    (assemble modules).graph.Order = modules.length := (assemble_graph modules).1

theorem assemble_wellFormed (modules : List Module) : WellFormed (assemble modules).graph :=
  (assemble_graph modules).2.1

theorem assemble_unitCost (modules : List Module) : UnitCost (assemble modules).graph :=
  (assemble_graph modules).2.2.1

theorem inputModuleName_eq (inp : Input) (s : String) (hs : s ≠ "") :
    inputModuleName inp = s ↔ inp = Input.map s ∨ inp = Input.store s := by
  cases inp with
  | source t => simp [inputModuleName]; exact fun h => hs h.symm
  | map t => simp [inputModuleName]
  | store t => simp [inputModuleName]

/-- The edges of the assembled graph. -/
theorem assemble_edge (modules : List Module) (i j : Nat) :
    Edge (assemble modules).graph i j ↔ Resolves modules i j := by
  rw [(assemble_graph modules).2.2.2]
  constructor
  · rintro ⟨mi, hmi, inp, hin, hne, hidx⟩
    obtain ⟨mj, hmj, hn, hlast⟩ := (assemble_moduleIndex modules _ j).mp hidx
    have hne' : mj.name ≠ "" := by rw [hn]; exact hne
    refine ⟨mi, mj, hmi, hmj, ?_, hne', ?_⟩
    · rcases (inputModuleName_eq inp mj.name hne').mp hn.symm with h | h
      · left; rw [← h]; exact hin
      · right; rw [← h]; exact hin
    · intro k mk hk hmk
      rw [hn]; exact hlast k mk hk hmk
  · rintro ⟨mi, mj, hmi, hmj, hin, hne, hlast⟩
    rcases hin with hin | hin
    · refine ⟨mi, hmi, Input.map mj.name, hin, by simpa [inputModuleName] using hne, ?_⟩
      exact (assemble_moduleIndex modules _ j).mpr ⟨mj, hmj, rfl, hlast⟩
    · refine ⟨mi, hmi, Input.store mj.name, hin, by simpa [inputModuleName] using hne, ?_⟩
      exact (assemble_moduleIndex modules _ j).mpr ⟨mj, hmj, rfl, hlast⟩

/-- A graph returned by `NewModuleGraph` is the assembled graph, and it passed the test
`graph.Acyclic`. -/
theorem NewModuleGraph_ok (modules : List Module) (g : ModuleGraph)
    (h : NewModuleGraph modules = Except.ok g) :
    g = assemble modules ∧ Acyclic (assemble modules).graph = true := by
  unfold NewModuleGraph at h
  by_cases hc : Acyclic (assemble modules).graph = true
  · simp [hc] at h
    exact ⟨h.symm, hc⟩
  · simp [hc] at h

theorem NewModuleGraph_noCycle (modules : List Module) (g : ModuleGraph)
    (h : NewModuleGraph modules = Except.ok g) : NoCycle (assemble modules).graph :=
  (Acyclic_iff _ (assemble_wellFormed modules)).mp (NewModuleGraph_ok modules g h).2

theorem reaches_iff_transGen (g : Mutable) (u w : Nat) :
    Reaches g u w ↔ Relation.TransGen (Edge g) u w := by
  constructor
  · rintro ⟨k, hk, hw⟩
    induction hw with
    | nil => omega
    | @snoc x y k' hwalk he ih =>
      cases k' with
      | zero => cases hwalk; exact Relation.TransGen.single he
      | succ k' => exact Relation.TransGen.tail (ih (by omega)) he
  · intro h
    induction h with
    | single he => exact reaches_of_edge he
    | tail _ he ih => exact reaches_trans ih (reaches_of_edge he)

/-! ## The queries -/

theorem selectByDist_mem (g : ModuleGraph) (keep : Int → Option Module → Bool) (i0 : Nat)
    (ds : List Int) (o : Option Module) :
    o ∈ selectByDist g keep i0 ds ↔
      ∃ k d, ds[k]? = some d ∧ keep d (g.indexIndex (i0 + k)) = true ∧
        o = g.indexIndex (i0 + k) := by
  induction ds generalizing i0 with
  | nil => simp [selectByDist]
  | cons d ds ih =>
    unfold selectByDist
    have hshift : (∃ k d', ds[k]? = some d' ∧ keep d' (g.indexIndex (i0 + 1 + k)) = true ∧
        o = g.indexIndex (i0 + 1 + k)) ↔
        ∃ k d', (d :: ds)[k + 1]? = some d' ∧ keep d' (g.indexIndex (i0 + (k + 1))) = true ∧
          o = g.indexIndex (i0 + (k + 1)) := by
      constructor
      · rintro ⟨k, d', h1, h2, h3⟩
        exact ⟨k, d', by simpa using h1, by rw [← Nat.add_assoc, Nat.add_right_comm]; exact h2,
          by rw [← Nat.add_assoc, Nat.add_right_comm]; exact h3⟩
      · rintro ⟨k, d', h1, h2, h3⟩
        exact ⟨k, d', by simpa using h1, by rw [Nat.add_right_comm, Nat.add_assoc]; exact h2,
          by rw [Nat.add_right_comm, Nat.add_assoc]; exact h3⟩
    by_cases hk : keep d (g.indexIndex i0) = true
    · rw [if_pos hk, List.mem_cons, ih, hshift]
      constructor
      · rintro (h | ⟨k, d', h1, h2, h3⟩)
        · exact ⟨0, d, by simp, by simpa using hk, by simpa using h⟩
        · exact ⟨k + 1, d', h1, h2, h3⟩
      · rintro ⟨k, d', h1, h2, h3⟩
        cases k with
        | zero => left; simpa using h3
        | succ k => right; exact ⟨k, d', h1, h2, h3⟩
    · rw [if_neg hk, ih, hshift]
      constructor
      · rintro ⟨k, d', h1, h2, h3⟩
        exact ⟨k + 1, d', h1, h2, h3⟩
      · rintro ⟨k, d', h1, h2, h3⟩
        cases k with
        | zero =>
          simp at h1
          subst h1
          simp at h2
          exact absurd h2 hk
        | succ k => exact ⟨k, d', h1, h2, h3⟩

theorem selectByDist_filter (g : ModuleGraph) (keep : Int → Option Module → Bool) (i0 : Nat)
    (ds : List Int) :
    selectByDist g (fun d module => keep d module && isStore module) i0 ds
      = (selectByDist g keep i0 ds).filter isStore := by
  induction ds generalizing i0 with
  | nil => rfl
  | cons d ds ih =>
    unfold selectByDist
    by_cases hk : keep d (g.indexIndex i0) = true
    · by_cases hs : isStore (g.indexIndex i0) = true
      · simp [hk, hs, ih]
      · simp [hk, hs, ih]
    · simp [hk, ih]

theorem selectByDist_nodup (g : ModuleGraph) (keep : Int → Option Module → Bool) (i0 : Nat)
    (ds : List Int)
    (hinj : ∀ k k', i0 ≤ k → k < k' → k' < i0 + ds.length → g.indexIndex k ≠ g.indexIndex k') :
    (selectByDist g keep i0 ds).Nodup := by
  induction ds generalizing i0 with
  | nil => simp [selectByDist]
  | cons d ds ih =>
    unfold selectByDist
    simp only [List.length_cons] at hinj
    have htail := ih (i0 + 1) (fun k k' h1 h2 h3 => hinj k k' (by omega) h2 (by omega))
    split
    · refine List.nodup_cons.mpr ⟨?_, htail⟩
      intro hmem
      obtain ⟨k, d', h1, _, h3⟩ := (selectByDist_mem g keep (i0 + 1) ds _).mp hmem
      have hk : k < ds.length := (List.getElem?_eq_some.mp h1).1
      exact hinj i0 (i0 + 1 + k) (le_refl _) (by omega) (by omega) h3
    · exact htail

theorem selectByDist_congr (g : ModuleGraph) (keep keep' : Int → Option Module → Bool)
    (i0 : Nat) (ds : List Int) (h : ∀ d ∈ ds, ∀ o, keep d o = keep' d o) :
    selectByDist g keep i0 ds = selectByDist g keep' i0 ds := by
  induction ds generalizing i0 with
  | nil => rfl
  | cons d ds ih =>
    unfold selectByDist
    rw [h d (List.mem_cons_self _ _), ih (i0 + 1) (fun d' hd' => h d' (List.mem_cons_of_mem _ hd'))]

/-- The selection `d >= 0` is the selection `d >= 1` together with the one index of
distance 0. -/
theorem selectByDist_perm (g : ModuleGraph) (i0 s : Nat) (ds : List Int)
    (hs : i0 ≤ s) (hs0 : ds[s - i0]? = some 0)
    (huniq : ∀ k, ds[k]? = some 0 → k = s - i0) :
    (selectByDist g (fun d _ => decide (d ≥ 0)) i0 ds).Perm
      (g.indexIndex s :: selectByDist g (fun d _ => decide (d ≥ 1)) i0 ds) := by
  induction ds generalizing i0 with
  | nil => simp at hs0
  | cons d ds ih =>
    by_cases hsi : s = i0
    · subst hsi
      simp at hs0
      subst hs0
      have hcongr := selectByDist_congr g (fun d _ => decide (d ≥ 0)) (fun d _ => decide (d ≥ 1))
        (s + 1) ds (by
          intro d' hd' o
          obtain ⟨k, hk⟩ := List.getElem?_of_mem hd'
          have hne : d' ≠ 0 := by
            intro hc
            have := huniq (k + 1) (by simpa [hc] using hk)
            omega
          have : (d' ≥ 0) ↔ (d' ≥ 1) := by omega
          simp only [this])
      unfold selectByDist
      simp [hcongr]
    · have hlt : i0 + 1 ≤ s := by omega
      have hidx : s - i0 = (s - (i0 + 1)) + 1 := by omega
      have hrec := ih (i0 + 1) hlt (by rw [hidx] at hs0; simpa using hs0) (by
        intro k hk
        have := huniq (k + 1) (by simpa using hk)
        omega)
      have hd : d ≠ 0 := by
        intro hc
        have := huniq 0 (by simp [hc])
        omega
      unfold selectByDist
      by_cases hd0 : d ≥ 0
      · have hd1 : d ≥ 1 := by omega
        simp only [hd0, hd1, decide_True, if_true]
        exact (List.Perm.cons _ hrec).trans (List.Perm.swap _ _ _)
      · have hd1 : ¬ d ≥ 1 := by omega
        simp only [hd0, hd1, decide_False]
        exact hrec

/-- Facts shared by all queries on a graph returned by `NewModuleGraph`, for the module of
index `s`. -/
theorem distances_facts (modules : List Module) (g : ModuleGraph)
    (hg : NewModuleGraph modules = Except.ok g) (name : String) (s : Nat)
    (hs : g.moduleIndex name = some s) :
    g = assemble modules ∧ s < modules.length ∧ g.graph.Order = modules.length ∧
    WellFormed g.graph ∧ UnitCost g.graph ∧ NoCycle g.graph ∧
    g.distances name = (ShortestPaths g.graph s).2 ∧
    (g.distances name).length = modules.length := by
  obtain ⟨hge, _⟩ := NewModuleGraph_ok modules g hg
  have hno := NewModuleGraph_noCycle modules g hg
  subst hge
  have hslt := assemble_moduleIndex_lt modules name s hs
  have hd : (assemble modules).distances name = (ShortestPaths (assemble modules).graph s).2 := by
    unfold ModuleGraph.distances
    rw [hs]; rfl
  refine ⟨rfl, hslt, assemble_order modules, assemble_wellFormed modules,
    assemble_unitCost modules, hno, hd, ?_⟩
  rw [hd, ShortestPaths_length _ (assemble_wellFormed modules) (assemble_unitCost modules) s
    (by rw [assemble_order]; exact hslt), assemble_order]

theorem modules_inj (modules : List Module) (hnd : (modules.map Module.name).Nodup)
    (k k' : Nat) (m : Module) (hk : modules[k]? = some m) (hk' : modules[k']? = some m) :
    k = k' := by
  have h1 := assemble_moduleIndex_self modules hnd k m hk
  have h2 := assemble_moduleIndex_self modules hnd k' m hk'
  rw [h1] at h2
  exact Option.some.inj h2

theorem sortInsert_perm (less : Int → Int → Bool) (x : Int) (l : List Int) :
    (sortInsert less x l).Perm (x :: l) := by
  induction l with
  | nil => simp [sortInsert]
  | cons y ys ih =>
    unfold sortInsert
    split
    · exact (List.Perm.cons y ih).trans (List.Perm.swap _ _ _)
    · exact List.Perm.refl _

theorem sortSlice_perm (less : Int → Int → Bool) (l : List Int) :
    (sortSlice less l).Perm l := by
  induction l with
  | nil => simp [sortSlice]
  | cons x xs ih =>
    unfold sortSlice
    exact (sortInsert_perm less x _).trans (List.Perm.cons x ih)

theorem sortInsert_desc (x : Int) (l : List Int) (h : l.Pairwise (fun a b => b ≤ a)) :
    (sortInsert (fun a b => decide (b < a)) x l).Pairwise (fun a b => b ≤ a) := by
  induction l with
  | nil => simp [sortInsert]
  | cons y ys ih =>
    unfold sortInsert
    have hy := List.pairwise_cons.mp h
    by_cases hxy : x < y
    · simp only [hxy, decide_True, if_true]
      refine List.pairwise_cons.mpr ⟨?_, ih hy.2⟩
      intro z hz
      rcases List.mem_cons.mp ((sortInsert_perm _ x ys).mem_iff.mp hz) with h1 | h1
      · omega
      · exact hy.1 z h1
    · simp only [hxy, decide_False]
      refine List.pairwise_cons.mpr ⟨?_, h⟩
      intro z hz
      rcases List.mem_cons.mp hz with h1 | h1
      · omega
      · have := hy.1 z h1; omega

theorem sortSlice_desc (l : List Int) :
    (sortSlice (fun a b => decide (b < a)) l).Pairwise (fun a b => b ≤ a) := by
  induction l with
  | nil => simp [sortSlice]
  | cons x xs ih => unfold sortSlice; exact sortInsert_desc x _ ih

/-- Sorting distinct keys with the reversed comparison gives a strictly decreasing
slice. -/
theorem sortSlice_strict (l : List Int) (hnd : l.Nodup) :
    (sortSlice (fun a b => decide (b < a)) l).Pairwise (fun a b => b < a) := by
  have h1 := sortSlice_desc l
  have h2 : (sortSlice (fun a b => decide (b < a)) l).Nodup :=
    (sortSlice_perm _ l).nodup_iff.mpr hnd
  have h3 := List.Pairwise.and h1 h2
  exact h3.imp (fun ⟨hle, hne⟩ => lt_of_le_of_ne hle (Ne.symm hne))

theorem groupLoop_spec (g : ModuleGraph) (dist : List Int) (rest : List (Option Module))
    (done : List (Option Module)) (acc : DistGroups) (hrest : ∀ o ∈ rest, o ≠ none)
    (h : GInv (keyOf g dist) done acc) :
    ∃ acc', groupLoop g dist rest acc = Except.ok acc' ∧
      GInv (keyOf g dist) (done ++ rest) acc' := by
  induction rest generalizing done acc with
  | nil => exact ⟨acc, rfl, by simpa using h⟩
  | cons o rest ih =>
    cases o with
    | none => exact absurd rfl (hrest none (List.mem_cons_self _ _))
    | some mod =>
      unfold groupLoop
      have hkey : dist.getD ((g.moduleIndex mod.name).getD 0) 0 = keyOf g dist (some mod) := rfl
      simp only [hkey]
      obtain ⟨κ, hκ⟩ : ∃ κ, κ = keyOf g dist (some mod) := ⟨_, rfl⟩
      rw [← hκ]
      have hgrp : (acc.distmap κ).getD [] ++ [some mod]
          = (done ++ [some mod]).filter (fun x => decide (keyOf g dist x = κ)) := by
        rw [h.map κ]
        by_cases hin : κ ∈ acc.distkeys
        · simp [hin, List.filter_append, ← hκ]
        · have hnone : done.filter (fun x => decide (keyOf g dist x = κ)) = [] := by
            rw [List.filter_eq_nil_iff]
            intro x hx hc
            exact hin ((h.keys κ).mpr ⟨x, hx, by simpa using hc⟩)
          simp [hin, List.filter_append, ← hκ, hnone]
      have hstep : GInv (keyOf g dist) (done ++ [some mod])
          { distmap := fun k => if k = κ then some ((acc.distmap κ).getD [] ++ [some mod])
              else acc.distmap k
            distkeys := match acc.distmap κ with
              | none => acc.distkeys ++ [κ]
              | some _ => acc.distkeys } := by
        by_cases hin : κ ∈ acc.distkeys
        · have hsome : acc.distmap κ = some (done.filter (fun x => decide (keyOf g dist x = κ))) := by
            rw [h.map κ, if_pos hin]
          simp only [hsome]
          refine ⟨h.nodup, ?_, ?_⟩
          · intro k
            rw [h.keys k]
            constructor
            · rintro ⟨x, hx, hk⟩
              exact ⟨x, List.mem_append_left _ hx, hk⟩
            · rintro ⟨x, hx, hk⟩
              rcases List.mem_append.mp hx with h1 | h1
              · exact ⟨x, h1, hk⟩
              · rw [List.mem_singleton] at h1
                subst h1
                rw [← hκ] at hk
                subst hk
                exact (h.keys κ).mp hin
          · intro k
            show (if k = κ then some _ else acc.distmap k) = _
            by_cases hk : k = κ
            · subst hk
              rw [if_pos rfl, if_pos hin, ← hgrp, hsome]
            · rw [if_neg hk, h.map k]
              have : (done ++ [some mod]).filter (fun x => decide (keyOf g dist x = k))
                  = done.filter (fun x => decide (keyOf g dist x = k)) := by
                have hne : ¬ keyOf g dist (some mod) = k := by
                  rw [← hκ]; exact fun hc => hk hc.symm
                simp [List.filter_append, hne]
              rw [this]
        · have hnone : acc.distmap κ = none := by rw [h.map κ, if_neg hin]
          simp only [hnone]
          have hmem : ∀ k, k ∈ acc.distkeys ++ [κ] ↔ k ∈ acc.distkeys ∨ k = κ := by
            intro k; simp
          refine ⟨?_, ?_, ?_⟩
          · exact List.Nodup.append h.nodup (List.nodup_singleton κ) (by
              intro x hx hx2
              rw [List.mem_singleton] at hx2
              subst hx2; exact hin hx)
          · intro k
            show k ∈ acc.distkeys ++ [κ] ↔ _
            rw [hmem, h.keys k]
            constructor
            · rintro (⟨x, hx, hk⟩ | hk)
              · exact ⟨x, List.mem_append_left _ hx, hk⟩
              · exact ⟨some mod, by simp, by rw [hk, hκ]⟩
            · rintro ⟨x, hx, hk⟩
              rcases List.mem_append.mp hx with h1 | h1
              · exact Or.inl ⟨x, h1, hk⟩
              · rw [List.mem_singleton] at h1
                subst h1
                exact Or.inr (by rw [← hk, hκ])
          · intro k
            show (if k = κ then some _ else acc.distmap k)
              = if k ∈ acc.distkeys ++ [κ] then _ else none
            by_cases hk : k = κ
            · subst hk
              rw [if_pos rfl, if_pos (by simp), ← hgrp, hnone]
            · rw [if_neg hk, h.map k]
              have : (done ++ [some mod]).filter (fun x => decide (keyOf g dist x = k))
                  = done.filter (fun x => decide (keyOf g dist x = k)) := by
                have hne : ¬ keyOf g dist (some mod) = k := by
                  rw [← hκ]; exact fun hc => hk hc.symm
                simp [List.filter_append, hne]
              rw [this]
              by_cases hkin : k ∈ acc.distkeys
              · rw [if_pos hkin, if_pos (by simp [hkin])]
              · rw [if_neg hkin, if_neg (by simp [hkin, hk])]
      obtain ⟨acc', h1, h2⟩ := ih (done ++ [some mod]) _
        (fun o ho => hrest o (List.mem_cons_of_mem _ ho)) hstep
      refine ⟨acc', h1, ?_⟩
      simpa using h2

theorem getElem?_eq_getD (l : List Int) (k : Nat) (d : Int) (h : l[k]? = some d) :
    k < l.length ∧ l.getD k 0 = d := by
  obtain ⟨hk, he⟩ := List.getElem?_eq_some.mp h
  refine ⟨hk, ?_⟩
  simp [List.getD_eq_getElem?_getD, h]

theorem getElem?_of_getD (l : List Int) (k : Nat) (h : k < l.length) :
    l[k]? = some (l.getD k 0) := by
  simp [List.getD_eq_getElem?_getD, List.getElem?_eq_getElem h]

theorem walk_zero_eq {g : Mutable} {u w : Nat} (h : Walk g u w 0) : u = w := by
  cases h
  rfl

theorem walk_one_edge {g : Mutable} {u w : Nat} (h : Walk g u w 1) : Edge g u w := by
  cases h with
  | snoc h1 he =>
    cases h1
    exact he

/-- Every pointer a query returns is a module of the list. -/
theorem select_some (modules : List Module) (g : ModuleGraph)
    (hg : NewModuleGraph modules = Except.ok g) (name : String) (s : Nat)
    (hs : g.moduleIndex name = some s) (keep : Int → Option Module → Bool)
    (o : Option Module) (ho : o ∈ selectByDist g keep 0 (g.distances name)) :
    ∃ j x, modules[j]? = some x ∧ o = some x ∧
      keep ((ShortestPaths g.graph s).2.getD j 0) (some x) = true := by
  obtain ⟨hge, hslt, hord, hwf, huc, hno, hd, hlen⟩ := distances_facts modules g hg name s hs
  obtain ⟨k, d, h1, h2, h3⟩ := (selectByDist_mem g keep 0 _ o).mp ho
  obtain ⟨hk, hkd⟩ := getElem?_eq_getD _ _ _ h1
  rw [hlen] at hk
  rw [hd] at hkd
  simp only [Nat.zero_add] at h2 h3
  have hidx : g.indexIndex k = modules[k]? := by rw [hge]; exact assemble_indexIndex modules k
  have hsome : modules[k]? = some (modules[k]) := List.getElem?_eq_getElem hk
  refine ⟨k, modules[k], hsome, by rw [h3, hidx, hsome], ?_⟩
  rw [hkd, ← hsome, ← hidx]
  exact h2

/-- With distinct names, module `j` is returned by a query exactly when its distance
passes the test of the query. -/
theorem select_mem_iff (modules : List Module) (g : ModuleGraph)
    (hg : NewModuleGraph modules = Except.ok g) (hnd : (modules.map Module.name).Nodup)
    (name : String) (s : Nat) (hs : g.moduleIndex name = some s)
    (keep : Int → Option Module → Bool) (j : Nat) (x : Module) (hx : modules[j]? = some x) :
    some x ∈ selectByDist g keep 0 (g.distances name) ↔
      keep ((ShortestPaths g.graph s).2.getD j 0) (some x) = true := by
  obtain ⟨hge, hslt, hord, hwf, huc, hno, hd, hlen⟩ := distances_facts modules g hg name s hs
  constructor
  · intro ho
    obtain ⟨k, y, hk, hy, hkeep⟩ := select_some modules g hg name s hs keep _ ho
    have hxy : x = y := Option.some.inj hy
    subst hxy
    have := modules_inj modules hnd j k x hx hk
    subst this
    exact hkeep
  · intro hkeep
    rw [selectByDist_mem]
    have hj : j < modules.length := (List.getElem?_eq_some.mp hx).1
    have hidx : g.indexIndex j = some x := by
      rw [hge, assemble_indexIndex, hx]
    refine ⟨j, (g.distances name).getD j 0, getElem?_of_getD _ _ (by rw [hlen]; exact hj), ?_, ?_⟩
    · simp only [Nat.zero_add]
      rw [hidx, hd]; exact hkeep
    · simp only [Nat.zero_add]
      exact hidx.symm

/-- With distinct names no query returns a module twice. -/
theorem select_nodup (modules : List Module) (g : ModuleGraph)
    (hg : NewModuleGraph modules = Except.ok g) (hnd : (modules.map Module.name).Nodup)
    (name : String) (s : Nat) (hs : g.moduleIndex name = some s)
    (keep : Int → Option Module → Bool) :
    (selectByDist g keep 0 (g.distances name)).Nodup := by
  obtain ⟨hge, hslt, hord, hwf, huc, hno, hd, hlen⟩ := distances_facts modules g hg name s hs
  apply selectByDist_nodup
  intro k k' _ hkk hk' heq
  rw [hlen] at hk'
  simp only [Nat.zero_add] at hk'
  rw [hge, assemble_indexIndex, assemble_indexIndex] at heq
  have h1 : modules[k]? = some (modules[k]) := List.getElem?_eq_getElem (by omega)
  have h2 : modules[k']? = some (modules[k]) := by rw [← heq]; exact h1
  have := modules_inj modules hnd k k' _ h1 h2
  omega

/-- On a graph returned by `NewModuleGraph`, a vertex is at distance at least 1 from `s`
exactly when a path of at least one edge leads from `s` to it. -/
theorem dist_pos_iff_reaches (g : Mutable) (hwf : WellFormed g) (huc : UnitCost g)
    (hno : NoCycle g) (s : Nat) (hs : s < g.Order) (j : Nat) (hj : j < g.Order) :
    1 ≤ (ShortestPaths g s).2.getD j 0 ↔ Reaches g s j := by
  constructor
  · intro h
    have hw := ShortestPaths_walk g hwf huc s hs j hj (by omega)
    exact ⟨_, by omega, hw⟩
  · rintro ⟨k, hk, hw⟩
    have hle := ShortestPaths_le g hwf huc s hs j k hw
    by_contra hc
    have h0 : (ShortestPaths g s).2.getD j 0 = 0 := by omega
    have hw0 := ShortestPaths_walk g hwf huc s hs j hj hle.1
    rw [h0] at hw0
    have := walk_zero_eq hw0
    subst this
    exact hno s ⟨k, hk, hw⟩

/-- Only the source is at distance 0. -/
theorem dist_zero_iff (g : Mutable) (hwf : WellFormed g) (huc : UnitCost g)
    (s : Nat) (hs : s < g.Order) (j : Nat) (hj : j < g.Order) :
    (ShortestPaths g s).2.getD j 0 = 0 ↔ j = s := by
  constructor
  · intro h0
    have hw0 := ShortestPaths_walk g hwf huc s hs j hj (by omega)
    rw [h0] at hw0
    exact (walk_zero_eq hw0).symm
  · intro h
    subst h
    exact ShortestPaths_source g hwf huc j hs

/-- On a graph without cycle, the vertices at distance 1 from `s` are the ends of the
edges that leave `s`. -/
theorem dist_one_iff_edge (g : Mutable) (hwf : WellFormed g) (huc : UnitCost g)
    (hno : NoCycle g) (s : Nat) (hs : s < g.Order) (j : Nat) (hj : j < g.Order) :
    (ShortestPaths g s).2.getD j 0 = 1 ↔ Edge g s j := by
  constructor
  · intro h
    have hw := ShortestPaths_walk g hwf huc s hs j hj (by omega)
    rw [h] at hw
    exact walk_one_edge hw
  · intro he
    have hw : Walk g s j 1 := Walk.snoc (Walk.nil s) he
    have hle := ShortestPaths_le g hwf huc s hs j 1 hw
    have hpos := (dist_pos_iff_reaches g hwf huc hno s hs j hj).mpr (reaches_of_edge he)
    push_cast at hle
    omega

/-- With distinct names, the edge `i -> j` of the assembled graph says that module `i`
declares a map or store input that carries the non-empty name of module `j`. -/
theorem resolves_distinct (modules : List Module) (hnd : (modules.map Module.name).Nodup)
    (i j : Nat) (m p : Module) (hm : modules[i]? = some m) (hp : modules[j]? = some p) :
    Resolves modules i j ↔
      (Input.map p.name ∈ m.inputs ∨ Input.store p.name ∈ m.inputs) ∧ p.name ≠ "" := by
  constructor
  · rintro ⟨mi, mj, hmi, hmj, hin, hne, _⟩
    rw [hm] at hmi
    rw [hp] at hmj
    have h1 := Option.some.inj hmi
    have h2 := Option.some.inj hmj
    subst h1 h2
    exact ⟨hin, hne⟩
  · rintro ⟨hin, hne⟩
    refine ⟨m, p, hm, hp, hin, hne, ?_⟩
    intro k mk hjk hk hname
    have h1 := assemble_moduleIndex_self modules hnd j p hp
    have h2 := assemble_moduleIndex_self modules hnd k mk hk
    rw [hname, h1] at h2
    have := Option.some.inj h2
    omega

/-- The result of `GroupedModulesDownTo` on a graph returned by `NewModuleGraph`: one group
per key, in strictly decreasing order of the keys, each group being the part of
`ModulesDownTo` filed under its key, in the order of `ModulesDownTo`. -/
theorem grouped_eq (modules : List Module) (g : ModuleGraph)
    (hg : NewModuleGraph modules = Except.ok g) (name : String) (s : Nat)
    (hs : g.moduleIndex name = some s) :
    ∃ keys : List Int,
      g.ModulesDownTo name = Except.ok
        (selectByDist g (fun d _ => decide (d ≥ 0)) 0 (g.distances name)) ∧
      g.GroupedModulesDownTo name = Except.ok
        (keys.map (fun k =>
          (selectByDist g (fun d _ => decide (d ≥ 0)) 0 (g.distances name)).filter
            (fun o => decide (keyOf g (ShortestPaths g.graph s).2 o = k)))) ∧
      keys.Pairwise (fun a b => b < a) ∧
      ∀ k, k ∈ keys ↔
        ∃ o ∈ selectByDist g (fun d _ => decide (d ≥ 0)) 0 (g.distances name),
          keyOf g (ShortestPaths g.graph s).2 o = k := by
  have hmods : g.ModulesDownTo name = Except.ok
      (selectByDist g (fun d _ => decide (d ≥ 0)) 0 (g.distances name)) := by
    unfold ModuleGraph.ModulesDownTo
    rw [hs]
  have hsome : ∀ o ∈ selectByDist g (fun d _ => decide (d ≥ 0)) 0 (g.distances name),
      o ≠ none := by
    intro o ho hc
    obtain ⟨j, x, _, hx, _⟩ := select_some modules g hg name s hs _ o ho
    rw [hx] at hc
    exact absurd hc (by simp)
  have hinit : GInv (keyOf g (ShortestPaths g.graph s).2) []
      { distmap := fun _ => none, distkeys := [] } :=
    ⟨List.nodup_nil, by intro k; simp, by intro k; simp⟩
  obtain ⟨acc, hloop, hinv⟩ := groupLoop_spec g (ShortestPaths g.graph s).2 _ [] _ hsome hinit
  simp only [List.nil_append] at hinv
  refine ⟨sortSlice (fun a b => decide (b < a)) acc.distkeys, hmods, ?_,
    sortSlice_strict _ hinv.nodup, ?_⟩
  · unfold ModuleGraph.GroupedModulesDownTo
    rw [hs]
    simp only [hmods, hloop]
    congr 1
    apply List.map_congr_left
    intro k hk
    have hk' : k ∈ acc.distkeys := (sortSlice_perm _ _).mem_iff.mp hk
    rw [hinv.map k, if_pos hk']
    rfl
  · intro k
    rw [(sortSlice_perm _ _).mem_iff, hinv.keys k]

/-- With distinct names the key of a module is its own distance. -/
theorem keyOf_self (modules : List Module) (hnd : (modules.map Module.name).Nodup)
    (dist : List Int) (j : Nat) (x : Module) (hx : modules[j]? = some x) :
    keyOf (assemble modules) dist (some x) = dist.getD j 0 := by
  show dist.getD (((assemble modules).moduleIndex x.name).getD 0) 0 = dist.getD j 0
  rw [assemble_moduleIndex_self modules hnd j x hx]
  rfl

/-- C4: on a graph built by `NewModuleGraph` from modules with distinct names, `AncestorsOf`
of a module `m` of the graph succeeds, a module is in the result exactly when a dependency
path of at least one edge leads from `m` to it, `m` itself is not in the result, and the
result holds modules of the list only. -/
theorem AncestorsOf_iff_path (modules : List Module) (g : ModuleGraph)
    (hg : NewModuleGraph modules = Except.ok g) (hnd : (modules.map Module.name).Nodup)
    (i : Nat) (m : Module) (hm : modules[i]? = some m) :
    ∃ res, g.AncestorsOf m.name = Except.ok res ∧
      (∀ j x, modules[j]? = some x → (some x ∈ res ↔ Reaches g.graph i j)) ∧
      some m ∉ res ∧ ∀ o ∈ res, ∃ x ∈ modules, o = some x := by
  have hge := (NewModuleGraph_ok modules g hg).1
  have hs : g.moduleIndex m.name = some i := by
    rw [hge]; exact assemble_moduleIndex_self modules hnd i m hm
  obtain ⟨_, hslt, hord, hwf, huc, hno, hd, hlen⟩ := distances_facts modules g hg m.name i hs
  have hmem : ∀ j x, modules[j]? = some x →
      (some x ∈ selectByDist g (fun d _ => decide (d ≥ 1)) 0 (g.distances m.name)
        ↔ Reaches g.graph i j) := by
    intro j x hx
    rw [select_mem_iff modules g hg hnd m.name i hs _ j x hx]
    have hj : j < g.graph.Order := by rw [hord]; exact (List.getElem?_eq_some.mp hx).1
    rw [← dist_pos_iff_reaches g.graph hwf huc hno i (by rw [hord]; exact hslt) j hj]
    simp
  refine ⟨_, by unfold ModuleGraph.AncestorsOf; rw [hs], hmem, ?_, ?_⟩
  · rw [hmem i m hm]
    exact hno i
  · intro o ho
    obtain ⟨j, x, hx, hox, _⟩ := select_some modules g hg m.name i hs _ o ho
    exact ⟨x, List.getElem?_mem hx, hox⟩

/-- C4, witness: module `x` of `exStaged`. -/
theorem AncestorsOf_iff_path_witness :
    NewModuleGraph exStaged = Except.ok (assemble exStaged) ∧
    (exStaged.map Module.name).Nodup ∧
    ∃ res, (assemble exStaged).AncestorsOf "x" = Except.ok res ∧
      (∀ j x, exStaged[j]? = some x → (some x ∈ res ↔ Reaches (assemble exStaged).graph 1 j)) ∧
      some ⟨"x", Kind.store, [Input.map "a", Input.store "b"]⟩ ∉ res ∧
      ∀ o ∈ res, ∃ x ∈ exStaged, o = some x :=
  ⟨rfl, by decide,
    AncestorsOf_iff_path exStaged (assemble exStaged) rfl (by decide) 1
      ⟨"x", Kind.store, [Input.map "a", Input.store "b"]⟩ rfl⟩

/-- C7, as stated, fails: in `exEmptyParent` module `a` declares a map input that carries
the (empty) name of the second module, and `ParentsOf` of `a` returns no module. -/
theorem ParentsOf_counterexample :
    NewModuleGraph exEmptyParent = Except.ok (assemble exEmptyParent) ∧
    (exEmptyParent.map Module.name).Nodup ∧
    exEmptyParent[0]? = some ⟨"a", Kind.map, [Input.map ""]⟩ ∧
    (assemble exEmptyParent).ParentsOf "a" = Except.ok [] ∧
    ¬ ParentsOfClaim exEmptyParent (assemble exEmptyParent) ⟨"a", Kind.map, [Input.map ""]⟩ := by
  refine ⟨rfl, by decide, rfl, rfl, ?_⟩
  rintro ⟨res, hres, h⟩
  have hnil : res = [] := by
    have h2 : (assemble exEmptyParent).ParentsOf "a" = Except.ok [] := rfl
    have h3 : (Except.ok res : Except String (List (Option Module))) = Except.ok [] := by
      rw [← hres]; exact h2
    exact Except.ok.inj h3
  have := (h 1 ⟨"", Kind.store, []⟩ rfl).mpr (Or.inl (by decide))
  rw [hnil] at this
  simp at this

/-- C7, amended: on a graph built by `NewModuleGraph` from modules with distinct names,
`ParentsOf` of a module `m` of the graph succeeds, and a module `p` is in the result exactly
when `m` declares a map or store input that carries the name of `p` and this name is not
empty. -/
theorem ParentsOf_iff_declared (modules : List Module) (g : ModuleGraph)
    (hg : NewModuleGraph modules = Except.ok g) (hnd : (modules.map Module.name).Nodup)
    (i : Nat) (m : Module) (hm : modules[i]? = some m) :
    ∃ res, g.ParentsOf m.name = Except.ok res ∧
      (∀ (j : Nat) (p : Module), modules[j]? = some p →
        (some p ∈ res ↔
          (Input.map p.name ∈ m.inputs ∨ Input.store p.name ∈ m.inputs) ∧ p.name ≠ "")) ∧
      ∀ o ∈ res, ∃ x ∈ modules, o = some x := by
  have hge := (NewModuleGraph_ok modules g hg).1
  have hs : g.moduleIndex m.name = some i := by
    rw [hge]; exact assemble_moduleIndex_self modules hnd i m hm
  obtain ⟨_, hslt, hord, hwf, huc, hno, hd, hlen⟩ := distances_facts modules g hg m.name i hs
  refine ⟨_, by unfold ModuleGraph.ParentsOf; rw [hs], ?_, ?_⟩
  · intro j p hp
    rw [select_mem_iff modules g hg hnd m.name i hs _ j p hp]
    have hj : j < g.graph.Order := by rw [hord]; exact (List.getElem?_eq_some.mp hp).1
    rw [← resolves_distinct modules hnd i j m p hm hp, ← assemble_edge, ← hge,
      ← dist_one_iff_edge g.graph hwf huc hno i (by rw [hord]; exact hslt) j hj]
    simp
  · intro o ho
    obtain ⟨j, x, hx, hox, _⟩ := select_some modules g hg m.name i hs _ o ho
    exact ⟨x, List.getElem?_mem hx, hox⟩

/-- C7, witness: module `x` of `exStaged`. -/
theorem ParentsOf_iff_declared_witness :
    NewModuleGraph exStaged = Except.ok (assemble exStaged) ∧
    (exStaged.map Module.name).Nodup ∧
    ∃ res, (assemble exStaged).ParentsOf "x" = Except.ok res ∧
      (∀ (j : Nat) (p : Module), exStaged[j]? = some p →
        (some p ∈ res ↔
          (Input.map p.name ∈ [Input.map "a", Input.store "b"] ∨
            Input.store p.name ∈ [Input.map "a", Input.store "b"]) ∧ p.name ≠ "")) ∧
      ∀ o ∈ res, ∃ x ∈ exStaged, o = some x :=
  ⟨rfl, by decide,
    ParentsOf_iff_declared exStaged (assemble exStaged) rfl (by decide) 1
      ⟨"x", Kind.store, [Input.map "a", Input.store "b"]⟩ rfl⟩

/-- C8: on a graph built by `NewModuleGraph` from modules with distinct names,
`ModulesDownTo` of a module `m` of the graph holds `m` and the modules of `AncestorsOf`,
each once. -/
theorem ModulesDownTo_eq_self_and_ancestors (modules : List Module) (g : ModuleGraph)
    (hg : NewModuleGraph modules = Except.ok g) (hnd : (modules.map Module.name).Nodup)
    (i : Nat) (m : Module) (hm : modules[i]? = some m) :
    ∃ down anc, g.ModulesDownTo m.name = Except.ok down ∧
      g.AncestorsOf m.name = Except.ok anc ∧
      down.Perm (some m :: anc) ∧ down.Nodup := by
  have hge := (NewModuleGraph_ok modules g hg).1
  have hs : g.moduleIndex m.name = some i := by
    rw [hge]; exact assemble_moduleIndex_self modules hnd i m hm
  obtain ⟨_, hslt, hord, hwf, huc, hno, hd, hlen⟩ := distances_facts modules g hg m.name i hs
  have hi : i < g.graph.Order := by rw [hord]; exact hslt
  refine ⟨_, _, by unfold ModuleGraph.ModulesDownTo; rw [hs],
    by unfold ModuleGraph.AncestorsOf; rw [hs], ?_,
    select_nodup modules g hg hnd m.name i hs _⟩
  have hidx : g.indexIndex i = some m := by rw [hge, assemble_indexIndex, hm]
  rw [← hidx]
  apply selectByDist_perm g 0 i _ (Nat.zero_le _)
  · simp only [Nat.sub_zero]
    rw [getElem?_of_getD _ _ (by rw [hlen]; exact hslt), hd,
      ShortestPaths_source g.graph hwf huc i hi]
  · intro k hk
    obtain ⟨hklt, hk0⟩ := getElem?_eq_getD _ _ _ hk
    rw [hlen] at hklt
    rw [hd] at hk0
    simp only [Nat.sub_zero]
    exact (dist_zero_iff g.graph hwf huc i hi k (by rw [hord]; exact hklt)).mp hk0

/-- C8, witness: module `x` of `exStaged`. -/
theorem ModulesDownTo_eq_self_and_ancestors_witness :
    NewModuleGraph exStaged = Except.ok (assemble exStaged) ∧
    (exStaged.map Module.name).Nodup ∧
    ∃ down anc, (assemble exStaged).ModulesDownTo "x" = Except.ok down ∧
      (assemble exStaged).AncestorsOf "x" = Except.ok anc ∧
      down.Perm (some ⟨"x", Kind.store, [Input.map "a", Input.store "b"]⟩ :: anc) ∧
      down.Nodup :=
  ⟨rfl, by decide,
    ModulesDownTo_eq_self_and_ancestors exStaged (assemble exStaged) rfl (by decide) 1
      ⟨"x", Kind.store, [Input.map "a", Input.store "b"]⟩ rfl⟩

/-- C9: for every graph and every name, `AncestorStoresOf` is `AncestorsOf` filtered to the
modules of kind store and `StoresDownTo` is `ModulesDownTo` filtered to the modules of kind
store, the order of the unfiltered result being kept (an error is passed on unchanged). -/
theorem stores_eq_filter (g : ModuleGraph) (moduleName : String) :
    g.AncestorStoresOf moduleName = AncestorStoresOfSpec g moduleName ∧
    g.StoresDownTo moduleName = StoresDownToSpec g moduleName := by
  constructor
  · unfold ModuleGraph.AncestorStoresOf AncestorStoresOfSpec
    cases g.AncestorsOf moduleName <;> rfl
  · unfold ModuleGraph.StoresDownTo StoresDownToSpec ModuleGraph.ModulesDownTo
    cases g.moduleIndex moduleName with
    | none => rfl
    | some v =>
      show Except.ok _ = Except.ok _
      rw [selectByDist_filter g (fun d _ => decide (d ≥ 0)) 0 (g.distances moduleName)]

/-- C10: on a graph built by `NewModuleGraph`, each of the six queries returns the error
"could not find module ... in graph" (and no modules) for a name that no module of the
graph carries, and a result without error for a name that a module of the graph carries. -/
theorem queries_fail_iff_unknown (modules : List Module) (g : ModuleGraph)
    (hg : NewModuleGraph modules = Except.ok g) (moduleName : String) :
    (moduleName ∉ modules.map Module.name →
      g.AncestorsOf moduleName = Except.error (notFound moduleName) ∧
      g.AncestorStoresOf moduleName = Except.error (notFound moduleName) ∧
      g.ParentsOf moduleName = Except.error (notFound moduleName) ∧
      g.StoresDownTo moduleName = Except.error (notFound moduleName) ∧
      g.ModulesDownTo moduleName = Except.error (notFound moduleName) ∧
      g.GroupedModulesDownTo moduleName = Except.error (notFound moduleName)) ∧
    (moduleName ∈ modules.map Module.name →
      (∃ res, g.AncestorsOf moduleName = Except.ok res) ∧
      (∃ res, g.AncestorStoresOf moduleName = Except.ok res) ∧
      (∃ res, g.ParentsOf moduleName = Except.ok res) ∧
      (∃ res, g.StoresDownTo moduleName = Except.ok res) ∧
      (∃ res, g.ModulesDownTo moduleName = Except.ok res) ∧
      (∃ res, g.GroupedModulesDownTo moduleName = Except.ok res)) := by
  have hge := (NewModuleGraph_ok modules g hg).1
  constructor
  · intro hnot
    have hnone : g.moduleIndex moduleName = none := by
      rw [hge]; exact (assemble_moduleIndex_none modules moduleName).mpr hnot
    have ha : g.AncestorsOf moduleName = Except.error (notFound moduleName) := by
      unfold ModuleGraph.AncestorsOf; rw [hnone]
    refine ⟨ha, ?_, ?_, ?_, ?_, ?_⟩
    · unfold ModuleGraph.AncestorStoresOf; rw [ha]
    · unfold ModuleGraph.ParentsOf; rw [hnone]
    · unfold ModuleGraph.StoresDownTo; rw [hnone]
    · unfold ModuleGraph.ModulesDownTo; rw [hnone]
    · unfold ModuleGraph.GroupedModulesDownTo; rw [hnone]
  · intro hin
    have hsome : ∃ s, g.moduleIndex moduleName = some s := by
      cases hc : g.moduleIndex moduleName with
      | none =>
        rw [hge] at hc
        exact absurd hin ((assemble_moduleIndex_none modules moduleName).mp hc)
      | some s => exact ⟨s, rfl⟩
    obtain ⟨s, hs⟩ := hsome
    have ha : ∃ res, g.AncestorsOf moduleName = Except.ok res :=
      ⟨_, by unfold ModuleGraph.AncestorsOf; rw [hs]⟩
    obtain ⟨keys, _, hgrp, _⟩ := grouped_eq modules g hg moduleName s hs
    refine ⟨ha, ?_, ⟨_, by unfold ModuleGraph.ParentsOf; rw [hs]⟩,
      ⟨_, by unfold ModuleGraph.StoresDownTo; rw [hs]⟩,
      ⟨_, by unfold ModuleGraph.ModulesDownTo; rw [hs]⟩, ⟨_, hgrp⟩⟩
    obtain ⟨res, hres⟩ := ha
    exact ⟨_, by unfold ModuleGraph.AncestorStoresOf; rw [hres]⟩

/-- C10, witness: the graph of `exStaged` with the unknown name `zz` and the known name
`x`. -/
theorem queries_fail_iff_unknown_witness :
    NewModuleGraph exStaged = Except.ok (assemble exStaged) ∧
    (assemble exStaged).GroupedModulesDownTo "zz" = Except.error (notFound "zz") ∧
    ∃ res, (assemble exStaged).GroupedModulesDownTo "x" = Except.ok res :=
  ⟨rfl,
    ((queries_fail_iff_unknown exStaged (assemble exStaged) rfl "zz").1 (by decide)).2.2.2.2.2,
    ((queries_fail_iff_unknown exStaged (assemble exStaged) rfl "x").2 (by decide)).2.2.2.2.2⟩

theorem flatten_filter_perm {α : Type} (key : α → Int) (keys : List Int) (l : List α)
    (hnd : keys.Nodup) (hall : ∀ x ∈ l, key x ∈ keys) :
    ((keys.map (fun k => l.filter (fun x => decide (key x = k)))).flatten).Perm l := by
  induction keys generalizing l with
  | nil =>
    cases l with
    | nil => simp
    | cons a l => exact absurd (hall a (List.mem_cons_self _ _)) (by simp)
  | cons k ks ih =>
    have hk := List.nodup_cons.mp hnd
    simp only [List.map_cons, List.flatten_cons]
    have hrest : ∀ k' ∈ ks, l.filter (fun x => decide (key x = k'))
        = (l.filter (fun x => !decide (key x = k))).filter (fun x => decide (key x = k')) := by
      intro k' hk'
      rw [List.filter_filter]
      apply List.filter_congr
      intro x _
      have hkk : k' ≠ k := fun hc => hk.1 (hc ▸ hk')
      by_cases h1 : key x = k'
      · simp [h1, hkk]
      · simp [h1]
    have hmap : ks.map (fun k' => l.filter (fun x => decide (key x = k')))
        = ks.map (fun k' => (l.filter (fun x => !decide (key x = k))).filter
            (fun x => decide (key x = k'))) :=
      List.map_congr_left hrest
    rw [hmap]
    have h2 := ih (l.filter (fun x => !decide (key x = k))) hk.2 (by
      intro x hx
      obtain ⟨hxl, hxk⟩ := List.mem_filter.mp hx
      rcases List.mem_cons.mp (hall x hxl) with h3 | h3
      · simp [h3] at hxk
      · exact h3)
    exact (List.Perm.append_left _ h2).trans (List.filter_append_perm _ l)

theorem filter_eq_singleton {α : Type} (p : α → Bool) (a : α) (l : List α) (hnd : l.Nodup)
    (ha : a ∈ l) (hp : ∀ x ∈ l, (p x = true ↔ x = a)) : l.filter p = [a] := by
  induction l with
  | nil => simp at ha
  | cons b l ih =>
    have hb := List.nodup_cons.mp hnd
    by_cases hba : b = a
    · subst hba
      have hnil : l.filter p = [] := by
        rw [List.filter_eq_nil_iff]
        intro x hx hc
        have := (hp x (List.mem_cons_of_mem _ hx)).mp hc
        subst this
        exact hb.1 hx
      rw [List.filter_cons, if_pos ((hp b (List.mem_cons_self _ _)).mpr rfl), hnil]
    · have hpb : ¬ p b = true := fun hc => hba ((hp b (List.mem_cons_self _ _)).mp hc)
      rw [List.filter_cons, if_neg hpb]
      rcases List.mem_cons.mp ha with h1 | h1
      · exact absurd h1.symm hba
      · exact ih hb.2 h1 (fun x hx => hp x (List.mem_cons_of_mem _ hx))

/-- What the queries know about module `m` of index `i` on a graph built from modules with
distinct names: the groups of `GroupedModulesDownTo` are the parts of `ModulesDownTo` at
each distance, by strictly decreasing distance. -/
theorem grouped_facts (modules : List Module) (g : ModuleGraph)
    (hg : NewModuleGraph modules = Except.ok g) (hnd : (modules.map Module.name).Nodup)
    (i : Nat) (m : Module) (hm : modules[i]? = some m) :
    ∃ (down : List (Option Module)) (keys : List Int),
      g.ModulesDownTo m.name = Except.ok down ∧
      g.GroupedModulesDownTo m.name = Except.ok
        (keys.map (fun k =>
          down.filter (fun o => decide (keyOf g (ShortestPaths g.graph i).2 o = k)))) ∧
      down.Nodup ∧
      keys.Pairwise (fun a b => b < a) ∧
      (∀ k, k ∈ keys ↔ ∃ o ∈ down, keyOf g (ShortestPaths g.graph i).2 o = k) ∧
      (∀ o ∈ down, ∃ j x, modules[j]? = some x ∧ o = some x ∧
        0 ≤ (ShortestPaths g.graph i).2.getD j 0 ∧
        keyOf g (ShortestPaths g.graph i).2 o = (ShortestPaths g.graph i).2.getD j 0) ∧
      some m ∈ down ∧
      (∃ init, keys = init ++ [0]) ∧
      down.filter (fun o => decide (keyOf g (ShortestPaths g.graph i).2 o = 0)) = [some m] := by
  have hge := (NewModuleGraph_ok modules g hg).1
  have hs : g.moduleIndex m.name = some i := by
    rw [hge]; exact assemble_moduleIndex_self modules hnd i m hm
  obtain ⟨_, hslt, hord, hwf, huc, hno, hd, hlen⟩ := distances_facts modules g hg m.name i hs
  have hi : i < g.graph.Order := by rw [hord]; exact hslt
  obtain ⟨keys, h1, h2, h4, h5⟩ := grouped_eq modules g hg m.name i hs
  have h3 := select_nodup modules g hg hnd m.name i hs (fun d _ => decide (d ≥ 0))
  have h6 : ∀ o ∈ selectByDist g (fun d _ => decide (d ≥ 0)) 0 (g.distances m.name),
      ∃ j x, modules[j]? = some x ∧ o = some x ∧
        0 ≤ (ShortestPaths g.graph i).2.getD j 0 ∧
        keyOf g (ShortestPaths g.graph i).2 o = (ShortestPaths g.graph i).2.getD j 0 := by
    intro o ho
    obtain ⟨j, x, hx, hox, hkeep⟩ := select_some modules g hg m.name i hs _ o ho
    refine ⟨j, x, hx, hox, by simpa using hkeep, ?_⟩
    rw [hox, hge]
    exact keyOf_self modules hnd _ j x hx
  have h7 : some m ∈ selectByDist g (fun d _ => decide (d ≥ 0)) 0 (g.distances m.name) := by
    rw [select_mem_iff modules g hg hnd m.name i hs _ i m hm,
      ShortestPaths_source g.graph hwf huc i hi]
    simp
  have hkm : keyOf g (ShortestPaths g.graph i).2 (some m) = 0 := by
    rw [hge, keyOf_self modules hnd _ i m hm, ← hge]
    exact ShortestPaths_source g.graph hwf huc i hi
  have hkpos : ∀ k ∈ keys, 0 ≤ k := by
    intro k hk
    obtain ⟨o, ho, hko⟩ := (h5 k).mp hk
    obtain ⟨j, x, _, _, hpos, hkey⟩ := h6 o ho
    omega
  have h0 : (0 : Int) ∈ keys := (h5 0).mpr ⟨some m, h7, hkm⟩
  refine ⟨_, keys, h1, h2, h3, h4, h5, h6, h7, ?_, ?_⟩
  · rcases List.eq_nil_or_concat keys with hnil | ⟨init, kl, hkeys⟩
    · rw [hnil] at h0; simp at h0
    · rw [List.concat_eq_append] at hkeys
      have hkl : kl = 0 := by
        rw [hkeys] at h0 h4
        have hpos := hkpos kl (by rw [hkeys]; simp)
        rcases List.mem_append.mp h0 with hin | hin
        · have := (List.pairwise_append.mp h4).2.2 0 hin kl (by simp)
          omega
        · exact (List.mem_singleton.mp hin).symm
      subst hkl
      exact ⟨init, hkeys⟩
  · apply filter_eq_singleton _ _ _ h3 h7
    intro o ho
    obtain ⟨j, x, hx, hox, hpos, hkey⟩ := h6 o ho
    have hj : j < g.graph.Order := by rw [hord]; exact (List.getElem?_eq_some.mp hx).1
    constructor
    · intro hc
      have hc' : keyOf g (ShortestPaths g.graph i).2 o = 0 := by simpa using hc
      rw [hkey] at hc'
      have hji := (dist_zero_iff g.graph hwf huc i hi j hj).mp hc'
      subst hji
      rw [hox, ← hm, hx]
    · intro hc
      rw [hc]
      simpa using hkm

/-- C5: on a graph built by `NewModuleGraph` from modules with distinct names, the groups of
`GroupedModulesDownTo` of a module `m` of the graph partition `ModulesDownTo`: no group is
empty, and the groups put end to end hold the modules of `ModulesDownTo`, each once. -/
theorem grouped_partition (modules : List Module) (g : ModuleGraph)
    (hg : NewModuleGraph modules = Except.ok g) (hnd : (modules.map Module.name).Nodup)
    (i : Nat) (m : Module) (hm : modules[i]? = some m) :
    ∃ down groups, g.ModulesDownTo m.name = Except.ok down ∧
      g.GroupedModulesDownTo m.name = Except.ok groups ∧
      (∀ grp ∈ groups, grp ≠ []) ∧
      groups.flatten.Perm down ∧ groups.flatten.Nodup ∧
      (∀ o, o ∈ down ↔ ∃ grp ∈ groups, o ∈ grp) := by
  obtain ⟨down, keys, h1, h2, h3, h4, h5, h6, h7, _, _⟩ :=
    grouped_facts modules g hg hnd i m hm
  have hknd : keys.Nodup := h4.imp (fun h => Ne.symm (ne_of_lt h))
  have hperm := flatten_filter_perm (keyOf g (ShortestPaths g.graph i).2) keys down hknd
    (fun o ho => (h5 _).mpr ⟨o, ho, rfl⟩)
  refine ⟨down, _, h1, h2, ?_, hperm, hperm.nodup_iff.mpr h3, ?_⟩
  · intro grp hgrp
    obtain ⟨k, hk, rfl⟩ := List.mem_map.mp hgrp
    obtain ⟨o, ho, hko⟩ := (h5 k).mp hk
    intro hc
    have : o ∈ down.filter (fun o => decide (keyOf g (ShortestPaths g.graph i).2 o = k)) :=
      List.mem_filter.mpr ⟨ho, by simpa using hko⟩
    rw [hc] at this
    simp at this
  · intro o
    rw [← hperm.mem_iff, List.mem_flatten]

/-- C5, witness: module `m` of `exStaged`. -/
theorem grouped_partition_witness :
    NewModuleGraph exStaged = Except.ok (assemble exStaged) ∧
    (exStaged.map Module.name).Nodup ∧
    ∃ down groups, (assemble exStaged).ModulesDownTo "m" = Except.ok down ∧
      (assemble exStaged).GroupedModulesDownTo "m" = Except.ok groups ∧
      (∀ grp ∈ groups, grp ≠ []) ∧
      groups.flatten.Perm down ∧ groups.flatten.Nodup ∧
      (∀ o, o ∈ down ↔ ∃ grp ∈ groups, o ∈ grp) :=
  ⟨rfl, by decide,
    grouped_partition exStaged (assemble exStaged) rfl (by decide) 0
      ⟨"m", Kind.map, [Input.store "b", Input.store "x"]⟩ rfl⟩

/-- C6: on a graph built by `NewModuleGraph` from modules with distinct names, the groups of
`GroupedModulesDownTo` of a module `m` of the graph come with distances `ds`, one per
group: every module of a group is at that shortest-path distance from `m`, the distances
decrease strictly from group to group, and the last group is the single module `m`, at
distance 0. -/
theorem grouped_by_distance (modules : List Module) (g : ModuleGraph)
    (hg : NewModuleGraph modules = Except.ok g) (hnd : (modules.map Module.name).Nodup)
    (i : Nat) (m : Module) (hm : modules[i]? = some m) :
    ∃ (groups : List (List (Option Module))) (ds : List Nat),
      g.GroupedModulesDownTo m.name = Except.ok groups ∧
      ds.length = groups.length ∧
      (∀ (p : Nat) (grp : List (Option Module)) (d : Nat),
        groups[p]? = some grp → ds[p]? = some d →
        ∀ (j : Nat) (x : Module), modules[j]? = some x → some x ∈ grp →
          IsDist g.graph i j d) ∧
      ds.Pairwise (fun a b => b < a) ∧
      groups.getLast? = some [some m] ∧ ds.getLast? = some 0 := by
  obtain ⟨down, keys, h1, h2, h3, h4, h5, h6, h7, ⟨init, h8⟩, h9⟩ :=
    grouped_facts modules g hg hnd i m hm
  have hge := (NewModuleGraph_ok modules g hg).1
  have hs : g.moduleIndex m.name = some i := by
    rw [hge]; exact assemble_moduleIndex_self modules hnd i m hm
  obtain ⟨_, hslt, hord, hwf, huc, hno, hd, hlen⟩ := distances_facts modules g hg m.name i hs
  have hi : i < g.graph.Order := by rw [hord]; exact hslt
  have hkpos : ∀ k ∈ keys, 0 ≤ k := by
    intro k hk
    obtain ⟨o, ho, hko⟩ := (h5 k).mp hk
    obtain ⟨j, x, _, _, hpos, hkey⟩ := h6 o ho
    omega
  refine ⟨_, keys.map Int.toNat, h2, by simp, ?_, ?_, ?_, ?_⟩
  · intro p grp d hp hdp j x hx hxin
    simp only [List.getElem?_map] at hp hdp
    cases hk : keys[p]? with
    | none => rw [hk] at hp; simp at hp
    | some k =>
      rw [hk] at hp hdp
      simp only [Option.map_some', Option.some.injEq] at hp hdp
      subst hp hdp
      obtain ⟨hxd, hxk⟩ := List.mem_filter.mp hxin
      have hxk' : keyOf g (ShortestPaths g.graph i).2 (some x) = k := by simpa using hxk
      rw [hge, keyOf_self modules hnd _ j x hx, ← hge] at hxk'
      have hj : j < g.graph.Order := by rw [hord]; exact (List.getElem?_eq_some.mp hx).1
      have hk0 := hkpos k (List.getElem?_mem hk)
      rw [← hxk']
      exact ShortestPaths_isDist g.graph hwf huc i hi j hj (by omega)
  · rw [List.pairwise_map]
    exact h4.imp_of_mem (fun {a b} ha hb hab => by
      have := hkpos a ha
      have := hkpos b hb
      omega)
  · rw [h8, List.map_append, List.map_cons, List.map_nil, List.getLast?_concat, h9]
  · rw [h8]
    simp

/-- C6, witness: module `m` of `exStaged`. -/
theorem grouped_by_distance_witness :
    NewModuleGraph exStaged = Except.ok (assemble exStaged) ∧
    (exStaged.map Module.name).Nodup ∧
    ∃ (groups : List (List (Option Module))) (ds : List Nat),
      (assemble exStaged).GroupedModulesDownTo "m" = Except.ok groups ∧
      ds.length = groups.length ∧
      (∀ (p : Nat) (grp : List (Option Module)) (d : Nat),
        groups[p]? = some grp → ds[p]? = some d →
        ∀ (j : Nat) (x : Module), exStaged[j]? = some x → some x ∈ grp →
          IsDist (assemble exStaged).graph 0 j d) ∧
      ds.Pairwise (fun a b => b < a) ∧
      groups.getLast? = some [some ⟨"m", Kind.map, [Input.store "b", Input.store "x"]⟩] ∧
      ds.getLast? = some 0 :=
  ⟨rfl, by decide,
    grouped_by_distance exStaged (assemble exStaged) rfl (by decide) 0
      ⟨"m", Kind.map, [Input.store "b", Input.store "x"]⟩ rfl⟩

/-- C2, as stated, fails: in `exStaged` the groups of `m` are `[a]`, `[x, b]`, `[m]`, and
`a`, of the first group, reads `b`, of the second. -/
theorem staging_counterexample :
    NewModuleGraph exStaged = Except.ok (assemble exStaged) ∧
    (exStaged.map Module.name).Nodup ∧
    (assemble exStaged).GroupedModulesDownTo "m" = Except.ok
      [ [some ⟨"a", Kind.map, [Input.store "b", Input.source "sf.ethereum.type.v1.Block"]⟩],
        [some ⟨"x", Kind.store, [Input.map "a", Input.store "b"]⟩,
          some ⟨"b", Kind.store, [Input.source "sf.ethereum.type.v1.Block"]⟩],
        [some ⟨"m", Kind.map, [Input.store "b", Input.store "x"]⟩] ] ∧
    ¬ StagingClaim exStaged (assemble exStaged)
      [ [some ⟨"a", Kind.map, [Input.store "b", Input.source "sf.ethereum.type.v1.Block"]⟩],
        [some ⟨"x", Kind.store, [Input.map "a", Input.store "b"]⟩,
          some ⟨"b", Kind.store, [Input.source "sf.ethereum.type.v1.Block"]⟩],
        [some ⟨"m", Kind.map, [Input.store "b", Input.store "x"]⟩] ] := by
  refine ⟨rfl, by decide, rfl, ?_⟩
  intro h
  refine h 0 1 _ _ 2 3
    ⟨"a", Kind.map, [Input.store "b", Input.source "sf.ethereum.type.v1.Block"]⟩
    ⟨"b", Kind.store, [Input.source "sf.ethereum.type.v1.Block"]⟩
    (by decide) rfl rfl rfl rfl (by decide) (by decide) ?_
  apply reaches_of_edge
  show 3 ∈ (assemble exStaged).graph.adj 2
  decide

/-- C2, amended: on a graph built by `NewModuleGraph` from modules with distinct names, no
module of a group of `GroupedModulesDownTo` of a module `m` of the graph has a dependency
path to `m`, the module of the last group. -/
theorem grouped_no_path_to_target (modules : List Module) (g : ModuleGraph)
    (hg : NewModuleGraph modules = Except.ok g) (hnd : (modules.map Module.name).Nodup)
    (i : Nat) (m : Module) (hm : modules[i]? = some m) :
    ∃ groups, g.GroupedModulesDownTo m.name = Except.ok groups ∧
      groups.getLast? = some [some m] ∧
      ∀ grp ∈ groups, ∀ (j : Nat) (x : Module), modules[j]? = some x → some x ∈ grp →
        ¬ Reaches g.graph j i := by
  obtain ⟨down, keys, h1, h2, h3, h4, h5, h6, h7, ⟨init, h8⟩, h9⟩ :=
    grouped_facts modules g hg hnd i m hm
  have hge := (NewModuleGraph_ok modules g hg).1
  have hs : g.moduleIndex m.name = some i := by
    rw [hge]; exact assemble_moduleIndex_self modules hnd i m hm
  obtain ⟨_, hslt, hord, hwf, huc, hno, hd, hlen⟩ := distances_facts modules g hg m.name i hs
  have hi : i < g.graph.Order := by rw [hord]; exact hslt
  refine ⟨_, h2, ?_, ?_⟩
  · rw [h8, List.map_append, List.map_cons, List.map_nil, List.getLast?_concat, h9]
  intro grp hgrp j x hx hxin hreach
  obtain ⟨k, _, rfl⟩ := List.mem_map.mp hgrp
  have hxd : some x ∈ down := (List.mem_filter.mp hxin).1
  obtain ⟨j', x', hx', hox, hpos, _⟩ := h6 _ hxd
  have hxx : x = x' := Option.some.inj hox
  subst hxx
  have hjj := modules_inj modules hnd j j' x hx hx'
  subst hjj
  have hj : j < g.graph.Order := by rw [hord]; exact (List.getElem?_eq_some.mp hx).1
  have hw := ShortestPaths_walk g.graph hwf huc i hi j hj hpos
  obtain ⟨k', hk', hw'⟩ := hreach
  exact hno i ⟨_ + k', by omega, walk_append hw hw'⟩

/-- C2, witness of the amended statement: module `m` of `exStaged`. -/
theorem grouped_no_path_to_target_witness :
    NewModuleGraph exStaged = Except.ok (assemble exStaged) ∧
    (exStaged.map Module.name).Nodup ∧
    ∃ groups, (assemble exStaged).GroupedModulesDownTo "m" = Except.ok groups ∧
      groups.getLast? = some [some ⟨"m", Kind.map, [Input.store "b", Input.store "x"]⟩] ∧
      ∀ grp ∈ groups, ∀ (j : Nat) (x : Module), exStaged[j]? = some x → some x ∈ grp →
        ¬ Reaches (assemble exStaged).graph j 0 :=
  ⟨rfl, by decide,
    grouped_no_path_to_target exStaged (assemble exStaged) rfl (by decide) 0
      ⟨"m", Kind.map, [Input.store "b", Input.store "x"]⟩ rfl⟩

theorem edge_eq_resolves (modules : List Module) :
    Edge (assemble modules).graph = Resolves modules := by
  funext i j
  exact propext (assemble_edge modules i j)

theorem before_map {α β : Type} (f : α → β) {l : List α} {a b : α} (h : Before l a b) :
    Before (l.map f) (f a) (f b) := by
  obtain ⟨l1, l2, l3, rfl⟩ := h
  exact ⟨l1.map f, l2.map f, l3.map f, by simp⟩

/-- C1, as stated, fails twice: `NewModuleGraph` returns a graph for `exEmptyName`, whose
module names itself through the empty name, and for `exDupName`, whose first module names
itself through a name that a later module carries too. -/
theorem NewModuleGraph_counterexample : ¬ BuildClaim exEmptyName ∧ ¬ BuildClaim exDupName := by
  constructor
  · intro h
    have hok : ∃ g, NewModuleGraph exEmptyName = Except.ok g := ⟨assemble exEmptyName, rfl⟩
    refine h.mp hok 0 (Relation.TransGen.single ?_)
    exact ⟨_, _, rfl, rfl, Or.inl (by decide)⟩
  · intro h
    have hok : ∃ g, NewModuleGraph exDupName = Except.ok g := ⟨assemble exDupName, rfl⟩
    refine h.mp hok 0 (Relation.TransGen.single ?_)
    exact ⟨_, _, rfl, rfl, Or.inl (by decide)⟩

/-- C1, amended: for every module list, `NewModuleGraph` returns a graph (the assembled one)
exactly when the graph that has an edge `i -> j` for every map or store input of module `i`
with a non-empty module name whose last bearer in the list is module `j` has no cycle;
otherwise it returns the error "modules graph has a cycle" and no graph. When the names are
distinct and none is empty, these edges are the inputs naming a module of the list. -/
theorem NewModuleGraph_ok_iff_acyclic (modules : List Module) :
    (NewModuleGraph modules = Except.ok (assemble modules) ↔
      ∀ i, ¬ Relation.TransGen (Resolves modules) i i) ∧
    ((∃ g, NewModuleGraph modules = Except.ok g) ↔
      ∀ i, ¬ Relation.TransGen (Resolves modules) i i) ∧
    ((∃ i, Relation.TransGen (Resolves modules) i i) ↔
      NewModuleGraph modules = Except.error "modules graph has a cycle") ∧
    ((modules.map Module.name).Nodup → "" ∉ modules.map Module.name →
      ∀ i j, Resolves modules i j ↔ Declares modules i j) := by
  have hkey : Acyclic (assemble modules).graph = true ↔
      ∀ i, ¬ Relation.TransGen (Resolves modules) i i := by
    rw [Acyclic_iff _ (assemble_wellFormed modules)]
    unfold NoCycle
    simp only [reaches_iff_transGen, edge_eq_resolves]
  refine ⟨?_, ?_, ?_, ?_⟩
  · rw [← hkey]
    unfold NewModuleGraph
    by_cases hc : Acyclic (assemble modules).graph = true
    · simp [hc]
    · simp [hc]
  · rw [← hkey]
    constructor
    · rintro ⟨g, hg⟩
      exact (NewModuleGraph_ok modules g hg).2
    · intro hc
      exact ⟨assemble modules, by unfold NewModuleGraph; simp [hc]⟩
  · have hneg : (∃ i, Relation.TransGen (Resolves modules) i i) ↔
        ¬ Acyclic (assemble modules).graph = true := by
      rw [hkey]; push_neg; rfl
    rw [hneg]
    unfold NewModuleGraph
    by_cases hc : Acyclic (assemble modules).graph = true
    · simp [hc]
    · simp [hc]
  · intro hnd hne i j
    constructor
    · rintro ⟨mi, mj, hmi, hmj, hin, _, _⟩
      exact ⟨mi, mj, hmi, hmj, hin⟩
    · rintro ⟨mi, mj, hmi, hmj, hin⟩
      refine (resolves_distinct modules hnd i j mi mj hmi hmj).mpr ⟨hin, ?_⟩
      intro hc
      apply hne
      rw [← hc]
      exact List.mem_map.mpr ⟨mj, List.getElem?_mem hmj, rfl⟩

/-- C3, as stated, fails: for `exPair`, where `a` reads `b`, `topSort` returns `a` before
`b`. -/
theorem topSort_counterexample :
    NewModuleGraph exPair = Except.ok (assemble exPair) ∧
    (assemble exPair).topSort =
      ([some ⟨"a", Kind.map, [Input.store "b"]⟩, some ⟨"b", Kind.store, []⟩], true) ∧
    ¬ TopSortClaim exPair (assemble exPair) := by
  refine ⟨rfl, rfl, ?_⟩
  rintro ⟨_, h⟩
  have hd : Declares exPair 0 1 := ⟨_, _, rfl, rfl, Or.inr (by decide)⟩
  obtain ⟨l1, l2, l3, hl⟩ := h 0 1 _ _ rfl rfl hd
  have htop : (assemble exPair).topSort.1 =
      [some ⟨"a", Kind.map, [Input.store "b"]⟩, some ⟨"b", Kind.store, []⟩] := rfl
  rw [htop] at hl
  have hlen := congrArg List.length hl
  simp only [List.length_cons, List.length_nil, List.length_append] at hlen
  have h1 : l1 = [] := List.eq_nil_of_length_eq_zero (by omega)
  subst h1
  simp only [List.nil_append, List.cons.injEq, Option.some.injEq] at hl
  exact absurd hl.1 (by decide)

/-- C3, amended: on a graph built by `NewModuleGraph`, `topSort` succeeds and returns every
module once, dependents first: the order of the indices is a permutation of the indices of
the list, and whenever module `i` declares a map or store input with a non-empty module name
whose last bearer in the list is module `j`, `i` comes before `j`. -/
theorem topSort_dependents_first (modules : List Module) (g : ModuleGraph)
    (hg : NewModuleGraph modules = Except.ok g) :
    g.topSort.2 = true ∧
    g.topSort.1 = (TopSort g.graph).1.map (fun i => modules[i]?) ∧
    (TopSort g.graph).1.Perm (List.range modules.length) ∧
    (∀ i j, Resolves modules i j → Before (TopSort g.graph).1 i j) ∧
    (∀ (i j : Nat) (mi mj : Module), modules[i]? = some mi → modules[j]? = some mj →
      Resolves modules i j → Before g.topSort.1 (some mi) (some mj)) := by
  obtain ⟨hge, hac⟩ := NewModuleGraph_ok modules g hg
  subst hge
  have hwf := assemble_wellFormed modules
  rw [Acyclic_eq_TopSort] at hac
  have hfst : (assemble modules).topSort.1
      = (TopSort (assemble modules).graph).1.map (fun i => modules[i]?) := by
    unfold ModuleGraph.topSort
    simp only [hac]
    have : (assemble modules).indexIndex = fun i => modules[i]? :=
      funext (assemble_indexIndex modules)
    rw [this]
    rfl
  have hbefore : ∀ i j, Resolves modules i j → Before (TopSort (assemble modules).graph).1 i j :=
    fun i j hr => TopSort_before _ hwf hac i j ((assemble_edge modules i j).mpr hr)
  refine ⟨?_, hfst, ?_, hbefore, ?_⟩
  · unfold ModuleGraph.topSort
    simp [hac]
  · have := TopSort_perm _ hwf hac
    rwa [assemble_order] at this
  · intro i j mi mj hmi hmj hr
    rw [hfst, ← hmi, ← hmj]
    exact before_map (fun i => modules[i]?) (hbefore i j hr)

/-- C3, witness of the amended statement: the graph of `exStaged`. -/
theorem topSort_dependents_first_witness :
    NewModuleGraph exStaged = Except.ok (assemble exStaged) ∧
    (assemble exStaged).topSort.2 = true ∧
    (assemble exStaged).topSort.1
      = (TopSort (assemble exStaged).graph).1.map (fun i => exStaged[i]?) ∧
    (TopSort (assemble exStaged).graph).1.Perm (List.range exStaged.length) ∧
    (∀ i j, Resolves exStaged i j → Before (TopSort (assemble exStaged).graph).1 i j) ∧
    (∀ (i j : Nat) (mi mj : Module), exStaged[i]? = some mi → exStaged[j]? = some mj →
      Resolves exStaged i j → Before (assemble exStaged).topSort.1 (some mi) (some mj)) :=
  ⟨rfl, topSort_dependents_first exStaged (assemble exStaged) rfl⟩

/-! ## Independence of the order in which `Visit` runs through a map -/

theorem walk_congr (g gr : Mutable) (hedge : ∀ u w, Edge gr u w ↔ Edge g u w)
    (u w k : Nat) : Walk gr u w k ↔ Walk g u w k := by
  constructor
  · intro h
    induction h with
    | nil => exact Walk.nil _
    | snoc _ he ih => exact Walk.snoc ih ((hedge _ _).mp he)
  · intro h
    induction h with
    | nil => exact Walk.nil _
    | snoc _ he ih => exact Walk.snoc ih ((hedge _ _).mpr he)

/-- Two graphs with the same vertices and the same edges, whatever the order of the entries
of their maps, have the same distances. -/
theorem ShortestPaths_visit_order (g gr : Mutable) (hwf : WellFormed g) (huc : UnitCost g)
    (hwf' : WellFormed gr) (huc' : UnitCost gr) (hord : gr.Order = g.Order)
    (hedge : ∀ u w, Edge gr u w ↔ Edge g u w) (s : Nat) (hs : s < g.Order) :
    (ShortestPaths gr s).2 = (ShortestPaths g s).2 := by
  have hs' : s < gr.Order := by rw [hord]; exact hs
  have hl := ShortestPaths_length g hwf huc s hs
  have hl' := ShortestPaths_length gr hwf' huc' s hs'
  apply List.ext_getElem (by rw [hl, hl', hord])
  intro w h1 h2
  have hw : w < g.Order := by rw [← hl]; exact h2
  have hw' : w < gr.Order := by rw [hord]; exact hw
  have e1 : (ShortestPaths gr s).2.getD w 0 = (ShortestPaths gr s).2[w] := by
    simp [List.getD_eq_getElem?_getD, List.getElem?_eq_getElem h1]
  have e2 : (ShortestPaths g s).2.getD w 0 = (ShortestPaths g s).2[w] := by
    simp [List.getD_eq_getElem?_getD, List.getElem?_eq_getElem h2]
  rw [← e1, ← e2]
  rcases ShortestPaths_range gr hwf' huc' s hs' w hw' with h | h
  · have hno := (ShortestPaths_unreached gr hwf' huc' s hs' w hw').mp h
    rw [h]
    exact ((ShortestPaths_unreached g hwf huc s hs w hw).mpr
      (fun k hk => hno k ((walk_congr g gr hedge s w k).mpr hk))).symm
  · have hwalk := ShortestPaths_walk gr hwf' huc' s hs' w hw' h
    have hle := ShortestPaths_le g hwf huc s hs w _ ((walk_congr g gr hedge s w _).mp hwalk)
    have hwalk2 := ShortestPaths_walk g hwf huc s hs w hw hle.1
    have hle2 := ShortestPaths_le gr hwf' huc' s hs' w _
      ((walk_congr g gr hedge s w _).mpr hwalk2)
    omega

/-- Whatever the order of the entries of the maps, `graph.TopSort` succeeds on a graph
without cycle and puts `u` before `w` for every edge `u -> w`. -/
theorem TopSort_visit_order (g gr : Mutable) (hwf' : WellFormed gr)
    (hord : gr.Order = g.Order) (hedge : ∀ u w, Edge gr u w ↔ Edge g u w)
    (hno : NoCycle g) :
    (TopSort gr).2 = true ∧ (TopSort gr).1.Perm (List.range g.Order) ∧
      ∀ u w, Edge g u w → Before (TopSort gr).1 u w := by
  have hno' : NoCycle gr := by
    intro v ⟨k, hk, hw⟩
    exact hno v ⟨k, hk, (walk_congr g gr hedge v v k).mp hw⟩
  have hok : (TopSort gr).2 = true := by
    by_contra hc
    exact TopSort_cycle gr hwf' (by simpa using hc) hno'
  refine ⟨hok, ?_, ?_⟩
  · rw [← hord]; exact TopSort_perm gr hwf' hok
  · intro u w he
    exact TopSort_before gr hwf' hok u w ((hedge u w).mpr he)

/-- The result of `AncestorsOf` on a graph built from modules with distinct names: module
`j` is in it exactly when a path of at least one edge leads from module `i` to it. -/
theorem ancestors_spec (modules : List Module) (g : ModuleGraph)
    (hg : NewModuleGraph modules = Except.ok g) (hnd : (modules.map Module.name).Nodup)
    (i : Nat) (m : Module) (hm : modules[i]? = some m) :
    ∃ anc, g.AncestorsOf m.name = Except.ok anc ∧
      ∀ (j : Nat) (x : Module), modules[j]? = some x → (some x ∈ anc ↔ Reaches g.graph i j) := by
  have hge := (NewModuleGraph_ok modules g hg).1
  have hs : g.moduleIndex m.name = some i := by
    rw [hge]; exact assemble_moduleIndex_self modules hnd i m hm
  obtain ⟨_, hslt, hord, hwf, huc, hno, hd, hlen⟩ := distances_facts modules g hg m.name i hs
  refine ⟨_, by unfold ModuleGraph.AncestorsOf; rw [hs], ?_⟩
  intro j x hx
  rw [select_mem_iff modules g hg hnd m.name i hs _ j x hx]
  have hj : j < g.graph.Order := by rw [hord]; exact (List.getElem?_eq_some.mp hx).1
  rw [← dist_pos_iff_reaches g.graph hwf huc hno i (by rw [hord]; exact hslt) j hj]
  simp

/-- A vertex at distance `d + 1` from `s` is the end of an edge that leaves a vertex at
distance `d`. -/
theorem dist_pred (g : Mutable) (hwf : WellFormed g) (huc : UnitCost g) (s : Nat)
    (hs : s < g.Order) (j : Nat) (hj : j < g.Order) (d : Nat)
    (hd : (ShortestPaths g s).2.getD j 0 = (d : Int) + 1) :
    ∃ u, u < g.Order ∧ Edge g u j ∧ (ShortestPaths g s).2.getD u 0 = (d : Int) := by
  have hw := ShortestPaths_walk g hwf huc s hs j hj (by omega)
  rw [hd] at hw
  have htn : ((d : Int) + 1).toNat = d + 1 := by omega
  rw [htn] at hw
  cases hw with
  | snoc hwu he =>
    rename_i u
    have hu := edge_lt_left he
    have hle := ShortestPaths_le g hwf huc s hs u d hwu
    have hwu2 := ShortestPaths_walk g hwf huc s hs u hu hle.1
    have hle2 := ShortestPaths_le g hwf huc s hs j _ (Walk.snoc hwu2 he)
    refine ⟨u, hu, he, ?_⟩
    have := hle2.2
    push_cast at this
    omega

/-- The distance computed for a vertex is the only shortest-path distance it has. -/
theorem isDist_iff_dist (g : Mutable) (hwf : WellFormed g) (huc : UnitCost g) (s : Nat)
    (hs : s < g.Order) (j : Nat) (hj : j < g.Order) (d : Nat) :
    IsDist g s j d ↔ (ShortestPaths g s).2.getD j 0 = (d : Int) := by
  constructor
  · rintro ⟨hw, hmin⟩
    have hle := ShortestPaths_le g hwf huc s hs j d hw
    have hw2 := ShortestPaths_walk g hwf huc s hs j hj hle.1
    have := hmin _ hw2
    omega
  · intro h
    have := ShortestPaths_isDist g hwf huc s hs j hj (by omega)
    rw [h] at this
    simpa using this

/-- A strictly decreasing list of natural keys that holds `k - 1` with every `k >= 1` counts
down to 0: the key at position `p` is `length - 1 - p`. -/
theorem desc_closed_keys (keys : List Int) (hp : keys.Pairwise (fun a b => b < a))
    (hpos : ∀ k ∈ keys, 0 ≤ k) (hclosed : ∀ k ∈ keys, 1 ≤ k → k - 1 ∈ keys) :
    ∀ (p : Nat) (k : Int), keys[p]? = some k → k = (keys.length : Int) - 1 - p := by
  induction keys with
  | nil => intro p k h; simp at h
  | cons a l ih =>
    have hpc := List.pairwise_cons.mp hp
    have hl : ∀ (p : Nat) (k : Int), l[p]? = some k → k = (l.length : Int) - 1 - p := by
      apply ih hpc.2 (fun k hk => hpos k (List.mem_cons_of_mem _ hk))
      intro k hk h1
      rcases List.mem_cons.mp (hclosed k (List.mem_cons_of_mem _ hk) h1) with h2 | h2
      · have := hpc.1 k hk
        omega
      · exact h2
    have ha : a = (l.length : Int) := by
      have ha0 := hpos a (List.mem_cons_self _ _)
      cases l with
      | nil =>
        by_contra hne
        have h1 : 1 ≤ a := by
          have : a ≠ 0 := by simpa using hne
          omega
        have := hclosed a (List.mem_cons_self _ _) h1
        simp at this
      | cons b l' =>
        have hb := hl 0 b (by simp)
        have hab := hpc.1 b (List.mem_cons_self _ _)
        simp only [List.length_cons] at hb ⊢
        push_cast at hb ⊢
        have h1 : 1 ≤ a := by
          have := hpos b (List.mem_cons_of_mem _ (List.mem_cons_self _ _))
          omega
        rcases List.mem_cons.mp (hclosed a (List.mem_cons_self _ _) h1) with h2 | h2
        · omega
        · rcases List.mem_cons.mp h2 with h3 | h3
          · omega
          · have := (List.pairwise_cons.mp hpc.2).1 _ h3
            omega
    intro p k h
    cases p with
    | zero =>
      simp only [List.getElem?_cons_zero, Option.some.injEq] at h
      subst h
      simp only [List.length_cons]
      push_cast
      omega
    | succ p =>
      have := hl p k (by simpa using h)
      simp only [List.length_cons]
      push_cast
      omega

/-- C11: on a graph built by `NewModuleGraph` from modules with distinct names, no module
returned by `AncestorsOf` of a module `m` of the graph has a dependency path back to `m`,
and `m` is not in `AncestorsOf` of any such module. -/
theorem ancestors_no_path_back (modules : List Module) (g : ModuleGraph)
    (hg : NewModuleGraph modules = Except.ok g) (hnd : (modules.map Module.name).Nodup)
    (i : Nat) (m : Module) (hm : modules[i]? = some m) :
    ∃ anc, g.AncestorsOf m.name = Except.ok anc ∧
      ∀ (j : Nat) (a : Module), modules[j]? = some a → some a ∈ anc →
        ¬ Reaches g.graph j i ∧
        ∃ anc', g.AncestorsOf a.name = Except.ok anc' ∧ some m ∉ anc' := by
  obtain ⟨anc, h1, h2⟩ := ancestors_spec modules g hg hnd i m hm
  have hno : NoCycle g.graph := by
    rw [(NewModuleGraph_ok modules g hg).1]
    exact NewModuleGraph_noCycle modules g hg
  refine ⟨anc, h1, ?_⟩
  intro j a ha hin
  have hij : Reaches g.graph i j := (h2 j a ha).mp hin
  have hback : ¬ Reaches g.graph j i := fun hji => hno i (reaches_trans hij hji)
  obtain ⟨anc', h3, h4⟩ := ancestors_spec modules g hg hnd j a ha
  exact ⟨hback, anc', h3, fun hc => hback ((h4 i m hm).mp hc)⟩

/-- C11, witness: module `m` of `exStaged`. -/
theorem ancestors_no_path_back_witness :
    NewModuleGraph exStaged = Except.ok (assemble exStaged) ∧
    (exStaged.map Module.name).Nodup ∧
    ∃ anc, (assemble exStaged).AncestorsOf "m" = Except.ok anc ∧
      ∀ (j : Nat) (a : Module), exStaged[j]? = some a → some a ∈ anc →
        ¬ Reaches (assemble exStaged).graph j 0 ∧
        ∃ anc', (assemble exStaged).AncestorsOf a.name = Except.ok anc' ∧
          some ⟨"m", Kind.map, [Input.store "b", Input.store "x"]⟩ ∉ anc' :=
  ⟨rfl, by decide,
    ancestors_no_path_back exStaged (assemble exStaged) rfl (by decide) 0
      ⟨"m", Kind.map, [Input.store "b", Input.store "x"]⟩ rfl⟩

/-- C19: on a graph built by `NewModuleGraph` from modules with distinct names, the groups
of `GroupedModulesDownTo` of a module `m` of the graph are the breadth-first layers from
`m`. The last group is `m` alone. Every module to which a walk leads from `m` has a
shortest-path distance `d`, below the number of groups, and is in the group `d` places from
the end. A group holds modules of the graph only, each once. The group at position `p`
holds exactly the modules at shortest-path distance `length - 1 - p`, every distance below
the number of groups is that of some module, and every module of a group is named in a map
or store input of a module of the next group. -/
theorem grouped_layers (modules : List Module) (g : ModuleGraph)
    (hg : NewModuleGraph modules = Except.ok g) (hnd : (modules.map Module.name).Nodup)
    (i : Nat) (m : Module) (hm : modules[i]? = some m) :
    ∃ groups : List (List (Option Module)),
      g.GroupedModulesDownTo m.name = Except.ok groups ∧
      groups.getLast? = some [some m] ∧
      (∀ (j : Nat) (x : Module) (k : Nat), modules[j]? = some x → Walk g.graph i j k →
        ∃ d, d ≤ k ∧ IsDist g.graph i j d ∧ d < groups.length ∧
          ∃ grp, groups[groups.length - 1 - d]? = some grp ∧ some x ∈ grp) ∧
      (∀ grp ∈ groups, grp.Nodup ∧
        ∀ o ∈ grp, ∃ (j : Nat) (x : Module), modules[j]? = some x ∧ o = some x) ∧
      (∀ (p : Nat) (grp : List (Option Module)), groups[p]? = some grp →
        ∀ (j : Nat) (x : Module), modules[j]? = some x →
          (some x ∈ grp ↔ IsDist g.graph i j (groups.length - 1 - p))) ∧
      (∀ d, d < groups.length → ∃ (j : Nat) (x : Module), modules[j]? = some x ∧
        IsDist g.graph i j d) ∧
      (∀ (p : Nat) (grp nxt : List (Option Module)),
        groups[p]? = some grp → groups[p + 1]? = some nxt →
        ∀ (j : Nat) (x : Module), modules[j]? = some x → some x ∈ grp →
          ∃ (u : Nat) (y : Module), modules[u]? = some y ∧ some y ∈ nxt ∧
            (Input.map x.name ∈ y.inputs ∨ Input.store x.name ∈ y.inputs)) := by
  obtain ⟨down, keys, h1, h2, h3, h4, h5, h6, h7, ⟨init, h8⟩, h9⟩ :=
    grouped_facts modules g hg hnd i m hm
  have hge := (NewModuleGraph_ok modules g hg).1
  have hs : g.moduleIndex m.name = some i := by
    rw [hge]; exact assemble_moduleIndex_self modules hnd i m hm
  obtain ⟨_, hslt, hord, hwf, huc, hno, hd, hlen⟩ := distances_facts modules g hg m.name i hs
  have hi : i < g.graph.Order := by rw [hord]; exact hslt
  have hdown : down = selectByDist g (fun d _ => decide (d ≥ 0)) 0 (g.distances m.name) := by
    have : g.ModulesDownTo m.name = Except.ok
        (selectByDist g (fun d _ => decide (d ≥ 0)) 0 (g.distances m.name)) := by
      unfold ModuleGraph.ModulesDownTo; rw [hs]
    rw [h1] at this
    exact Except.ok.inj this
  -- membership in `down` and the key of a module
  have hmem : ∀ (j : Nat) (x : Module), modules[j]? = some x →
      (some x ∈ down ↔ 0 ≤ (ShortestPaths g.graph i).2.getD j 0) := by
    intro j x hx
    rw [hdown, select_mem_iff modules g hg hnd m.name i hs _ j x hx]
    simp
  have hkey : ∀ (j : Nat) (x : Module), modules[j]? = some x →
      keyOf g (ShortestPaths g.graph i).2 (some x) = (ShortestPaths g.graph i).2.getD j 0 := by
    intro j x hx
    rw [hge]; exact keyOf_self modules hnd _ j x hx
  have hkpos : ∀ k ∈ keys, 0 ≤ k := by
    intro k hk
    obtain ⟨o, ho, hko⟩ := (h5 k).mp hk
    obtain ⟨j, x, _, _, hpos, hkeyo⟩ := h6 o ho
    omega
  -- a module at distance `d + 1` is read by a module at distance `d`
  have hpred : ∀ (j : Nat) (x : Module) (d : Nat), modules[j]? = some x →
      (ShortestPaths g.graph i).2.getD j 0 = (d : Int) + 1 →
      ∃ (u : Nat) (y : Module), modules[u]? = some y ∧
        (ShortestPaths g.graph i).2.getD u 0 = (d : Int) ∧
        (Input.map x.name ∈ y.inputs ∨ Input.store x.name ∈ y.inputs) := by
    intro j x d hx hdj
    have hj : j < g.graph.Order := by rw [hord]; exact (List.getElem?_eq_some.mp hx).1
    obtain ⟨u, hu, he, hdu⟩ := dist_pred g.graph hwf huc i hi j hj d hdj
    have hul : u < modules.length := by rw [← hord]; exact hu
    have hy : modules[u]? = some (modules[u]) := List.getElem?_eq_getElem hul
    refine ⟨u, modules[u], hy, hdu, ?_⟩
    rw [hge] at he
    exact ((resolves_distinct modules hnd u j _ x hy hx).mp
      ((assemble_edge modules u j).mp he)).1
  have hclosed : ∀ k ∈ keys, 1 ≤ k → k - 1 ∈ keys := by
    intro k hk h1k
    obtain ⟨o, ho, hko⟩ := (h5 k).mp hk
    obtain ⟨j, x, hx, hox, _, hkeyo⟩ := h6 o ho
    obtain ⟨u, y, hy, hdu, _⟩ := hpred j x (k - 1).toNat hx (by omega)
    refine (h5 (k - 1)).mpr ⟨some y, (hmem u y hy).mpr (by omega), ?_⟩
    rw [hkey u y hy, hdu]
    omega
  have hcount := desc_closed_keys keys h4 hkpos hclosed
  have hgl : (keys.map (fun k =>
      down.filter (fun o => decide (keyOf g (ShortestPaths g.graph i).2 o = k)))).length
        = keys.length := by simp
  have hgrp : ∀ (p : Nat) (grp : List (Option Module)),
      (keys.map (fun k =>
        down.filter (fun o => decide (keyOf g (ShortestPaths g.graph i).2 o = k))))[p]?
        = some grp →
      p < keys.length ∧
      grp = down.filter (fun o => decide (keyOf g (ShortestPaths g.graph i).2 o
        = ((keys.length - 1 - p : Nat) : Int))) := by
    intro p grp hp
    simp only [List.getElem?_map] at hp
    cases hk : keys[p]? with
    | none => rw [hk] at hp; simp at hp
    | some k =>
      rw [hk] at hp
      simp only [Option.map_some', Option.some.injEq] at hp
      have hpl : p < keys.length := (List.getElem?_eq_some.mp hk).1
      have := hcount p k hk
      have hkk : k = ((keys.length - 1 - p : Nat) : Int) := by omega
      exact ⟨hpl, by rw [← hp, hkk]⟩
  have hin : ∀ (p : Nat) (grp : List (Option Module)),
      (keys.map (fun k =>
        down.filter (fun o => decide (keyOf g (ShortestPaths g.graph i).2 o = k))))[p]?
        = some grp →
      ∀ (j : Nat) (x : Module), modules[j]? = some x →
        (some x ∈ grp ↔
          (ShortestPaths g.graph i).2.getD j 0 = ((keys.length - 1 - p : Nat) : Int)) := by
    intro p grp hp j x hx
    obtain ⟨_, hgeq⟩ := hgrp p grp hp
    rw [hgeq, List.mem_filter, hmem j x hx, hkey j x hx]
    simp only [decide_eq_true_eq]
    constructor
    · exact fun h => h.2
    · intro h
      exact ⟨by omega, h⟩
  refine ⟨_, h2, ?_, ?_, ?_, ?_, ?_, ?_⟩
  · rw [h8, List.map_append, List.map_cons, List.map_nil, List.getLast?_concat, h9]
  · intro j x k hx hw
    have hj : j < g.graph.Order := by rw [hord]; exact (List.getElem?_eq_some.mp hx).1
    have hle := ShortestPaths_le g.graph hwf huc i hi j k hw
    have hdist := ShortestPaths_isDist g.graph hwf huc i hi j hj hle.1
    have hxd : some x ∈ down := (hmem j x hx).mpr hle.1
    have hk : (ShortestPaths g.graph i).2.getD j 0 ∈ keys :=
      (h5 _).mpr ⟨some x, hxd, hkey j x hx⟩
    obtain ⟨p, hp⟩ := List.getElem?_of_mem hk
    have hpl : p < keys.length := (List.getElem?_eq_some.mp hp).1
    have hval := hcount p _ hp
    have hpos : keys.length - 1 - ((ShortestPaths g.graph i).2.getD j 0).toNat = p := by
      omega
    refine ⟨((ShortestPaths g.graph i).2.getD j 0).toNat, by omega, hdist, ?_, ?_⟩
    · rw [hgl]; omega
    · rw [hgl, hpos]
      refine ⟨_, by rw [List.getElem?_map, hp]; rfl, ?_⟩
      exact List.mem_filter.mpr ⟨hxd, by simpa using hkey j x hx⟩
  · intro grp hgrpm
    obtain ⟨k, _, rfl⟩ := List.mem_map.mp hgrpm
    refine ⟨h3.filter _, ?_⟩
    intro o ho
    obtain ⟨j, x, hx, hox, _, _⟩ := h6 o (List.mem_filter.mp ho).1
    exact ⟨j, x, hx, hox⟩
  · intro p grp hp j x hx
    have hj : j < g.graph.Order := by rw [hord]; exact (List.getElem?_eq_some.mp hx).1
    rw [hin p grp hp j x hx, hgl, isDist_iff_dist g.graph hwf huc i hi j hj]
  · intro d hd
    rw [hgl] at hd
    have hp : keys.length - 1 - d < keys.length := by omega
    have hk : keys[keys.length - 1 - d]? = some (keys[keys.length - 1 - d]) :=
      List.getElem?_eq_getElem hp
    have hval := hcount _ _ hk
    obtain ⟨o, ho, hko⟩ := (h5 _).mp (List.getElem?_mem hk)
    obtain ⟨j, x, hx, hox, _, hkeyo⟩ := h6 o ho
    have hj : j < g.graph.Order := by rw [hord]; exact (List.getElem?_eq_some.mp hx).1
    refine ⟨j, x, hx, (isDist_iff_dist g.graph hwf huc i hi j hj d).mpr ?_⟩
    rw [← hkeyo, hko, hval]
    omega
  · intro p grp nxt hp hq j x hx hxin
    have hdj := (hin p grp hp j x hx).mp hxin
    obtain ⟨hql, _⟩ := hgrp (p + 1) nxt hq
    obtain ⟨u, y, hy, hdu, hdecl⟩ := hpred j x (keys.length - 1 - (p + 1)) hx (by omega)
    exact ⟨u, y, hy, (hin (p + 1) nxt hq u y hy).mpr hdu, hdecl⟩

/-- C19, witness: module `m` of `exStaged`. -/
theorem grouped_layers_witness :
    NewModuleGraph exStaged = Except.ok (assemble exStaged) ∧
    (exStaged.map Module.name).Nodup ∧
    ∃ groups : List (List (Option Module)),
      (assemble exStaged).GroupedModulesDownTo "m" = Except.ok groups ∧
      groups.getLast? = some [some ⟨"m", Kind.map, [Input.store "b", Input.store "x"]⟩] ∧
      (∀ (j : Nat) (x : Module) (k : Nat), exStaged[j]? = some x →
        Walk (assemble exStaged).graph 0 j k →
        ∃ d, d ≤ k ∧ IsDist (assemble exStaged).graph 0 j d ∧ d < groups.length ∧
          ∃ grp, groups[groups.length - 1 - d]? = some grp ∧ some x ∈ grp) ∧
      (∀ grp ∈ groups, grp.Nodup ∧
        ∀ o ∈ grp, ∃ (j : Nat) (x : Module), exStaged[j]? = some x ∧ o = some x) ∧
      (∀ (p : Nat) (grp : List (Option Module)), groups[p]? = some grp →
        ∀ (j : Nat) (x : Module), exStaged[j]? = some x →
          (some x ∈ grp ↔ IsDist (assemble exStaged).graph 0 j (groups.length - 1 - p))) ∧
      (∀ d, d < groups.length → ∃ (j : Nat) (x : Module), exStaged[j]? = some x ∧
        IsDist (assemble exStaged).graph 0 j d) ∧
      (∀ (p : Nat) (grp nxt : List (Option Module)),
        groups[p]? = some grp → groups[p + 1]? = some nxt →
        ∀ (j : Nat) (x : Module), exStaged[j]? = some x → some x ∈ grp →
          ∃ (u : Nat) (y : Module), exStaged[u]? = some y ∧ some y ∈ nxt ∧
            (Input.map x.name ∈ y.inputs ∨ Input.store x.name ∈ y.inputs)) :=
  ⟨rfl, by decide,
    grouped_layers exStaged (assemble exStaged) rfl (by decide) 0
      ⟨"m", Kind.map, [Input.store "b", Input.store "x"]⟩ rfl⟩

/-! ## `Worker.Run` -/

/-- Responses that are delivered leave the loop where it stands after them. -/
theorem recvLoop_delivered (parseRanges : String → List Range) (ctx : Context)
    (respFunc : ResponseFunc) (stream : Stream) (pre rest : List Response) (k : Nat)
    (calls : List Response) (h : deliveredFrom ctx respFunc pre k calls = true) :
    recvLoop parseRanges ctx respFunc stream (pre ++ rest) k calls
      = recvLoop parseRanges ctx respFunc stream rest (k + pre.length)
          (calls ++ pre.filter isProgress) := by
  induction pre generalizing k calls with
  | nil => simp
  | cons resp pre ih =>
    unfold deliveredFrom at h
    simp only [Bool.and_eq_true, Bool.not_eq_true'] at h
    obtain ⟨hd, hrest⟩ := h
    rw [List.cons_append, recvLoop]
    simp only [hd, Bool.false_eq_true, if_false]
    by_cases hp : isProgress resp = true
    · simp only [hp, if_true, Bool.and_eq_true, Option.isNone_iff_eq_none] at hrest ⊢
      rw [hrest.1]
      simp only
      rw [ih (k + 1) (calls ++ [resp]) hrest.2]
      simp only [List.length_cons, List.filter_cons, hp, if_true, List.append_assoc,
        List.singleton_append]
      congr 1
      omega
    · simp only [hp, Bool.false_eq_true, if_false] at hrest ⊢
      rw [ih (k + 1) calls hrest]
      simp only [List.length_cons, List.filter_cons, hp, Bool.false_eq_true, if_false]
      congr 1
      omega

/-- What the loop has done when it ends, whatever the stream, the context and the
callback. -/
theorem recvLoop_trace (parseRanges : String → List Range) (ctx : Context)
    (respFunc : ResponseFunc) (stream : Stream) (events : List Response) (k : Nat)
    (calls : List Response) :
    (recvLoop parseRanges ctx respFunc stream events k calls).calls
      = calls ++ (events.take
          ((recvLoop parseRanges ctx respFunc stream events k calls).receives - k)).filter
            isProgress ∧
    k ≤ (recvLoop parseRanges ctx respFunc stream events k calls).receives ∧
    (recvLoop parseRanges ctx respFunc stream events k calls).receives ≤ k + events.length + 1 ∧
    (recvLoop parseRanges ctx respFunc stream events k calls).receives
      ≤ (recvLoop parseRanges ctx respFunc stream events k calls).checks ∧
    (recvLoop parseRanges ctx respFunc stream events k calls).checks
      ≤ (recvLoop parseRanges ctx respFunc stream events k calls).receives + 1 ∧
    k + 1 ≤ (recvLoop parseRanges ctx respFunc stream events k calls).checks ∧
    (∀ (n : Nat) (resp : Response), events[n]? = some resp →
      k + n < (recvLoop parseRanges ctx respFunc stream events k calls).receives →
      isProgress resp = false →
      k + n + 2 ≤ (recvLoop parseRanges ctx respFunc stream events k calls).checks) ∧
    ((recvLoop parseRanges ctx respFunc stream events k calls).err ≠ none →
      (recvLoop parseRanges ctx respFunc stream events k calls).ranges = []) := by
  induction events generalizing k calls with
  | nil =>
    rw [recvLoop]
    by_cases hd : ctx.done k = true
    · simp [hd]
    · by_cases hf : stream.final = GoError.eof
      · simp [hd, hf]
      · simp [hd, hf]
  | cons resp rest ih =>
    rw [recvLoop]
    by_cases hd : ctx.done k = true
    · simp [hd]; omega
    · simp only [hd, Bool.false_eq_true, if_false]
      by_cases hp : isProgress resp = true
      · simp only [hp, if_true]
        cases hcb : respFunc calls resp with
        | some e =>
          simp only
          refine ⟨by simp [hp], by omega, by simp, by omega, by omega, by omega, ?_, by simp⟩
          intro n r hn hlt hnp
          have hn0 : n = 0 := by omega
          subst hn0
          simp only [List.getElem?_cons_zero, Option.some.injEq] at hn
          subst hn
          rw [hp] at hnp
          exact absurd hnp (by simp)
        | none =>
          simp only
          obtain ⟨h1, h2, h3, h4, h5, h5', h6, h7⟩ := ih (k + 1) (calls ++ [resp])
          refine ⟨?_, by omega, by simp only [List.length_cons]; omega, h4, h5, by omega, ?_, h7⟩
          · rw [h1]
            have : (recvLoop parseRanges ctx respFunc stream rest (k + 1) (calls ++ [resp])).receives
                - k = ((recvLoop parseRanges ctx respFunc stream rest (k + 1)
                  (calls ++ [resp])).receives - (k + 1)) + 1 := by omega
            rw [this, List.take_succ_cons, List.filter_cons, if_pos hp]
            simp
          · intro n r hn hlt hnp
            cases n with
            | zero =>
              simp only [List.getElem?_cons_zero, Option.some.injEq] at hn
              subst hn
              rw [hp] at hnp
              exact absurd hnp (by simp)
            | succ n =>
              have := h6 n r (by simpa using hn) (by omega) hnp
              omega
      · simp only [hp, Bool.false_eq_true, if_false]
        obtain ⟨h1, h2, h3, h4, h5, h5', h6, h7⟩ := ih (k + 1) calls
        refine ⟨?_, by omega, by simp only [List.length_cons]; omega, h4, h5, by omega, ?_, h7⟩
        · rw [h1]
          have : (recvLoop parseRanges ctx respFunc stream rest (k + 1) calls).receives
              - k = ((recvLoop parseRanges ctx respFunc stream rest (k + 1) calls).receives
                - (k + 1)) + 1 := by omega
          rw [this, List.take_succ_cons, List.filter_cons, if_neg hp]
        · intro n r hn hlt hnp
          cases n with
          | zero => omega
          | succ n =>
            have := h6 n r (by simpa using hn) (by omega) hnp
            omega

/-- What `Worker.Run` does once the stream is open. -/
theorem Run_opened (parseRanges : String → List Range) (w : Worker) (ctx : Context)
    (job : Job) (respFunc : ResponseFunc) (client : StreamClient) (stream : Stream)
    (hf : w.grpcClientFactory () = Except.ok client)
    (hb : client.blocks (job.createRequest w.originalRequestModules) = Except.ok stream) :
    w.Run parseRanges ctx job respFunc
      = recvLoop parseRanges ctx respFunc stream stream.events 0 [] := by
  unfold Worker.Run
  rw [hf]
  simp only
  rw [hb]

/-- C12: when the client is obtained, the stream opens and delivers all its responses
without cancellation and without callback error, and then ends with `io.EOF` at a moment
when the context is not cancelled, `Worker.Run` returns no error and the ranges parsed from
the first value of the trailer `substreams-partials-written`, which is the empty list when
the trailer is absent. -/
theorem Run_clean_end (parseRanges : String → List Range) (w : Worker) (ctx : Context)
    (job : Job) (respFunc : ResponseFunc) (client : StreamClient) (stream : Stream)
    (hf : w.grpcClientFactory () = Except.ok client)
    (hb : client.blocks (job.createRequest w.originalRequestModules) = Except.ok stream)
    (hdel : deliveredFrom ctx respFunc stream.events 0 [] = true)
    (hlast : ctx.done stream.events.length = false)
    (hfin : stream.final = GoError.eof) :
    (w.Run parseRanges ctx job respFunc).err = none ∧
    (w.Run parseRanges ctx job respFunc).ranges = writtenRanges parseRanges stream.trailer ∧
    (stream.trailer = [] → (w.Run parseRanges ctx job respFunc).ranges = []) ∧
    (∀ first rest, stream.trailer = first :: rest →
      (w.Run parseRanges ctx job respFunc).ranges = parseRanges first) ∧
    (w.Run parseRanges ctx job respFunc).receives = stream.events.length + 1 ∧
    (w.Run parseRanges ctx job respFunc).calls = stream.events.filter isProgress := by
  rw [Run_opened parseRanges w ctx job respFunc client stream hf hb]
  have h := recvLoop_delivered parseRanges ctx respFunc stream stream.events [] 0 [] hdel
  simp only [List.append_nil, Nat.zero_add, List.nil_append] at h
  rw [h, recvLoop]
  simp only [hlast, Bool.false_eq_true, if_false, hfin, if_true]
  refine ⟨trivial, trivial, ?_, ?_, trivial, trivial⟩
  · intro ht; rw [ht]; rfl
  · intro first rest ht; rw [ht]; rfl

/-- C12, witness: the stream `exStream` ends with the trailer `[200,300)`. -/
theorem Run_clean_end_witness :
    (exStream.final = GoError.eof) ∧
    ((workerOf exStream).Run exParseRanges exContext exJob (fun _ _ => none)).err = none ∧
    ((workerOf exStream).Run exParseRanges exContext exJob (fun _ _ => none)).ranges
      = [⟨200, 300⟩] :=
  ⟨rfl,
    (Run_clean_end exParseRanges (workerOf exStream) exContext exJob (fun _ _ => none)
      { blocks := fun _ => Except.ok exStream } exStream rfl rfl rfl rfl rfl).1,
    (Run_clean_end exParseRanges (workerOf exStream) exContext exJob (fun _ _ => none)
      { blocks := fun _ => Except.ok exStream } exStream rfl rfl rfl rfl rfl).2.1⟩

/-- C13: once the stream is open, the responses `Worker.Run` passes to the callback are the
progress events among the responses it received, unchanged and in order of arrival; no
other response is passed, and after a response that is not a progress event the loop comes
back to look at the context, so such a response does not end the run. -/
theorem Run_callback_calls (parseRanges : String → List Range) (w : Worker) (ctx : Context)
    (job : Job) (respFunc : ResponseFunc) (client : StreamClient) (stream : Stream)
    (hf : w.grpcClientFactory () = Except.ok client)
    (hb : client.blocks (job.createRequest w.originalRequestModules) = Except.ok stream) :
    (w.Run parseRanges ctx job respFunc).calls
      = (stream.events.take (w.Run parseRanges ctx job respFunc).receives).filter isProgress ∧
    (∀ resp ∈ (w.Run parseRanges ctx job respFunc).calls, isProgress resp = true) ∧
    (∀ (n : Nat) (resp : Response), stream.events[n]? = some resp →
      n < (w.Run parseRanges ctx job respFunc).receives → isProgress resp = false →
      n + 2 ≤ (w.Run parseRanges ctx job respFunc).checks) := by
  rw [Run_opened parseRanges w ctx job respFunc client stream hf hb]
  obtain ⟨h1, _, _, _, _, _, h6, _⟩ :=
    recvLoop_trace parseRanges ctx respFunc stream stream.events 0 []
  simp only [List.nil_append, Nat.sub_zero, Nat.zero_add] at h1 h6
  refine ⟨h1, ?_, h6⟩
  intro resp hr
  rw [h1] at hr
  exact (List.mem_filter.mp hr).2

/-- C13, witness: of the responses of `exStream`, the two progress events reach the
callback. -/
theorem Run_callback_calls_witness :
    ((workerOf exStream).Run exParseRanges exContext exJob (fun _ _ => none)).calls
      = [Response.progress "p1", Response.progress "p2"] ∧
    ((workerOf exStream).Run exParseRanges exContext exJob (fun _ _ => none)).calls
      = (exStream.events.take
          ((workerOf exStream).Run exParseRanges exContext exJob
            (fun _ _ => none)).receives).filter isProgress :=
  ⟨rfl,
    (Run_callback_calls exParseRanges (workerOf exStream) exContext exJob (fun _ _ => none)
      { blocks := fun _ => Except.ok exStream } exStream rfl rfl).1⟩

/-- C14: when the responses `pre` have been received and the context is cancelled as the loop
is about to receive again, `Worker.Run` returns the error of the context and no ranges,
having received `pre` only and having called the callback for the progress events of `pre`
only, whatever the responses `rest`, the end and the trailer of the stream. In every run
each call of `Recv` comes after a look at the context of its own. -/
theorem Run_cancelled (parseRanges : String → List Range) (w : Worker) (ctx : Context)
    (job : Job) (respFunc : ResponseFunc) (client : StreamClient) (stream : Stream)
    (pre rest : List Response)
    (hf : w.grpcClientFactory () = Except.ok client)
    (hb : client.blocks (job.createRequest w.originalRequestModules) = Except.ok stream)
    (hev : stream.events = pre ++ rest)
    (hdel : deliveredFrom ctx respFunc pre 0 [] = true)
    (hc : ctx.done pre.length = true) :
    w.Run parseRanges ctx job respFunc =
      { ranges := [], err := some ctx.err, blocksCalled := true
        checks := pre.length + 1, receives := pre.length
        calls := pre.filter isProgress } ∧
    ∀ (ctx' : Context) (respFunc' : ResponseFunc),
      (w.Run parseRanges ctx' job respFunc').receives
        ≤ (w.Run parseRanges ctx' job respFunc').checks := by
  constructor
  · rw [Run_opened parseRanges w ctx job respFunc client stream hf hb, hev]
    have h := recvLoop_delivered parseRanges ctx respFunc stream pre rest 0 [] hdel
    simp only [Nat.zero_add, List.nil_append] at h
    rw [h, recvLoop.eq_def]
    simp only [hc, if_true]
  · intro ctx' respFunc'
    rw [Run_opened parseRanges w ctx' job respFunc' client stream hf hb]
    exact (recvLoop_trace parseRanges ctx' respFunc' stream stream.events 0 []).2.2.2.1

/-- C14, witness: the context `exCancelled` is cancelled when two responses of `exStream`
have been received. -/
theorem Run_cancelled_witness :
    (exStream.events = [Response.progress "p1", Response.data "d1"] ++ [Response.progress "p2"]) ∧
    (workerOf exStream).Run exParseRanges exCancelled exJob (fun _ _ => none) =
      { ranges := [], err := some (GoError.other "context canceled"), blocksCalled := true
        checks := 3, receives := 2, calls := [Response.progress "p1"] } :=
  ⟨rfl,
    (Run_cancelled exParseRanges (workerOf exStream) exCancelled exJob (fun _ _ => none)
      { blocks := fun _ => Except.ok exStream } exStream
      [Response.progress "p1", Response.data "d1"] [Response.progress "p2"]
      rfl rfl rfl rfl rfl).1⟩

/-- C15: `Worker.Run` returns ranges only with a nil error. When the client factory fails it
returns the error wrapped and calls neither `Blocks` nor `Recv`; when `Blocks` fails it
returns the error wrapped without calling `Recv`; when `Recv` fails with an error other than
`io.EOF`, or the callback returns an error for a progress event, it returns the error
wrapped and stops there; in all these cases it returns no ranges. -/
theorem Run_failures (parseRanges : String → List Range) (w : Worker) (ctx : Context)
    (job : Job) (respFunc : ResponseFunc) :
    ((w.Run parseRanges ctx job respFunc).err ≠ none →
      (w.Run parseRanges ctx job respFunc).ranges = []) ∧
    (∀ e, w.grpcClientFactory () = Except.error e →
      w.Run parseRanges ctx job respFunc =
        { ranges := [], err := some (GoError.wrap "grpc client factory" e)
          blocksCalled := false, checks := 0, receives := 0, calls := [] }) ∧
    (∀ client e, w.grpcClientFactory () = Except.ok client →
      client.blocks (job.createRequest w.originalRequestModules) = Except.error e →
      w.Run parseRanges ctx job respFunc =
        { ranges := [], err := some (GoError.wrap "getting block stream" e)
          blocksCalled := true, checks := 0, receives := 0, calls := [] }) ∧
    (∀ client stream, w.grpcClientFactory () = Except.ok client →
      client.blocks (job.createRequest w.originalRequestModules) = Except.ok stream →
      deliveredFrom ctx respFunc stream.events 0 [] = true →
      ctx.done stream.events.length = false → stream.final ≠ GoError.eof →
      w.Run parseRanges ctx job respFunc =
        { ranges := [], err := some (GoError.wrap "receiving stream resp" stream.final)
          blocksCalled := true, checks := stream.events.length + 1
          receives := stream.events.length + 1
          calls := stream.events.filter isProgress }) ∧
    (∀ client stream pre resp rest e, w.grpcClientFactory () = Except.ok client →
      client.blocks (job.createRequest w.originalRequestModules) = Except.ok stream →
      stream.events = pre ++ resp :: rest →
      deliveredFrom ctx respFunc pre 0 [] = true →
      ctx.done pre.length = false → isProgress resp = true →
      respFunc (pre.filter isProgress) resp = some e →
      w.Run parseRanges ctx job respFunc =
        { ranges := [], err := some (GoError.wrap "sending progress" e)
          blocksCalled := true, checks := pre.length + 1, receives := pre.length + 1
          calls := pre.filter isProgress ++ [resp] }) := by
  refine ⟨?_, ?_, ?_, ?_, ?_⟩
  · unfold Worker.Run
    cases hf : w.grpcClientFactory () with
    | error e => intro _; rfl
    | ok client =>
      simp only
      cases hb : client.blocks (job.createRequest w.originalRequestModules) with
      | error e => intro _; rfl
      | ok stream =>
        exact (recvLoop_trace parseRanges ctx respFunc stream stream.events 0 []).2.2.2.2.2.2.2
  · intro e hf
    unfold Worker.Run
    rw [hf]
  · intro client e hf hb
    unfold Worker.Run
    rw [hf]
    simp only
    rw [hb]
  · intro client stream hf hb hdel hlast hfin
    rw [Run_opened parseRanges w ctx job respFunc client stream hf hb]
    have h := recvLoop_delivered parseRanges ctx respFunc stream stream.events [] 0 [] hdel
    simp only [List.append_nil, Nat.zero_add, List.nil_append] at h
    rw [h, recvLoop]
    simp only [hlast, Bool.false_eq_true, if_false, hfin]
  · intro client stream pre resp rest e hf hb hev hdel hlast hp hcb
    rw [Run_opened parseRanges w ctx job respFunc client stream hf hb, hev]
    have h := recvLoop_delivered parseRanges ctx respFunc stream pre (resp :: rest) 0 [] hdel
    simp only [Nat.zero_add, List.nil_append] at h
    rw [h, recvLoop]
    simp only [hlast, Bool.false_eq_true, if_false, hp, if_true, hcb]

/-- C15, witness: the callback fails on the second progress event of `exStream`. -/
theorem Run_failures_witness :
    (workerOf exStream).Run exParseRanges exContext exJob
        (fun calls _ => if calls = [] then none else some (GoError.other "full")) =
      { ranges := [], err := some (GoError.wrap "sending progress" (GoError.other "full"))
        blocksCalled := true, checks := 3, receives := 3
        calls := [Response.progress "p1", Response.progress "p2"] } :=
  (Run_failures exParseRanges (workerOf exStream) exContext exJob
      (fun calls _ => if calls = [] then none else some (GoError.other "full"))).2.2.2.2
    { blocks := fun _ => Except.ok exStream } exStream
    [Response.progress "p1", Response.data "d1"] (Response.progress "p2") []
    (GoError.other "full") rfl rfl rfl rfl rfl rfl rfl

/-! ## The worker pool -/

theorem fillWorkers_spec (modules : Modules) (factory : Unit → Except GoError StreamClient)
    (n i : Nat) (ch : Chan WorkerRef) (hroom : ch.buf.length + n ≤ ch.cap) :
    ∃ ch', fillWorkers modules factory n i ch = some ch' ∧ ch'.cap = ch.cap ∧
      ch'.buf = ch.buf ++ (List.range' i n).map (fun a =>
        ({ addr := a, target := { originalRequestModules := modules
                                  grpcClientFactory := factory } } : WorkerRef)) := by
  induction n generalizing i ch with
  | zero => exact ⟨ch, rfl, rfl, by simp⟩
  | succ n ih =>
    unfold fillWorkers
    have hsend : ch.send { addr := i, target := { originalRequestModules := modules
                                                  grpcClientFactory := factory } }
        = some { ch with buf := ch.buf ++ [{ addr := i, target :=
            { originalRequestModules := modules, grpcClientFactory := factory } }] } := by
      unfold Chan.send
      rw [if_pos (by omega)]
    rw [hsend]
    simp only
    obtain ⟨ch', h1, h2, h3⟩ := ih (i + 1)
      { ch with buf := ch.buf ++ [{ addr := i, target :=
          { originalRequestModules := modules, grpcClientFactory := factory } }] }
      (by simp only [List.length_append, List.length_singleton]; omega)
    refine ⟨ch', h1, h2, ?_⟩
    rw [h3]
    simp [List.range'_succ]

/-- What `NewWorkerPool` returns for a count `n` that is not negative. -/
theorem NewWorkerPool_spec (n : Nat) (modules : Modules)
    (factory : Unit → Except GoError StreamClient) :
    ∃ p, NewWorkerPool (n : Int) modules factory = some p ∧ p.workers.cap = n ∧
      p.workers.buf = (List.range n).map (fun a =>
        ({ addr := a, target := { originalRequestModules := modules
                                  grpcClientFactory := factory } } : WorkerRef)) := by
  unfold NewWorkerPool Chan.make
  rw [if_neg (by omega)]
  simp only [Int.toNat_ofNat]
  obtain ⟨ch', h1, h2, h3⟩ := fillWorkers_spec modules factory n 0 { buf := [], cap := n }
    (by simp)
  rw [h1]
  refine ⟨_, rfl, h2, ?_⟩
  rw [h3]
  simp [List.range_eq_range']

/-- The invariant of the pool: the workers in the channel and the workers lent out are `n`
together, and the channel has room for `n`. -/
theorem step_inv (n : Nat) (st st' : PoolState) (op : PoolOp)
    (hvalid : ∀ w, op = PoolOp.giveBack w → w.addr ∈ st.lent)
    (hinv : st.pool.workers.cap = n ∧ st.pool.workers.buf.length + st.lent.length = n)
    (hstep : st.step op = some st') :
    st'.pool.workers.cap = n ∧ st'.pool.workers.buf.length + st'.lent.length = n := by
  cases op with
  | borrow =>
    unfold PoolState.step WorkerPool.Borrow Chan.recv at hstep
    cases hb : st.pool.workers.buf with
    | nil => simp [hb] at hstep
    | cons x rest =>
      simp only [hb, Option.some.injEq] at hstep
      subst hstep
      rw [hb] at hinv
      simp only [List.length_cons] at hinv ⊢
      exact ⟨hinv.1, by omega⟩
  | giveBack w =>
    have hw := hvalid w rfl
    unfold PoolState.step WorkerPool.ReturnWorker Chan.send at hstep
    by_cases hroom : st.pool.workers.buf.length < st.pool.workers.cap
    · simp only [hroom, if_true, Option.some.injEq] at hstep
      subst hstep
      have hlen := List.length_erase_of_mem hw
      have hpos : 0 < st.lent.length := List.length_pos_of_mem hw
      simp only [List.length_append, List.length_singleton]
      exact ⟨hinv.1, by omega⟩
    · simp [hroom] at hstep

theorem runOps_inv (n : Nat) (ops : List PoolOp) (st st' : PoolState)
    (hvalid : validOps ops st = true)
    (hinv : st.pool.workers.cap = n ∧ st.pool.workers.buf.length + st.lent.length = n)
    (hrun : runOps ops st = some st') :
    st'.pool.workers.cap = n ∧ st'.pool.workers.buf.length + st'.lent.length = n := by
  induction ops generalizing st with
  | nil =>
    simp only [runOps, Option.some.injEq] at hrun
    subst hrun
    exact hinv
  | cons op ops ih =>
    unfold runOps at hrun
    unfold validOps at hvalid
    cases hs : st.step op with
    | none => simp [hs] at hrun
    | some mid =>
      simp only [hs] at hrun hvalid
      simp only [Bool.and_eq_true] at hvalid
      refine ih mid hvalid.2 (step_inv n st mid op ?_ hinv hs) hrun
      intro w hop
      subst hop
      simpa using hvalid.1

/-- In a state that satisfies the invariant, `Borrow` waits exactly when `n` workers are lent
out, and the return of a worker that is lent out completes and lets a `Borrow` complete. -/
theorem pool_blocking (n : Nat) (st : PoolState)
    (hinv : st.pool.workers.cap = n ∧ st.pool.workers.buf.length + st.lent.length = n) :
    (st.pool.Borrow = none ↔ st.lent.length = n) ∧
    ∀ w : WorkerRef, w.addr ∈ st.lent →
      ∃ p, st.pool.ReturnWorker w = some p ∧ p.Borrow ≠ none := by
  constructor
  · unfold WorkerPool.Borrow Chan.recv
    cases hb : st.pool.workers.buf with
    | nil =>
      rw [hb] at hinv
      simp only [List.length_nil, Nat.zero_add] at hinv
      simp [hinv.2]
    | cons x rest =>
      rw [hb] at hinv
      simp only [List.length_cons] at hinv
      have hne : st.lent.length ≠ n := by omega
      simp [hne]
  · intro w hw
    have hpos : 0 < st.lent.length := List.length_pos_of_mem hw
    unfold WorkerPool.ReturnWorker Chan.send
    rw [if_pos (by omega)]
    refine ⟨_, rfl, ?_⟩
    unfold WorkerPool.Borrow Chan.recv
    cases hb : st.pool.workers.buf with
    | nil => simp
    | cons x rest => simp

theorem borrow_all (k : Nat) (st : PoolState) (hk : k ≤ st.pool.workers.buf.length) :
    ∃ st', runOps (List.replicate k PoolOp.borrow) st = some st' ∧
      validOps (List.replicate k PoolOp.borrow) st = true ∧
      st'.lent.length = st.lent.length + k ∧
      st'.pool.workers.buf.length + k = st.pool.workers.buf.length := by
  induction k generalizing st with
  | zero => exact ⟨st, rfl, rfl, rfl, rfl⟩
  | succ k ih =>
    cases hb : st.pool.workers.buf with
    | nil => rw [hb] at hk; simp at hk
    | cons x rest =>
      have hstep : st.step PoolOp.borrow
          = some { pool := { workers := { st.pool.workers with buf := rest } }
                   lent := x.addr :: st.lent } := by
        unfold PoolState.step WorkerPool.Borrow Chan.recv
        simp [hb]
      obtain ⟨st', h1, h2, h3, h4⟩ := ih
        { pool := { workers := { st.pool.workers with buf := rest } }
          lent := x.addr :: st.lent }
        (by rw [hb] at hk; simp only [List.length_cons] at hk ⊢; omega)
      dsimp only at h3 h4
      simp only [List.length_cons] at h3
      refine ⟨st', ?_, ?_, ?_, ?_⟩
      · rw [List.replicate_succ, runOps, hstep]
        exact h1
      · rw [List.replicate_succ, validOps, hstep]
        simp [h2]
      · omega
      · simp only [List.length_cons]; omega

/-- C16: for a count `n`, `NewWorkerPool` returns a pool whose channel holds `n` workers,
each carrying the module set and the factory given. Over every sequence of completed calls
of `Borrow` and `ReturnWorker` in which each return gives back a worker that is lent out, the
workers in the channel and the workers lent out are `n` together, so at most `n` are lent
out; `Borrow` cannot complete exactly when `n` workers are lent out, which is the case after
`n` calls of `Borrow`, and it can complete again after the return of a worker lent out,
which always completes. -/
theorem pool_capacity (n : Nat) (modules : Modules)
    (factory : Unit → Except GoError StreamClient) :
    ∃ p, NewWorkerPool (n : Int) modules factory = some p ∧
      p.workers.buf.length = n ∧
      (∀ w ∈ p.workers.buf,
        w.target.originalRequestModules = modules ∧ w.target.grpcClientFactory = factory) ∧
      (p.workers.buf.map WorkerRef.addr).Nodup ∧
      (∀ (ops : List PoolOp) (st : PoolState),
        validOps ops { pool := p, lent := [] } = true →
        runOps ops { pool := p, lent := [] } = some st →
        st.pool.workers.buf.length + st.lent.length = n ∧ st.lent.length ≤ n ∧
        (st.pool.Borrow = none ↔ st.lent.length = n) ∧
        ∀ w : WorkerRef, w.addr ∈ st.lent →
          ∃ p', st.pool.ReturnWorker w = some p' ∧ p'.Borrow ≠ none) ∧
      ∃ st, runOps (List.replicate n PoolOp.borrow) { pool := p, lent := [] } = some st ∧
        st.lent.length = n ∧ st.pool.Borrow = none := by
  obtain ⟨p, h1, h2, h3⟩ := NewWorkerPool_spec n modules factory
  have hlen : p.workers.buf.length = n := by rw [h3]; simp
  have hinit : ({ pool := p, lent := [] } : PoolState).pool.workers.cap = n ∧
      ({ pool := p, lent := [] } : PoolState).pool.workers.buf.length
        + ({ pool := p, lent := [] } : PoolState).lent.length = n := ⟨h2, by simpa using hlen⟩
  refine ⟨p, h1, hlen, ?_, ?_, ?_, ?_⟩
  · intro w hw
    rw [h3] at hw
    obtain ⟨a, _, rfl⟩ := List.mem_map.mp hw
    exact ⟨rfl, rfl⟩
  · rw [h3, List.map_map]
    have : (WorkerRef.addr ∘ fun a =>
        ({ addr := a, target := { originalRequestModules := modules
                                  grpcClientFactory := factory } } : WorkerRef)) = id := rfl
    rw [this, List.map_id]
    exact List.nodup_range n
  · intro ops st hvalid hrun
    have hinv := runOps_inv n ops _ st hvalid hinit hrun
    obtain ⟨hb, hr⟩ := pool_blocking n st hinv
    exact ⟨hinv.2, by omega, hb, hr⟩
  · obtain ⟨st, r1, r2, r3, r4⟩ := borrow_all n { pool := p, lent := [] } (by simp [hlen])
    have hinv := runOps_inv n _ _ st r2 hinit r1
    refine ⟨st, r1, by simpa using r3, ?_⟩
    exact (pool_blocking n st hinv).1.mpr (by simpa using r3)

/-- C16, witness: a pool of two workers. -/
theorem pool_capacity_witness :
    ∃ p, NewWorkerPool 2 { modules := [] } exFactory = some p ∧
      p.workers.buf.length = 2 ∧
      (∀ w ∈ p.workers.buf,
        w.target.originalRequestModules = { modules := [] } ∧
          w.target.grpcClientFactory = exFactory) ∧
      (p.workers.buf.map WorkerRef.addr).Nodup ∧
      (∀ (ops : List PoolOp) (st : PoolState),
        validOps ops { pool := p, lent := [] } = true →
        runOps ops { pool := p, lent := [] } = some st →
        st.pool.workers.buf.length + st.lent.length = 2 ∧ st.lent.length ≤ 2 ∧
        (st.pool.Borrow = none ↔ st.lent.length = 2) ∧
        ∀ w : WorkerRef, w.addr ∈ st.lent →
          ∃ p', st.pool.ReturnWorker w = some p' ∧ p'.Borrow ≠ none) ∧
      ∃ st, runOps (List.replicate 2 PoolOp.borrow) { pool := p, lent := [] } = some st ∧
        st.lent.length = 2 ∧ st.pool.Borrow = none :=
  pool_capacity 2 { modules := [] } exFactory

/-! ## `FetchStorageState` -/

theorem initFetch_inv (list : Store → Except GoError Snapshots)
    (stores : List (String × Store)) : FInv list stores (initFetch stores) := by
  refine ⟨?_, ?_, ?_, ?_, ?_, ?_⟩
  · intro e h; simp [initFetch] at h
  · intro s h; simp [initFetch] at h
  · intro s h; simp [initFetch] at h
  · intro s h; simp [initFetch] at h
  · intro p h; exact h
  · intro s h; simp [initFetch] at h

theorem step_inv_fetch (list : Store → Except GoError Snapshots)
    (stores : List (String × Store)) (st st' : FetchState) (a : FetchStep)
    (h : FInv list stores st) (hs : st.step list a = some st') : FInv list stores st' := by
  cases a with
  | advance =>
    unfold FetchState.step at hs
    cases hat : st.atStop with
    | some s => simp [hat] at hs
    | none =>
      cases hp : st.pending with
      | nil => simp [hat, hp] at hs
      | cons p rest =>
        obtain ⟨name, store⟩ := p
        simp only [hat, hp, Option.some.injEq] at hs
        subst hs
        refine ⟨h.recorded, h.failing, h.startedSub, ?_, ?_, h.flying⟩
        · intro s hs'
          simp only [Option.some.injEq] at hs'
          subst hs'
          exact ⟨name, h.pendingSub _ (by rw [hp]; exact List.mem_cons_self _ _)⟩
        · intro q hq
          exact h.pendingSub q (by rw [hp]; exact List.mem_cons_of_mem _ hq)
  | dispatch =>
    unfold FetchState.step at hs
    cases hat : st.atStop with
    | none => simp [hat] at hs
    | some store =>
      simp only [hat] at hs
      by_cases he : st.firstErr.isSome = true
      · simp only [he, if_true, Option.some.injEq] at hs
        subst hs
        exact ⟨h.recorded, h.failing, h.startedSub, by intro s hc; simp at hc, h.pendingSub,
          h.flying⟩
      · simp only [he, Bool.false_eq_true, if_false] at hs
        by_cases hroom : st.inflight.length < 10
        · simp only [hroom, if_true, Option.some.injEq] at hs
          subst hs
          refine ⟨?_, ?_, ?_, by intro s hc; simp at hc, h.pendingSub, ?_⟩
          · intro e hfe
            obtain ⟨s, hsm, hl⟩ := h.recorded e hfe
            exact ⟨s, List.mem_append_left _ hsm, hl⟩
          · intro s hsm e hl
            rcases List.mem_append.mp hsm with h1 | h1
            · rcases h.failing s h1 e hl with h2 | h2
              · exact Or.inl (List.mem_append_left _ h2)
              · exact Or.inr h2
            · exact Or.inl (List.mem_append_right _ h1)
          · intro s hsm
            rcases List.mem_append.mp hsm with h1 | h1
            · exact h.startedSub s h1
            · rw [List.mem_singleton] at h1
              subst h1
              exact h.stopSub s hat
          · intro s hsm
            rcases List.mem_append.mp hsm with h1 | h1
            · exact List.mem_append_left _ (h.flying s h1)
            · exact List.mem_append_right _ h1
        · simp [hroom] at hs
  | finish i =>
    unfold FetchState.step at hs
    cases hi : st.inflight[i]? with
    | none => simp [hi] at hs
    | some s =>
      simp only [hi] at hs
      have hfly : ∀ x ∈ st.inflight.eraseIdx i, x ∈ st.started :=
        fun x hx => h.flying x (List.mem_of_mem_eraseIdx hx)
      cases hl : list s with
      | error err =>
        simp only [hl, Option.some.injEq] at hs
        subst hs
        refine ⟨?_, ?_, h.startedSub, h.stopSub, h.pendingSub, hfly⟩
        · intro e hfe
          cases hf : st.firstErr with
          | some first =>
            simp only [hf, Option.some.injEq] at hfe
            subst hfe
            exact h.recorded first hf
          | none =>
            simp only [hf, Option.some.injEq] at hfe
            subst hfe
            exact ⟨s, h.flying s (List.getElem?_mem hi), hl⟩
        · intro x _ e _
          right
          cases hf : st.firstErr <;> simp
      | ok snapshots =>
        simp only [hl, Option.some.injEq] at hs
        subst hs
        refine ⟨h.recorded, ?_, h.startedSub, h.stopSub, h.pendingSub, hfly⟩
        intro x hx e hle
        rcases h.failing x hx e hle with h1 | h1
        · left
          obtain ⟨k, hk⟩ := List.getElem?_of_mem h1
          rw [List.mem_eraseIdx_iff_getElem?]
          refine ⟨k, ?_, hk⟩
          intro hki
          subst hki
          rw [hi] at hk
          have := Option.some.inj hk
          subst this
          rw [hl] at hle
          exact absurd hle (by simp)
        · exact Or.inr h1

theorem runSchedule_inv (list : Store → Except GoError Snapshots)
    (stores : List (String × Store)) (sched : List FetchStep) (st st' : FetchState)
    (h : FInv list stores st) (hr : runSchedule list sched st = some st') :
    FInv list stores st' := by
  induction sched generalizing st with
  | nil =>
    simp only [runSchedule, Option.some.injEq] at hr
    subst hr
    exact h
  | cons a sched ih =>
    unfold runSchedule at hr
    cases hs : st.step list a with
    | none => simp [hs] at hr
    | some mid =>
      simp only [hs] at hr
      exact ih mid (step_inv_fetch list stores st mid a h hs) hr

theorem runSchedule_append (list : Store → Except GoError Snapshots)
    (s1 s2 : List FetchStep) (st : FetchState) :
    runSchedule list (s1 ++ s2) st
      = match runSchedule list s1 st with
        | none => none
        | some mid => runSchedule list s2 mid := by
  induction s1 generalizing st with
  | nil => rfl
  | cons a s1 ih =>
    simp only [List.cons_append, runSchedule]
    cases st.step list a with
    | none => rfl
    | some mid => exact ih mid

/-- Once an error is recorded, no step starts a listing and the error stays. -/
theorem step_after_error (list : Store → Except GoError Snapshots) (st st' : FetchState)
    (a : FetchStep) (he : st.firstErr ≠ none) (hs : st.step list a = some st') :
    st'.firstErr = st.firstErr ∧ st'.started = st.started := by
  obtain ⟨first, hf⟩ : ∃ first, st.firstErr = some first := by
    cases hc : st.firstErr with
    | none => exact absurd hc he
    | some first => exact ⟨first, rfl⟩
  cases a with
  | advance =>
    unfold FetchState.step at hs
    cases hat : st.atStop with
    | some s => simp [hat] at hs
    | none =>
      cases hp : st.pending with
      | nil => simp [hat, hp] at hs
      | cons p rest =>
        simp only [hat, hp, Option.some.injEq] at hs
        subst hs
        exact ⟨rfl, rfl⟩
  | dispatch =>
    unfold FetchState.step at hs
    cases hat : st.atStop with
    | none => simp [hat] at hs
    | some store =>
      simp only [hat, hf, Option.isSome_some, if_true, Option.some.injEq] at hs
      subst hs
      exact ⟨hf.symm ▸ rfl, rfl⟩
  | finish i =>
    unfold FetchState.step at hs
    cases hi : st.inflight[i]? with
    | none => simp [hi] at hs
    | some s =>
      simp only [hi, hf] at hs
      cases hl : list s with
      | error err =>
        simp only [hl, Option.some.injEq] at hs
        subst hs
        exact ⟨hf.symm, rfl⟩
      | ok snapshots =>
        simp only [hl, Option.some.injEq] at hs
        subst hs
        exact ⟨hf.symm ▸ rfl, rfl⟩

theorem runSchedule_after_error (list : Store → Except GoError Snapshots)
    (sched : List FetchStep) (st st' : FetchState) (he : st.firstErr ≠ none)
    (hr : runSchedule list sched st = some st') :
    st'.firstErr = st.firstErr ∧ st'.started = st.started := by
  induction sched generalizing st with
  | nil =>
    simp only [runSchedule, Option.some.injEq] at hr
    subst hr
    exact ⟨rfl, rfl⟩
  | cons a sched ih =>
    unfold runSchedule at hr
    cases hs : st.step list a with
    | none => simp [hs] at hr
    | some mid =>
      simp only [hs] at hr
      obtain ⟨h1, h2⟩ := step_after_error list st mid a he hs
      obtain ⟨h3, h4⟩ := ih mid (by rw [h1]; exact he) hr
      exact ⟨by rw [h3, h1], by rw [h4, h2]⟩

/-- The sequential schedule runs to a finished state from every state in which the loop
stands between two rounds and no goroutine is running. -/
theorem sequentialSchedule_runs (list : Store → Except GoError Snapshots)
    (pending : List (String × Store)) (st : FetchState) (hp : st.pending = pending)
    (hat : st.atStop = none) (hfl : st.inflight = []) :
    ∃ st', runSchedule list (sequentialSchedule list st.firstErr.isSome pending) st = some st' ∧
      st'.finished = true := by
  induction pending generalizing st with
  | nil =>
    refine ⟨st, ?_, ?_⟩
    · cases st.firstErr.isSome <;> rfl
    · simp [FetchState.finished, hp, hat, hfl]
  | cons p rest ih =>
    obtain ⟨name, store⟩ := p
    have hadv : st.step list FetchStep.advance
        = some { st with pending := rest, storeName := name, atStop := some store } := by
      unfold FetchState.step
      simp [hat, hp]
    cases hf : st.firstErr with
    | some first =>
      have hdis : FetchState.step list
          { st with pending := rest, storeName := name, atStop := some store }
          FetchStep.dispatch
          = some { st with pending := rest, storeName := name, atStop := none } := by
        unfold FetchState.step
        simp [hf]
      obtain ⟨st', h1, h2⟩ := ih { st with pending := rest, storeName := name, atStop := none }
        rfl rfl hfl
      refine ⟨st', ?_, h2⟩
      simp only [hf, Option.isSome_some] at h1 ⊢
      rw [sequentialSchedule, runSchedule, hadv]
      simp only
      rw [runSchedule, hdis]
      simp only [hf]
      exact h1
    | none =>
      have hdis : FetchState.step list
          { st with pending := rest, storeName := name, atStop := some store }
          FetchStep.dispatch
          = some { st with pending := rest, storeName := name, atStop := none
                           inflight := [store], started := st.started ++ [store] } := by
        unfold FetchState.step
        simp [hf, hfl]
      simp only [Option.isSome_none]
      rw [sequentialSchedule, runSchedule, hadv]
      simp only
      rw [runSchedule, hdis]
      simp only
      rw [runSchedule]
      cases hl : list store with
      | error err =>
        have hfin : FetchState.step list
            { st with pending := rest, storeName := name, atStop := none
                      inflight := [store], started := st.started ++ [store] }
            (FetchStep.finish 0)
            = some { st with pending := rest, storeName := name, atStop := none
                             inflight := [], started := st.started ++ [store]
                             firstErr := some err } := by
          unfold FetchState.step
          simp [hl, hf]
        rw [hfin]
        simp only
        obtain ⟨st', h1, h2⟩ := ih
          { st with pending := rest, storeName := name, atStop := none
                    inflight := [], started := st.started ++ [store]
                    firstErr := some err } rfl rfl rfl
        refine ⟨st', ?_, h2⟩
        simpa [Except.toBool] using h1
      | ok snapshots =>
        have hfin : FetchState.step list
            { st with pending := rest, storeName := name, atStop := none
                      inflight := [store], started := st.started ++ [store] }
            (FetchStep.finish 0)
            = some { st with pending := rest, storeName := name, atStop := none
                             inflight := [], started := st.started ++ [store]
                             out := setSnapshots name snapshots st.out } := by
          unfold FetchState.step
          simp [hl]
        rw [hfin]
        simp only
        obtain ⟨st', h1, h2⟩ := ih
          { st with pending := rest, storeName := name, atStop := none
                    inflight := [], started := st.started ++ [store]
                    out := setSnapshots name snapshots st.out } rfl rfl rfl
        refine ⟨st', ?_, h2⟩
        simpa [Except.toBool, hf] using h1

/-- The error path of `FetchStorageState`: whatever the schedule, when it returns it returns
either a state and a nil error or a nil state and an error. If a listing that was started fails, the state
is nil and the error wraps the error of a listing that was started; from the moment an error
is recorded no further listing is started; if the listing of every store succeeds, the error
is nil. For every input some schedule lets `FetchStorageState` return. -/
theorem fetch_outcome (list : Store → Except GoError Snapshots)
    (stores : List (String × Store)) (sched : List FetchStep) (st : FetchState)
    (hrun : runSchedule list sched (initFetch stores) = some st)
    (hfin : st.finished = true) :
    (fetchResult st = (some { snapshots := st.out }, none) ∨
      ∃ e, fetchResult st = (none, some (GoError.wrap "running list snapshots" e))) ∧
    ((∃ s ∈ st.started, ∃ e, list s = Except.error e) →
      ∃ s ∈ st.started, ∃ e, list s = Except.error e ∧
        fetchResult st = (none, some (GoError.wrap "running list snapshots" e))) ∧
    (∀ (s1 s2 : List FetchStep) (mid : FetchState), sched = s1 ++ s2 →
      runSchedule list s1 (initFetch stores) = some mid → mid.firstErr ≠ none →
      st.started = mid.started) ∧
    ((∀ p ∈ stores, ∃ snapshots, list p.2 = Except.ok snapshots) →
      fetchResult st = (some { snapshots := st.out }, none)) ∧
    ∃ st', runSchedule list (sequentialSchedule list false stores) (initFetch stores)
        = some st' ∧ st'.finished = true := by
  have hinv := runSchedule_inv list stores sched _ st (initFetch_inv list stores) hrun
  have hfl : st.inflight = [] := by
    unfold FetchState.finished at hfin
    simp only [Bool.and_eq_true, List.isEmpty_iff] at hfin
    exact hfin.2
  refine ⟨?_, ?_, ?_, ?_, ?_⟩
  · unfold fetchResult
    cases st.firstErr with
    | none => exact Or.inl rfl
    | some e => exact Or.inr ⟨e, rfl⟩
  · rintro ⟨s, hs, e, hl⟩
    rcases hinv.failing s hs e hl with h1 | h1
    · rw [hfl] at h1; simp at h1
    · cases hf : st.firstErr with
      | none => exact absurd hf h1
      | some first =>
        obtain ⟨s', hs', hl'⟩ := hinv.recorded first hf
        exact ⟨s', hs', first, hl', by unfold fetchResult; rw [hf]⟩
  · intro s1 s2 mid hsplit hmid he
    rw [hsplit, runSchedule_append, hmid] at hrun
    exact (runSchedule_after_error list s2 mid st he hrun).2
  · intro hall
    unfold fetchResult
    cases hf : st.firstErr with
    | none => rfl
    | some first =>
      obtain ⟨s, hs, hl⟩ := hinv.recorded first hf
      obtain ⟨name, hmem⟩ := hinv.startedSub s hs
      obtain ⟨snaps, hok⟩ := hall (name, s) hmem
      rw [hl] at hok
      exact absurd hok (by simp)
  · exact sequentialSchedule_runs list stores (initFetch stores) rfl rfl rfl

/-- The error path at an example: the listing of `B` fails after the listing of `A` has
finished. -/
theorem fetch_outcome_example :
    runSchedule exListFails (sequentialSchedule exListFails false exStores) (initFetch exStores)
      = some
        { pending := [], storeName := "B", atStop := none, inflight := []
          firstErr := some (GoError.other "listing loc-b")
          out := [("A", ⟨[⟨0, 100⟩]⟩)]
          started := [⟨"loc-a"⟩, ⟨"loc-b"⟩] } ∧
    fetchResult
        { pending := [], storeName := "B", atStop := none, inflight := []
          firstErr := some (GoError.other "listing loc-b")
          out := [("A", ⟨[⟨0, 100⟩]⟩)]
          started := [⟨"loc-a"⟩, ⟨"loc-b"⟩] }
      = (none, some (GoError.wrap "running list snapshots" (GoError.other "listing loc-b"))) ∧
    ∃ s ∈ [(⟨"loc-a"⟩ : Store), ⟨"loc-b"⟩], ∃ e, exListFails s = Except.error e ∧
      fetchResult
          { pending := [], storeName := "B", atStop := none, inflight := []
            firstErr := some (GoError.other "listing loc-b")
            out := [("A", ⟨[⟨0, 100⟩]⟩)]
            started := [⟨"loc-a"⟩, ⟨"loc-b"⟩] }
        = (none, some (GoError.wrap "running list snapshots" e)) :=
  ⟨rfl, rfl,
    (fetch_outcome exListFails exStores (sequentialSchedule exListFails false exStores)
      { pending := [], storeName := "B", atStop := none, inflight := []
        firstErr := some (GoError.other "listing loc-b")
        out := [("A", ⟨[⟨0, 100⟩]⟩)]
        started := [⟨"loc-a"⟩, ⟨"loc-b"⟩] } rfl rfl).2.1
      ⟨⟨"loc-b"⟩, by decide, GoError.other "listing loc-b", rfl⟩⟩

/-- C18, the code at a failing input: with the stores `A` and `B`, whose listings both
succeed, and the schedule in which both goroutines write after the loop has reached `B`,
`FetchStorageState` returns a state whose only entry is under the name `B` and holds the
listing of the store `A`. -/
theorem fetch_late_write :
    (∀ p ∈ exStores, ∃ snapshots, exList p.2 = Except.ok snapshots) ∧
    runSchedule exList exLateSchedule (initFetch exStores)
      = some
        { pending := [], storeName := "B", atStop := none, inflight := [], firstErr := none
          out := [("B", ⟨[⟨0, 100⟩]⟩)]
          started := [⟨"loc-a"⟩, ⟨"loc-b"⟩] } ∧
    fetchResult
        { pending := [], storeName := "B", atStop := none, inflight := [], firstErr := none
          out := [("B", ⟨[⟨0, 100⟩]⟩)]
          started := [⟨"loc-a"⟩, ⟨"loc-b"⟩] }
      = (some { snapshots := [("B", ⟨[⟨0, 100⟩]⟩)] }, none) ∧
    exList ⟨"loc-a"⟩ = Except.ok ⟨[⟨0, 100⟩]⟩ ∧
    exList ⟨"loc-b"⟩ = Except.ok ⟨[⟨0, 200⟩]⟩ ∧
    ¬ FetchEntriesClaim exList exStores
        { pending := [], storeName := "B", atStop := none, inflight := [], firstErr := none
          out := [("B", ⟨[⟨0, 100⟩]⟩)]
          started := [⟨"loc-a"⟩, ⟨"loc-b"⟩] } := by
  refine ⟨?_, rfl, rfl, rfl, rfl, ?_⟩
  · intro p hp
    unfold exList
    split
    · exact ⟨_, rfl⟩
    · exact ⟨_, rfl⟩
  · rintro ⟨hperm, _⟩
    have := hperm.length_eq
    simp [exStores] at this

/-- C17, the code at a failing input: with the stores `A`, `B` and `C`, whose listings all
succeed, and the schedule in which the listings of `B` and `C` end after the loop has
reached `C`, every listing is started and none fails, and `FetchStorageState` returns, with
a nil error, a state that has the entries of `A` and of `C` and no entry for `B`. -/
theorem fetch_partial_state :
    (∀ p ∈ exThreeStores, ∃ snapshots, exListThree p.2 = Except.ok snapshots) ∧
    runSchedule exListThree exPartialSchedule (initFetch exThreeStores)
      = some
        { pending := [], storeName := "C", atStop := none, inflight := [], firstErr := none
          out := [("A", ⟨[⟨0, 100⟩]⟩), ("C", ⟨[⟨0, 300⟩]⟩)]
          started := [⟨"loc-a"⟩, ⟨"loc-b"⟩, ⟨"loc-c"⟩] } ∧
    FetchState.finished
        { pending := [], storeName := "C", atStop := none, inflight := [], firstErr := none
          out := [("A", ⟨[⟨0, 100⟩]⟩), ("C", ⟨[⟨0, 300⟩]⟩)]
          started := [⟨"loc-a"⟩, ⟨"loc-b"⟩, ⟨"loc-c"⟩] } = true ∧
    fetchResult
        { pending := [], storeName := "C", atStop := none, inflight := [], firstErr := none
          out := [("A", ⟨[⟨0, 100⟩]⟩), ("C", ⟨[⟨0, 300⟩]⟩)]
          started := [⟨"loc-a"⟩, ⟨"loc-b"⟩, ⟨"loc-c"⟩] }
      = (some { snapshots := [("A", ⟨[⟨0, 100⟩]⟩), ("C", ⟨[⟨0, 300⟩]⟩)] }, none) ∧
    ("B", (⟨"loc-b"⟩ : Store)) ∈ exThreeStores ∧
    ∀ snapshots : Snapshots,
      ("B", snapshots) ∉ [("A", (⟨[⟨0, 100⟩]⟩ : Snapshots)), ("C", ⟨[⟨0, 300⟩]⟩)] := by
  refine ⟨?_, rfl, rfl, rfl, by decide, ?_⟩
  · intro p hp
    unfold exListThree
    split
    · exact ⟨_, rfl⟩
    · split
      · exact ⟨_, rfl⟩
      · exact ⟨_, rfl⟩
  · intro snapshots hc
    simp at hc

end Substreams
